import Mathlib

/-!
# log2udp2: buffering, batching and the event loop

A shallow embedding of `src/log2udp2.cc`.  The globals of the program (the
output byte queue, the packet descriptor queue, the line counter, the input
accumulator) and the locals of `main` that survive an iteration (`flushing`,
the two `revents` fields) form one `State`.  The functions `hasroom`,
`endpacket` and `addline` are translated line by line; one pass through the
`for(;;)` loop of `main` is `iteration`, driven by an `Event` that carries what
the operating system answered in that pass (`poll`, `read`, `errno`, `send`).

Modelling choices:

* Sizes and cursors are natural numbers.  The two places where the program
  converts a possibly negative `int` to `size_t` are kept (`intToSize`), and
  the `unsigned long` line counter wraps at `2 ^ 64`.  Line lengths are far
  below `2 ^ 64`, so sums of lengths do not wrap.
* `outbuf` and `pktbuf` are functions from indices to contents, so that a
  write beyond the physical end is expressible and can be excluded by proof.
  `input_buf` is the list of the `input_len` bytes in use.
* The field `trace` records what the program did (descriptors queued,
  descriptors sent, calls of `read`).  It is never read by the program.
* The line loop and the send loop take a fuel argument; both are shown not to
  depend on it once it covers the input bytes, respectively the queue slots
  (`lines_fuel`, `sendLoop_fuel`).
* Option parsing, address resolution and the creation of the socket are
  outside the model; `Config` holds the result of option parsing.
-/

namespace Log2udp2

/-- A byte of the input stream or of a packet, as its numeric value. -/
abbrev Byte := Nat

/-! ## Command-line configuration (lines 23-30) -/

/-- The option globals set by `getopt_long`.  The prefix is a pointer in the
source and is tested for being non-null, hence an `Option`. -/
structure Config where
  numbering : Bool
  line_prefix : Option (List Byte)
  line_delim : List Byte
  ignore_net_errs : Bool
  timeout : Int

/-- Source: `line_prefix_len`, zero unless `-p` was given. -/
def Config.line_prefix_len (cfg : Config) : Nat :=
  match cfg.line_prefix with
  | some p => p.length
  | none => 0

/-- Source: `line_delim_len`. -/
def Config.line_delim_len (cfg : Config) : Nat := cfg.line_delim.length

/-- The "minimal sanity check" of `main` (line 189) passes. -/
def sane (cfg : Config) : Prop := cfg.line_prefix_len + cfg.line_delim_len ≤ 512

instance (cfg : Config) : Decidable (sane cfg) := by
  unfold sane; infer_instance

/-- The option values when no option is given: tab delimiter, no numbering,
no prefix, network errors fatal, no merge timeout. -/
def defaults : Config :=
  { numbering := false, line_prefix := none, line_delim := [9],
    ignore_net_errs := false, timeout := -1 }

/-! ## Constants -/

def outbuf_size : Nat := 1024 * 1024
def pktbuf_size : Nat := 1024
def insize : Nat := 1024 * 1024

/-- Values of `<poll.h>` on Linux. -/
def POLLIN : Nat := 1
def POLLOUT : Nat := 4
def POLLERR : Nat := 8
def POLLHUP : Nat := 16
def POLLNVAL : Nat := 32

/-! ## State -/

/-- One slot of `pktbuf`. -/
structure Desc where
  data : Nat
  len : Nat
deriving DecidableEq

/-- Observations recorded while the program runs: a descriptor entering the
queue (with the bytes it denotes at that moment), a descriptor leaving the
queue after `send` (with the bytes handed to `send`), a call of `read`.  They
are history only: no operation reads them. -/
inductive Obs where
  | enq (data len : Nat) (payload : List Byte)
  | tx (data len : Nat) (payload : List Byte)
  | rd
deriving DecidableEq

/-- The globals of the program and the loop-carried locals of `main`.
`input_buf` holds the bytes `input_buf[0 .. input_len)` of the source; the
bytes of the array beyond `input_len` are never read before they are
overwritten. -/
structure State where
  outbuf : Nat → Byte
  outbuf_tail : Nat
  outbuf_head : Nat
  outbuf_len : Nat
  pktbuf : Nat → Desc
  pktbuf_tail : Nat
  pktbuf_head : Nat
  line_number : Nat
  input_buf : List Byte
  flushing : Bool
  revents0 : Nat
  revents1 : Nat
  trace : List Obs

/-- Source: `input_len`. -/
def State.input_len (s : State) : Nat := s.input_buf.length

/-- The state at program start: zero-initialised statics.  The `revents`
fields are uninitialised in the source; the first `poll` writes them before
they are read. -/
def init : State :=
  { outbuf := fun _ => 0, outbuf_tail := 0, outbuf_head := 0, outbuf_len := 0,
    pktbuf := fun _ => ⟨0, 0⟩, pktbuf_tail := 0, pktbuf_head := 0,
    line_number := 0, input_buf := [], flushing := false,
    revents0 := 0, revents1 := 0, trace := [] }

/-! ## Helpers standing for libc -/

/-- Effect of `memcpy(dst + off, src, n)` on the destination array. -/
def memcpy (dst : Nat → Byte) (off : Nat) (src : List Byte) (n : Nat) : Nat → Byte :=
  fun i => if off ≤ i ∧ i < off + n then src.getD (i - off) 0 else dst i

/-- The bytes `buf[off .. off+n)`. -/
def bytesAt (buf : Nat → Byte) (off n : Nat) : List Byte :=
  (List.range n).map (fun i => buf (off + i))

/-- Value of a (possibly negative) `int` after conversion to the 64-bit
`size_t`. -/
def intToSize : Int → Nat
  | Int.ofNat n => n % 2 ^ 64
  | Int.negSucc n => 2 ^ 64 - 1 - n % 2 ^ 64

def decimalAux : Nat → Nat → List Byte → List Byte
  | 0, _, acc => acc
  | fuel + 1, n, acc =>
    if n < 10 then (48 + n) :: acc
    else decimalAux fuel (n / 10) ((48 + n % 10) :: acc)

/-- Decimal digits of a natural number, as ASCII. -/
def decimal (n : Nat) : List Byte := decimalAux (n + 1) n []

/-- Text produced by `"%ld"` for the `unsigned long` value `n`: the counter is
printed as a signed 64-bit number. -/
def fmtLong (n : Nat) : List Byte :=
  if n % 2 ^ 64 < 2 ^ 63 then decimal (n % 2 ^ 64)
  else 45 :: decimal (2 ^ 64 - n % 2 ^ 64)

/-! ## `hasroom`, `endpacket`, `addline` (lines 71-138) -/

def hasroom (s : State) : Bool :=
  if (s.pktbuf_head + 1) % pktbuf_size = s.pktbuf_tail then false
  else if s.outbuf_head < s.outbuf_tail then decide (s.outbuf_tail - s.outbuf_head ≥ 65536)
  else if s.outbuf_head + 65536 < outbuf_size then true
  else if s.outbuf_tail ≥ 65536 then true
  else false

def endpacket (s : State) : State :=
  if s.outbuf_len > 0 then
    let head := s.outbuf_head + s.outbuf_len
    { s with
      pktbuf := fun i => if i = s.pktbuf_head then ⟨s.outbuf_head, s.outbuf_len⟩ else s.pktbuf i
      pktbuf_head := (s.pktbuf_head + 1) % pktbuf_size
      outbuf_head := if head + 65536 ≥ outbuf_size then 0 else head
      outbuf_len := 0
      trace := s.trace ++
        [Obs.enq s.outbuf_head s.outbuf_len (bytesAt s.outbuf s.outbuf_head s.outbuf_len)] }
  else s

/-- Lines 104-105: `while(len && buf[len-1]=='\r') --len;`, started at `len`. -/
def stripLen (buf : List Byte) : Nat → Nat
  | 0 => 0
  | len + 1 => if buf.getD len 0 = 13 then stripLen buf len else len + 1

/-- Lines 109-118: the header bytes built in `hdr`; `hdr_len` is its length. -/
def header (cfg : Config) (line_number : Nat) : List Byte :=
  (if cfg.numbering then fmtLong line_number ++ cfg.line_delim else []) ++
  (match cfg.line_prefix with
   | some p => p ++ cfg.line_delim
   | none => [])

/-- Lines 120-121: the line length after the hard cap, given the length left
by carriage-return stripping. -/
def capLen (hdr_len len : Nat) : Nat :=
  if len + hdr_len > 65534 then intToSize (65534 - (hdr_len : Int)) else len

/-- Lines 111-124 on a non-empty line: the counter is advanced and the packet
in progress is sealed when the new record would push it past 1491 bytes. -/
def preSeal (cfg : Config) (s : State) (buf : List Byte) : State :=
  let hdr_len := (header cfg s.line_number).length
  let len := capLen hdr_len (stripLen buf buf.length)
  let s1 := if cfg.numbering then { s with line_number := (s.line_number + 1) % 2 ^ 64 } else s
  if s1.outbuf_len ≠ 0 ∧ s1.outbuf_len + hdr_len + len > 1491 then endpacket s1 else s1

/-- Lines 126-134: header, line bytes and the terminator are copied behind the
packet in progress. -/
def append (cfg : Config) (s : State) (buf : List Byte) : State :=
  let hdr := header cfg s.line_number
  let hdr_len := hdr.length
  let len := capLen hdr_len (stripLen buf buf.length)
  let s2 := preSeal cfg s buf
  let cp_ptr := s2.outbuf_head
  let s3 :=
    if hdr_len ≠ 0 then
      { s2 with
        outbuf := memcpy s2.outbuf (cp_ptr + s2.outbuf_len) hdr hdr_len
        outbuf_len := s2.outbuf_len + hdr_len }
    else s2
  let s4 :=
    { s3 with
      outbuf := memcpy s3.outbuf (cp_ptr + s3.outbuf_len) buf len
      outbuf_len := s3.outbuf_len + len }
  { s4 with
    outbuf := memcpy s4.outbuf (cp_ptr + s4.outbuf_len) [10] 1
    outbuf_len := s4.outbuf_len + 1 }

/-- Source: `addline(buf, len)` with `len = buf.length`. -/
def addline (cfg : Config) (s : State) (buf : List Byte) : State :=
  if stripLen buf buf.length = 0 then s
  else
    let hdr_len := (header cfg s.line_number).length
    let s5 := append cfg s buf
    if s5.outbuf_len ≥ intToSize (1491 - (hdr_len : Int)) then endpacket s5 else s5

/-! ## The event loop of `main` (lines 222-323) -/

/-- Outcome of `poll`: failure (with `errno == EINTR` or not), expiry of the
timeout, or readiness bits for standard input and for the socket. -/
inductive PollResult where
  | failed (eintr : Bool)
  | timeout
  | ready (r0 r1 : Nat)

/-- Outcome of `read`: failure, end of stream, or bytes. -/
inductive ReadResult where
  | failed
  | eof
  | data (bytes : List Byte)

/-- Outcome of `send`: a byte count, `EAGAIN`/`EWOULDBLOCK`, or another error. -/
inductive SendResult where
  | sent (n : Nat)
  | wouldBlock
  | failed

/-- What the operating system answers during one pass through the loop.
`send k` is the answer to the `k`-th call of `send` in that pass, and
`refused` says whether `errno` is `ECONNREFUSED` at line 294. -/
structure Event where
  poll : PollResult
  read : ReadResult
  refused : Bool
  send : Nat → SendResult

/-- Either the loop goes on with a new state, or `main` returns a status. -/
inductive Outcome where
  | running (s : State)
  | exited (code : Nat) (s : State)

def Outcome.state : Outcome → State
  | .running s => s
  | .exited _ s => s

/-- The mask of error conditions `POLLERR|POLLHUP|POLLNVAL`. -/
def POLLBAD : Nat := POLLERR ||| POLLHUP ||| POLLNVAL

/-- Line 237-238: interest registered for standard input in normal operation. -/
def events0 (s : State) : Nat := if s.input_len < insize then POLLIN else 0

/-- Line 239-240: interest registered for the socket in normal operation. -/
def events1 (s : State) : Nat := if s.pktbuf_tail ≠ s.pktbuf_head then POLLOUT else 0

/-- Contract of `poll(2)`: the returned bits are among the requested ones and
the three error conditions. -/
def pollMask (events ready : Nat) : Nat := ready &&& (events ||| POLLBAD)

/-- Lines 228-242: the `revents` fields after a `poll` that did not fail.
While flushing only `fds[1]` is passed to `poll`, so `fds[0].revents` keeps
its previous value. -/
def afterPoll (s : State) : PollResult → State
  | .failed _ => s
  | .timeout =>
    if s.flushing then { s with revents1 := 0 }
    else { s with revents0 := 0, revents1 := 0 }
  | .ready r0 r1 =>
    if s.flushing then { s with revents1 := pollMask POLLOUT r1 }
    else { s with revents0 := pollMask (events0 s) r0, revents1 := pollMask (events1 s) r1 }

/-- Lines 275-276: `while(lend<input_len && input_buf[lend]!='\n') lend++;`
over the bytes that follow position `lend`. -/
def scan : List Byte → Nat → Nat
  | [], lend => lend
  | b :: bs, lend => if b ≠ 10 then scan bs (lend + 1) else lend

/-- Lines 273-281: the loop handing complete lines to `addline`; returns the
state and `input_ptr`.  Every round moves `input_ptr` past one terminator, so
`input_len` rounds are enough. -/
def lines (cfg : Config) : Nat → State → Nat → State × Nat
  | 0, s, input_ptr => (s, input_ptr)
  | fuel + 1, s, input_ptr =>
    if input_ptr < s.input_len ∧ hasroom s = true then
      let lend := scan (s.input_buf.drop input_ptr) input_ptr
      if lend ≥ s.input_len then (s, input_ptr)
      else
        lines cfg fuel
          (addline cfg s ((s.input_buf.drop input_ptr).take (lend - input_ptr))) (lend + 1)
    else (s, input_ptr)

/-- Lines 282-286: the unconsumed bytes are moved to the front. -/
def compact (s : State) (input_ptr : Nat) : State :=
  if input_ptr ≠ 0 ∧ input_ptr < s.input_len then
    { s with input_buf := s.input_buf.drop input_ptr }
  else { s with input_buf := [] }

/-- Lines 270-287: the branch `readlen > 0`, with the bytes just read. -/
def readStep (cfg : Config) (s : State) (chunk : List Byte) : State :=
  let s1 := { s with input_buf := s.input_buf ++ chunk }
  let r := lines cfg s1.input_len s1 0
  compact r.1 r.2

/-- Lines 255-288: reaction to `fds[0].revents`. -/
def inputStep (cfg : Config) (ev : Event) (s : State) : State :=
  if s.revents0 &&& POLLBAD ≠ 0 then { endpacket s with flushing := true }
  else if s.revents0 &&& POLLIN ≠ 0 then
    let s1 := { s with trace := s.trace ++ [Obs.rd] }
    match ev.read with
    | .failed => { endpacket s1 with flushing := true }
    | .eof => { endpacket s1 with flushing := true }
    | .data bytes =>
      let chunk := bytes.take (insize - s1.input_len)
      if chunk.length = 0 then { endpacket s1 with flushing := true }
      else readStep cfg s1 chunk
  else s

/-- Lines 316-320: the oldest descriptor leaves the queue. -/
def dequeue (s : State) : State :=
  let d := s.pktbuf s.pktbuf_tail
  let tail := (s.pktbuf_tail + 1) &&& (pktbuf_size - 1)
  { s with
    pktbuf_tail := tail
    outbuf_tail := if tail = s.pktbuf_head then s.outbuf_head else (s.pktbuf tail).data
    trace := s.trace ++ [Obs.tx d.data d.len (bytesAt s.outbuf d.data d.len)] }

/-- Lines 300-321: the send loop; `k` counts the calls of `send` made so far
in this pass.  Every round that goes on removes one descriptor. -/
def sendLoop (cfg : Config) (send : Nat → SendResult) : Nat → Nat → State → Outcome
  | 0, _, s => .running s
  | fuel + 1, k, s =>
    if s.pktbuf_head ≠ s.pktbuf_tail then
      match send k with
      | .sent n => if n = 0 then .running s else sendLoop cfg send fuel (k + 1) (dequeue s)
      | .wouldBlock => .running s
      | .failed =>
        if cfg.ignore_net_errs then
          if (s.pktbuf s.pktbuf_tail).len = 0 then .running s
          else sendLoop cfg send fuel (k + 1) (dequeue s)
        else .exited 2 s
    else .running s

/-- Lines 290-322: reaction to `fds[1].revents`. -/
def outputStep (cfg : Config) (ev : Event) (s : State) : Outcome :=
  if s.revents1 &&& POLLBAD ≠ 0 ∧ (ev.refused = false ∨ cfg.ignore_net_errs = false) then
    .exited 2 s
  else if s.revents1 &&& POLLOUT ≠ 0 then sendLoop cfg ev.send pktbuf_size 0 s
  else .running s

/-- One pass through the `for(;;)` loop of `main`. -/
def iteration (cfg : Config) (ev : Event) (s : State) : Outcome :=
  if s.flushing = true ∧ s.pktbuf_tail = s.pktbuf_head then .exited 0 s
  else
    match ev.poll with
    | .failed eintr => if eintr then .running s else .exited 2 s
    | .timeout => outputStep cfg ev (inputStep cfg ev (endpacket (afterPoll s .timeout)))
    | .ready r0 r1 => outputStep cfg ev (inputStep cfg ev (afterPoll s (.ready r0 r1)))

/-- The loop, fed with the answers of the operating system pass by pass. -/
def run (cfg : Config) : List Event → State → Outcome
  | [], s => .running s
  | ev :: evs, s =>
    match iteration cfg ev s with
    | .running s1 => run cfg evs s1
    | .exited code s1 => .exited code s1

/-- The program after option parsing: the sanity check, then the loop. -/
def main (cfg : Config) (evs : List Event) : Outcome :=
  if cfg.line_prefix_len + cfg.line_delim_len > 512 then .exited 1 init
  else run cfg evs init


/-! ## Answers the operating system can give -/

/-- Lines 232 and 241: the timeout handed to `poll`; negative means no limit. -/
def pollWait (cfg : Config) (s : State) : Int :=
  if s.flushing then -1 else if s.outbuf_len ≠ 0 then cfg.timeout else -1

/-- `poll` returns 0 only when its wait is limited, and a positive count only
when some descriptor has a bit to report. -/
def pollOk (cfg : Config) (s : State) : PollResult → Bool
  | .failed _ => true
  | .timeout => decide (0 ≤ pollWait cfg s)
  | .ready r0 r1 =>
    if s.flushing then decide (pollMask POLLOUT r1 ≠ 0)
    else decide (pollMask (events0 s) r0 ≠ 0 ∨ pollMask (events1 s) r1 ≠ 0)

/-- `read` returns at least one byte and no more than it was asked for. -/
def readOk (s : State) : ReadResult → Bool
  | .data bytes => decide (0 < bytes.length ∧ s.input_len + bytes.length ≤ insize)
  | _ => true

/-- The answers of one pass are possible in state `s`.  (In the pass that
leaves the loop no system call is made.) -/
def admissible (cfg : Config) (s : State) (ev : Event) : Bool :=
  (s.flushing && decide (s.pktbuf_tail = s.pktbuf_head)) ||
    (pollOk cfg s ev.poll && readOk s ev.read)

/-- Every pass of the run gets answers that are possible in its state. -/
def runOk (cfg : Config) : List Event → State → Bool
  | [], _ => true
  | ev :: evs, s =>
    admissible cfg s ev &&
      match iteration cfg ev s with
      | .running s1 => runOk cfg evs s1
      | .exited _ _ => true

/-! ## Vocabulary of the statements -/

/-- The regions `(data, len)` entered into the descriptor queue, oldest first. -/
def enqs : List Obs → List (Nat × Nat)
  | [] => []
  | Obs.enq d l _ :: tr => (d, l) :: enqs tr
  | _ :: tr => enqs tr

/-- The regions `(data, len)` handed to `send` and then removed from the
queue, oldest first. -/
def txs : List Obs → List (Nat × Nat)
  | [] => []
  | Obs.tx d l _ :: tr => (d, l) :: txs tr
  | _ :: tr => txs tr

/-- The payload bytes handed to `send`, in transmission order. -/
def sentBytes : List Obs → List Byte
  | [] => []
  | Obs.tx _ _ p :: tr => p ++ sentBytes tr
  | _ :: tr => sentBytes tr

/-- Number of calls of `read`. -/
def reads : List Obs → Nat
  | [] => 0
  | Obs.rd :: tr => reads tr + 1
  | _ :: tr => reads tr

/-- The `n` bytes that `memcpy(_, buf, n)` copies out of the line. -/
def srcBytes (buf : List Byte) (n : Nat) : List Byte :=
  (List.range n).map (fun i => buf.getD i 0)

/-- The record that `addline` appends for a line that is not empty after
stripping: header, line bytes up to the hard cap, terminator. -/
def record (cfg : Config) (line_number : Nat) (buf : List Byte) : List Byte :=
  header cfg line_number ++
    srcBytes buf (capLen (header cfg line_number).length (stripLen buf buf.length)) ++ [10]

/-- A byte string is one whole record of some non-empty line. -/
def IsRecord (cfg : Config) (r : List Byte) : Prop :=
  ∃ n buf, stripLen buf buf.length ≠ 0 ∧ r = record cfg n buf

/-- A byte string is a concatenation of whole records. -/
def WholeRecords (cfg : Config) (p : List Byte) : Prop :=
  ∃ rs : List (List Byte), (∀ r ∈ rs, IsRecord cfg r) ∧ p = rs.flatten

/-- First index of `outbuf` written by `addline cfg s buf` (for a line that is
not empty after stripping): the end of the packet in progress once lines
123-124 have run. -/
def writeStart (cfg : Config) (s : State) (buf : List Byte) : Nat :=
  (preSeal cfg s buf).outbuf_head + (preSeal cfg s buf).outbuf_len

/-- The index `i` of `outbuf` is written by `addline cfg s buf`. -/
def Writes (cfg : Config) (s : State) (buf : List Byte) (i : Nat) : Prop :=
  stripLen buf buf.length ≠ 0 ∧
    writeStart cfg s buf ≤ i ∧
    i < writeStart cfg s buf + (record cfg s.line_number buf).length

/-- The slot `i` of `pktbuf` holds a descriptor that is queued: it lies
between `pktbuf_tail` (included) and `pktbuf_head` (excluded), cyclically. -/
def Queued (s : State) (i : Nat) : Prop :=
  i < pktbuf_size ∧
    (i + pktbuf_size - s.pktbuf_tail) % pktbuf_size <
      (s.pktbuf_head + pktbuf_size - s.pktbuf_tail) % pktbuf_size

/-- States of the event loop at any point between two queue operations: lines
are admitted only when `hasroom` holds, the packet in progress may be sealed
at any time (timeout, end of stream, read error), the oldest descriptor may
leave a non-empty queue after a send, and input, flags and poll results
change freely. -/
inductive Reachable (cfg : Config) : State → Prop where
  | init : Reachable cfg init
  | line (s : State) (buf : List Byte) :
      Reachable cfg s → hasroom s = true → Reachable cfg (addline cfg s buf)
  | forced (s : State) : Reachable cfg s → Reachable cfg (endpacket s)
  | sent (s : State) :
      Reachable cfg s → s.pktbuf_head ≠ s.pktbuf_tail → Reachable cfg (dequeue s)
  | env (s : State) (ib : List Byte) (fl : Bool) (r0 r1 : Nat) :
      Reachable cfg s →
      Reachable cfg { s with input_buf := ib, flushing := fl, revents0 := r0, revents1 := r1 }
  | read (s : State) :
      Reachable cfg s → Reachable cfg { s with trace := s.trace ++ [Obs.rd] }

/-- The bounds kept by every queue operation: the write cursor stays more
than 64 KiB before the physical end, the packet in progress has at most 65535
bytes, every slot of `pktbuf` denotes a region inside `outbuf`, and every
descriptor ever queued has between 1 and 65535 bytes. -/
def Bounded (s : State) : Prop :=
  s.outbuf_head + 65536 < outbuf_size ∧
  s.outbuf_len ≤ 65535 ∧
  (∀ i, (s.pktbuf i).data + (s.pktbuf i).len ≤ outbuf_size) ∧
  (∀ d l p, Obs.enq d l p ∈ s.trace → 0 < l ∧ l ≤ 65535)

/-- The packet in progress and every packet sealed so far consist of whole
records, and a non-empty packet ends with the terminator. -/
def Tidy (cfg : Config) (s : State) : Prop :=
  WholeRecords cfg (bytesAt s.outbuf s.outbuf_head s.outbuf_len) ∧
  (s.outbuf_len ≠ 0 → (bytesAt s.outbuf s.outbuf_head s.outbuf_len).getLast? = some 10) ∧
  ∀ d l p, Obs.enq d l p ∈ s.trace →
    WholeRecords cfg p ∧ p.length = l ∧ p.getLast? = some 10

/-! ## Scripted answers of the operating system -/

def Outcome.code : Outcome → Option Nat
  | .running _ => none
  | .exited c _ => some c

/-- `poll` reports standard input readable and the socket not writable;
`read` returns `bytes`. -/
def rdEv (bytes : List Byte) : Event :=
  { poll := .ready POLLIN 0, read := .data bytes, refused := false,
    send := fun _ => .wouldBlock }

/-- `poll` returns 0: the merge timeout has expired with nothing ready. -/
def tmoEv : Event :=
  { poll := .timeout, read := .eof, refused := false, send := fun _ => .wouldBlock }

/-- `poll` reports standard input readable and `read` returns 0. -/
def eofEv : Event :=
  { poll := .ready POLLIN 0, read := .eof, refused := false, send := fun _ => .wouldBlock }

/-- `poll` reports the socket writable; every `send` takes the whole packet
(`n` bytes); a `read`, should one be made, returns 0. -/
def txEv (n : Nat) : Event :=
  { poll := .ready 0 POLLOUT, read := .eof, refused := false, send := fun _ => .sent n }

/-! ## Runs used to exhibit the behaviour of the loop -/

/-- The default options with a merge timeout of zero milliseconds (`-t 0`). -/
def cfgT : Config := { defaults with timeout := 0 }

/-- `n` times: the line `a` arrives alone, then the merge timeout expires. -/
def fill : Nat → List Event
  | 0 => []
  | n + 1 => rdEv [97, 10] :: tmoEv :: fill n

/-- A line of 1490 bytes `b`. -/
def longLine : List Byte := List.replicate 1490 98

/-- The state after `k` rounds of `fill`: `k` packets of two bytes are queued,
nothing has been sent, no packet is in progress. -/
def Filled (k : Nat) (s : State) : Prop :=
  s.flushing = false ∧ s.input_buf = [] ∧ s.outbuf_len = 0 ∧
  s.pktbuf_head = k ∧ s.pktbuf_tail = 0 ∧ s.outbuf_tail = 0 ∧ s.outbuf_head = 2 * k ∧
  (enqs s.trace).length = k ∧ txs s.trace = []

/-- As `Filled`, with the record of one line `a` in progress. -/
def Pending (k : Nat) (s : State) : Prop :=
  s.flushing = false ∧ s.input_buf = [] ∧ s.outbuf_len = 2 ∧
  s.pktbuf_head = k ∧ s.pktbuf_tail = 0 ∧ s.outbuf_tail = 0 ∧ s.outbuf_head = 2 * k ∧
  (enqs s.trace).length = k ∧ txs s.trace = []

/-- A line of 65534 bytes `a`: with no header it just fits the hard cap. -/
def bigLine : List Byte := List.replicate 65534 97

/-- The bytes of an input stream made of the given lines, each terminated. -/
def stream (ls : List (List Byte)) : List Byte :=
  (ls.map (fun l => l ++ [10])).flatten

/-- The payload promised for these input lines: every line without its
trailing carriage returns, empty lines left out, each followed by the
terminator. -/
def specPayload (ls : List (List Byte)) : List Byte :=
  (((ls.map (fun l => (l.reverse.dropWhile (fun b => b == 13)).reverse)).filter
    (fun l => !l.isEmpty)).map (fun l => l ++ [10])).flatten

/-- The line `ab` arrives in two reads, `a` and then `b` with the terminator;
then the input ends and the socket takes the queued packet. -/
def splitRun : List Event := [rdEv [97], rdEv [98, 10], eofEv, txEv 2, eofEv]

/-- `n` lines of 65534 bytes `a`, each terminated. -/
def bigChunk : Nat → List Byte
  | 0 => []
  | n + 1 => bigLine ++ 10 :: bigChunk n

/-- The queues after `k ≤ 16` lines `bigLine` were admitted at program start
and nothing was sent: `k` packets of 65535 bytes lie one behind the other, and
with the sixteenth the write cursor has gone back to offset 0. -/
def Packed (k : Nat) (s : State) : Prop :=
  s.outbuf_len = 0 ∧ s.pktbuf_head = k ∧ s.pktbuf_tail = 0 ∧ s.outbuf_tail = 0 ∧
  s.outbuf_head = (if k < 16 then 65535 * k else 0) ∧
  (1 ≤ k → s.pktbuf 0 = ⟨0, 65535⟩ ∧ s.outbuf 0 = 97)

/-- A state in normal operation whose input accumulator is full. -/
def fullInput : State := { init with input_buf := List.replicate insize 97 }

/-- Both queue indices are in range and every queued slot holds a descriptor
of at least one byte. -/
def Live (s : State) : Prop :=
  s.pktbuf_head < pktbuf_size ∧ s.pktbuf_tail < pktbuf_size ∧
  ∀ i, Queued s i → 0 < (s.pktbuf i).len

/-- The default options with line numbering (`-n`). -/
def cfgN : Config := { defaults with numbering := true }

/-! ## History of the packets, kept beside the state for the statements -/

/-- The payloads entered into the descriptor queue, oldest first. -/
def enqPayloads : List Obs → List (List Byte)
  | [] => []
  | Obs.enq _ _ p :: tr => p :: enqPayloads tr
  | _ :: tr => enqPayloads tr

/-- What has happened so far, in terms of lines: how many non-empty lines were
admitted, the records of the packet in progress, and, for every packet sealed
so far (oldest first), its records. -/
structure Ghost where
  count : Nat
  cur : List (List Byte)
  sealed : List (List (List Byte))
  deriving DecidableEq

/-- The history after `endpacket` has run in state `s`. -/
def Ghost.close (s : State) (g : Ghost) : Ghost :=
  if s.outbuf_len > 0 then { g with cur := [], sealed := g.sealed ++ [g.cur] } else g

/-- The history after `addline cfg s buf`: an empty line leaves no mark; for
any other line the packet in progress is closed first when lines 123-124 seal
it, the record of the line joins the packet in progress, and that packet is
closed when line 136-137 seals it. -/
def Ghost.line (cfg : Config) (s : State) (buf : List Byte) (g : Ghost) : Ghost :=
  if stripLen buf buf.length = 0 then g
  else
    let hdr_len := (header cfg s.line_number).length
    let len := capLen hdr_len (stripLen buf buf.length)
    let g1 := if s.outbuf_len ≠ 0 ∧ s.outbuf_len + hdr_len + len > 1491 then Ghost.close s g else g
    let g2 : Ghost :=
      { count := g1.count + 1, cur := g1.cur ++ [record cfg s.line_number buf],
        sealed := g1.sealed }
    if (append cfg s buf).outbuf_len ≥ intToSize (1491 - (hdr_len : Int)) then
      Ghost.close (append cfg s buf) g2
    else g2

/-- The states of the event loop (as in `Reachable`) together with their
history. -/
inductive Ghosted (cfg : Config) : State → Ghost → Prop where
  | init : Ghosted cfg init ⟨0, [], []⟩
  | line (s : State) (g : Ghost) (buf : List Byte) :
      Ghosted cfg s g → hasroom s = true →
      Ghosted cfg (addline cfg s buf) (Ghost.line cfg s buf g)
  | forced (s : State) (g : Ghost) :
      Ghosted cfg s g → Ghosted cfg (endpacket s) (Ghost.close s g)
  | sent (s : State) (g : Ghost) :
      Ghosted cfg s g → s.pktbuf_head ≠ s.pktbuf_tail → Ghosted cfg (dequeue s) g
  | env (s : State) (g : Ghost) (ib : List Byte) (fl : Bool) (r0 r1 : Nat) :
      Ghosted cfg s g →
      Ghosted cfg { s with input_buf := ib, flushing := fl, revents0 := r0, revents1 := r1 } g
  | read (s : State) (g : Ghost) :
      Ghosted cfg s g → Ghosted cfg { s with trace := s.trace ++ [Obs.rd] } g

/-- The history agrees with the state: the packet in progress is the
concatenation of its records, the payloads queued so far are the
concatenations of the records of the sealed packets, and no record is empty. -/
def Kept (s : State) (g : Ghost) : Prop :=
  bytesAt s.outbuf s.outbuf_head s.outbuf_len = g.cur.flatten ∧
  enqPayloads s.trace = g.sealed.map List.flatten ∧
  (∀ r ∈ g.cur, r ≠ [])

/-- The soft cap as the code keeps it: a packet of two or more records, in
progress or sealed, has at most 1492 bytes. -/
def SoftCapped (g : Ghost) : Prop :=
  (2 ≤ g.cur.length → g.cur.flatten.length ≤ 1492) ∧
  ∀ rs ∈ g.sealed, 2 ≤ rs.length → rs.flatten.length ≤ 1492

/-- A line of 1489 bytes `b`. -/
def nearLine : List Byte := List.replicate 1489 98

/-- The state after the line `a` was read alone at program start. -/
def oneLine : State :=
  { addline defaults
      { init with
        input_buf := [97] ++ [10], revents0 := POLLIN, revents1 := 0,
        trace := init.trace ++ [Obs.rd] } [97] with
    input_buf := [] }

/-- The state in which `addline` leaves the queues when the line of 1489 bytes
`b` is read next. -/
def twoLines : State :=
  addline defaults
    { oneLine with
      input_buf := nearLine ++ [10], revents0 := POLLIN, revents1 := 0,
      trace := oneLine.trace ++ [Obs.rd] } nearLine

/-- Reference for `endpacket`, in the words of its description, with the test
that decides the wrap left open: nothing happens when no packet is in
progress; otherwise the descriptor `(outbuf_head, outbuf_len)` is stored at
slot `pktbuf_head`, `pktbuf_head` advances modulo 1024, `outbuf_len` becomes 0,
and the write cursor advances past the packet, or goes to 0 when `wrap` holds
of the number of bytes that advancing would leave before the physical end.
The trace, which is no program state, grows as in `endpacket`. -/
def endpacketRefWith (wrap : Nat → Bool) (s : State) : State :=
  if s.outbuf_len = 0 then s
  else
    { s with
      pktbuf := fun i =>
        if i = s.pktbuf_head then ⟨s.outbuf_head, s.outbuf_len⟩ else s.pktbuf i
      pktbuf_head := (s.pktbuf_head + 1) % 1024
      outbuf_len := 0
      outbuf_head :=
        if wrap (outbuf_size - (s.outbuf_head + s.outbuf_len)) = true then 0
        else s.outbuf_head + s.outbuf_len
      trace := s.trace ++
        [Obs.enq s.outbuf_head s.outbuf_len (bytesAt s.outbuf s.outbuf_head s.outbuf_len)] }

/-- The reference with the wrap when less than 65536 bytes would be left. -/
def endpacketRef (s : State) : State :=
  endpacketRefWith (fun left => decide (left < 65536)) s

/-- The reference with the wrap when at most 65536 bytes would be left. -/
def endpacketRefAtMost (s : State) : State :=
  endpacketRefWith (fun left => decide (left ≤ 65536)) s

/-- A line of 14 bytes `a`. -/
def edgeLine : List Byte := List.replicate 14 97

/-! ## Basic facts -/

theorem intToSize_sub {a b : Nat} (h : b ≤ a) (ha : a < 2 ^ 64) :
    intToSize ((a : Int) - (b : Int)) = a - b := by
  have e : ((a : Int) - (b : Int)) = Int.ofNat (a - b) := by
    simp only [Int.ofNat_eq_coe]; omega
  rw [e]
  simp only [intToSize]
  exact Nat.mod_eq_of_lt (by omega)

theorem decimalAux_length (fuel : Nat) :
    ∀ (n : Nat) (acc : List Byte) (k : Nat), n < 10 ^ (k + 1) →
      (decimalAux fuel n acc).length ≤ acc.length + k + 1 := by
  induction fuel with
  | zero => intro n acc k _; simp only [decimalAux]; omega
  | succ fuel ih =>
    intro n acc k hn
    unfold decimalAux
    split
    · simp
    · rename_i h10
      cases k with
      | zero => simp at hn; omega
      | succ k =>
        have hd : n / 10 < 10 ^ (k + 1) := by
          rw [Nat.div_lt_iff_lt_mul (by decide)]
          rw [Nat.pow_succ] at hn; exact hn
        have := ih (n / 10) ((48 + n % 10) :: acc) k hd
        simp only [List.length_cons] at this
        omega

theorem decimal_length (n k : Nat) (hn : n < 10 ^ (k + 1)) : (decimal n).length ≤ k + 1 := by
  have := decimalAux_length (n + 1) n [] k hn
  simpa [decimal] using this

theorem fmtLong_length (n : Nat) : (fmtLong n).length ≤ 20 := by
  unfold fmtLong
  split
  · exact decimal_length _ 19 (by
      have : n % 2 ^ 64 < 2 ^ 64 := Nat.mod_lt _ (by decide)
      have h2 : (2 : Nat) ^ 64 < 10 ^ (19 + 1) := by decide
      omega)
  · rename_i h
    have := decimal_length (2 ^ 64 - n % 2 ^ 64) 18 (by
      have h2 : (2 : Nat) ^ 64 - 2 ^ 63 < 10 ^ (18 + 1) := by decide
      omega)
    simp only [List.length_cons]
    omega

theorem header_length_le (cfg : Config) (hc : sane cfg) (n : Nat) :
    (header cfg n).length ≤ 1044 := by
  unfold sane Config.line_prefix_len Config.line_delim_len at hc
  unfold header
  have h20 := fmtLong_length n
  cases hp : cfg.line_prefix <;> simp only [hp] at hc ⊢ <;> split <;>
    simp only [List.length_append, List.length_nil] <;> omega

theorem intToSize_65534 {b : Nat} (h : b ≤ 65534) :
    intToSize (65534 - (b : Int)) = 65534 - b := by
  have := intToSize_sub h (by decide)
  simpa using this

theorem intToSize_1491 {b : Nat} (h : b ≤ 1491) :
    intToSize (1491 - (b : Int)) = 1491 - b := by
  have := intToSize_sub h (by decide)
  simpa using this

theorem capLen_le (hdr_len len : Nat) (hh : hdr_len ≤ 65534) :
    hdr_len + capLen hdr_len len ≤ 65534 := by
  unfold capLen
  split
  · rw [intToSize_65534 hh]; omega
  · omega

/-! ## Field lemmas for `endpacket`, `preSeal`, `append` -/

theorem preSeal_cases (cfg : Config) (s : State) (buf : List Byte) :
    ∃ ln, preSeal cfg s buf = { s with line_number := ln } ∨
      (s.outbuf_len ≠ 0 ∧ preSeal cfg s buf = endpacket { s with line_number := ln }) := by
  unfold preSeal
  cases hn : cfg.numbering
  · refine ⟨s.line_number, ?_⟩
    simp only [Bool.false_eq_true, if_false]
    split
    · rename_i h; exact Or.inr ⟨h.1, rfl⟩
    · exact Or.inl rfl
  · refine ⟨(s.line_number + 1) % 2 ^ 64, ?_⟩
    simp only [if_true]
    split
    · rename_i h; exact Or.inr ⟨h.1, rfl⟩
    · exact Or.inl rfl

theorem append_outbuf_head (cfg : Config) (s : State) (buf : List Byte) :
    (append cfg s buf).outbuf_head = (preSeal cfg s buf).outbuf_head := by
  unfold append; simp only; split <;> rfl

theorem append_outbuf_len (cfg : Config) (s : State) (buf : List Byte) :
    (append cfg s buf).outbuf_len =
      (preSeal cfg s buf).outbuf_len + (header cfg s.line_number).length +
        capLen (header cfg s.line_number).length (stripLen buf buf.length) + 1 := by
  unfold append; simp only; split
  · rfl
  · rename_i h; simp only [ne_eq, Decidable.not_not] at h; simp [h]

theorem append_pktbuf (cfg : Config) (s : State) (buf : List Byte) :
    (append cfg s buf).pktbuf = (preSeal cfg s buf).pktbuf := by
  unfold append; simp only; split <;> rfl

theorem append_pktbuf_head (cfg : Config) (s : State) (buf : List Byte) :
    (append cfg s buf).pktbuf_head = (preSeal cfg s buf).pktbuf_head := by
  unfold append; simp only; split <;> rfl

theorem append_pktbuf_tail (cfg : Config) (s : State) (buf : List Byte) :
    (append cfg s buf).pktbuf_tail = (preSeal cfg s buf).pktbuf_tail := by
  unfold append; simp only; split <;> rfl

theorem append_outbuf_tail (cfg : Config) (s : State) (buf : List Byte) :
    (append cfg s buf).outbuf_tail = (preSeal cfg s buf).outbuf_tail := by
  unfold append; simp only; split <;> rfl

theorem append_trace (cfg : Config) (s : State) (buf : List Byte) :
    (append cfg s buf).trace = (preSeal cfg s buf).trace := by
  unfold append; simp only; split <;> rfl

/-! ## The bounds are kept -/

theorem bounded_init : Bounded init := by
  refine ⟨by decide, by decide, ?_, ?_⟩
  · intro i; simp [init, outbuf_size]
  · intro d l p h; simp [init] at h

theorem bounded_endpacket (s : State) (h : Bounded s) : Bounded (endpacket s) := by
  obtain ⟨h1, h2, h3, h4⟩ := h
  unfold endpacket
  split
  · rename_i hpos
    refine ⟨?_, ?_, ?_, ?_⟩
    · simp only; split
      · decide
      · omega
    · simp
    · intro i; simp only; split
      · simp only [outbuf_size] at h1 ⊢; omega
      · exact h3 i
    · intro d l p hm
      simp only [List.mem_append, List.mem_singleton] at hm
      rcases hm with hm | hm
      · exact h4 d l p hm
      · injection hm with _ hl _; omega
  · exact ⟨h1, h2, h3, h4⟩

theorem bounded_line_number (s : State) (ln : Nat) (h : Bounded s) :
    Bounded { s with line_number := ln } := h

theorem bounded_preSeal (cfg : Config) (s : State) (buf : List Byte) (h : Bounded s) :
    Bounded (preSeal cfg s buf) := by
  obtain ⟨ln, e | ⟨_, e⟩⟩ := preSeal_cases cfg s buf
  · rw [e]; exact h
  · rw [e]; exact bounded_endpacket _ (bounded_line_number s ln h)

theorem preSeal_room (cfg : Config) (s : State) (buf : List Byte)
    (hh : (header cfg s.line_number).length ≤ 65534) :
    (preSeal cfg s buf).outbuf_len + (header cfg s.line_number).length +
      capLen (header cfg s.line_number).length (stripLen buf buf.length) ≤ 65534 := by
  have hc := capLen_le (header cfg s.line_number).length (stripLen buf buf.length) hh
  unfold preSeal
  simp only
  have key : ∀ s1 : State, s1.outbuf_len = s.outbuf_len →
      (if s1.outbuf_len ≠ 0 ∧ s1.outbuf_len + (header cfg s.line_number).length +
          capLen (header cfg s.line_number).length (stripLen buf buf.length) > 1491
        then endpacket s1 else s1).outbuf_len + (header cfg s.line_number).length +
        capLen (header cfg s.line_number).length (stripLen buf buf.length) ≤ 65534 := by
    intro s1 hs1
    split
    · rename_i hc1
      have : (endpacket s1).outbuf_len = 0 := by
        unfold endpacket; split
        · rfl
        · omega
      omega
    · rename_i hc1
      by_cases h0 : s1.outbuf_len = 0
      · omega
      · have : ¬ (s1.outbuf_len + (header cfg s.line_number).length +
          capLen (header cfg s.line_number).length (stripLen buf buf.length) > 1491) :=
          fun hgt => hc1 ⟨h0, hgt⟩
        omega
  split
  · exact key _ rfl
  · exact key _ rfl

theorem bounded_append (cfg : Config) (s : State) (buf : List Byte)
    (hh : (header cfg s.line_number).length ≤ 65534) (h : Bounded s) :
    Bounded (append cfg s buf) := by
  have hp := bounded_preSeal cfg s buf h
  have hr := preSeal_room cfg s buf hh
  obtain ⟨h1, _, h3, h4⟩ := hp
  refine ⟨?_, ?_, ?_, ?_⟩
  · rw [append_outbuf_head]; exact h1
  · rw [append_outbuf_len]; omega
  · rw [append_pktbuf]; exact h3
  · rw [append_trace]; exact h4

theorem bounded_addline (cfg : Config) (hc : sane cfg) (s : State) (buf : List Byte)
    (h : Bounded s) : Bounded (addline cfg s buf) := by
  have hh : (header cfg s.line_number).length ≤ 65534 := by
    have := header_length_le cfg hc s.line_number; omega
  unfold addline
  split
  · exact h
  · simp only
    split
    · exact bounded_endpacket _ (bounded_append cfg s buf hh h)
    · exact bounded_append cfg s buf hh h

theorem bounded_dequeue (s : State) (h : Bounded s) : Bounded (dequeue s) := by
  obtain ⟨h1, h2, h3, h4⟩ := h
  refine ⟨h1, h2, h3, ?_⟩
  intro d l p hm
  simp only [dequeue, List.mem_append, List.mem_singleton] at hm
  rcases hm with hm | hm
  · exact h4 d l p hm
  · cases hm

theorem bounded_of_reachable (cfg : Config) (hc : sane cfg) (s : State)
    (hr : Reachable cfg s) : Bounded s := by
  induction hr with
  | init => exact bounded_init
  | line s buf _ _ ih => exact bounded_addline cfg hc s buf ih
  | forced s _ ih => exact bounded_endpacket s ih
  | sent s _ _ ih => exact bounded_dequeue s ih
  | env s ib fl r0 r1 _ ih => exact ih
  | read s _ ih =>
    obtain ⟨h1, h2, h3, h4⟩ := ih
    refine ⟨h1, h2, h3, ?_⟩
    intro d l p hm
    simp only [List.mem_append, List.mem_singleton] at hm
    rcases hm with hm | hm
    · exact h4 d l p hm
    · cases hm

/-! ## The loop stays inside `Reachable` -/

theorem reachable_lines (cfg : Config) (fuel : Nat) :
    ∀ (s : State) (p : Nat), Reachable cfg s → Reachable cfg (lines cfg fuel s p).1 := by
  induction fuel with
  | zero => intro s p hr; exact hr
  | succ fuel ih =>
    intro s p hr
    unfold lines
    split
    · rename_i hc
      simp only
      split
      · exact hr
      · exact ih _ _ (Reachable.line s _ hr hc.2)
    · exact hr

theorem reachable_compact (cfg : Config) (s : State) (p : Nat) (hr : Reachable cfg s) :
    Reachable cfg (compact s p) := by
  unfold compact
  split
  · exact Reachable.env s _ _ _ _ hr
  · exact Reachable.env s _ _ _ _ hr

theorem reachable_readStep (cfg : Config) (s : State) (chunk : List Byte)
    (hr : Reachable cfg s) : Reachable cfg (readStep cfg s chunk) := by
  unfold readStep
  exact reachable_compact cfg _ _ (reachable_lines cfg _ _ _ (Reachable.env s _ _ _ _ hr))

theorem reachable_flush (cfg : Config) (s : State) (hr : Reachable cfg s) :
    Reachable cfg { endpacket s with flushing := true } :=
  Reachable.env (endpacket s) _ _ _ _ (Reachable.forced s hr)

theorem reachable_inputStep (cfg : Config) (ev : Event) (s : State)
    (hr : Reachable cfg s) : Reachable cfg (inputStep cfg ev s) := by
  unfold inputStep
  split
  · exact reachable_flush cfg s hr
  · split
    · have hr1 := Reachable.read s hr
      simp only
      split
      · exact reachable_flush cfg _ hr1
      · exact reachable_flush cfg _ hr1
      · split
        · exact reachable_flush cfg _ hr1
        · exact reachable_readStep cfg _ _ hr1
    · exact hr

theorem reachable_sendLoop (cfg : Config) (send : Nat → SendResult) (fuel : Nat) :
    ∀ (k : Nat) (s : State), Reachable cfg s →
      Reachable cfg (sendLoop cfg send fuel k s).state := by
  induction fuel with
  | zero => intro k s hr; exact hr
  | succ fuel ih =>
    intro k s hr
    unfold sendLoop
    split
    · rename_i hne
      split
      · split
        · exact hr
        · exact ih _ _ (Reachable.sent s hr hne)
      · exact hr
      · split
        · split
          · exact hr
          · exact ih _ _ (Reachable.sent s hr hne)
        · exact hr
    · exact hr

theorem reachable_outputStep (cfg : Config) (ev : Event) (s : State)
    (hr : Reachable cfg s) : Reachable cfg (outputStep cfg ev s).state := by
  unfold outputStep
  split
  · exact hr
  · split
    · exact reachable_sendLoop cfg _ _ _ _ hr
    · exact hr

theorem reachable_afterPoll (cfg : Config) (s : State) (p : PollResult)
    (hr : Reachable cfg s) : Reachable cfg (afterPoll s p) := by
  cases p with
  | failed e => exact hr
  | timeout =>
    simp only [afterPoll]
    split
    · exact Reachable.env s _ _ _ _ hr
    · exact Reachable.env s _ _ _ _ hr
  | ready r0 r1 =>
    simp only [afterPoll]
    split
    · exact Reachable.env s _ _ _ _ hr
    · exact Reachable.env s _ _ _ _ hr

theorem reachable_iteration (cfg : Config) (ev : Event) (s : State)
    (hr : Reachable cfg s) : Reachable cfg (iteration cfg ev s).state := by
  unfold iteration
  split
  · exact hr
  · split
    · split <;> exact hr
    · exact reachable_outputStep cfg ev _
        (reachable_inputStep cfg ev _ (Reachable.forced _ (reachable_afterPoll cfg s _ hr)))
    · exact reachable_outputStep cfg ev _
        (reachable_inputStep cfg ev _ (reachable_afterPoll cfg s _ hr))

theorem reachable_run (cfg : Config) (evs : List Event) :
    ∀ s : State, Reachable cfg s → Reachable cfg (run cfg evs s).state := by
  induction evs with
  | nil => intro s hr; exact hr
  | cons ev evs ih =>
    intro s hr
    unfold run
    have h := reachable_iteration cfg ev s hr
    split
    · rename_i s1 e; rw [e] at h; exact ih s1 h
    · rename_i c s1 e; rw [e] at h; exact h

/-! ## What `addline` writes -/

theorem endpacket_outbuf (s : State) : (endpacket s).outbuf = s.outbuf := by
  unfold endpacket; split <;> rfl

theorem preSeal_outbuf (cfg : Config) (s : State) (buf : List Byte) :
    (preSeal cfg s buf).outbuf = s.outbuf := by
  obtain ⟨ln, e | ⟨_, e⟩⟩ := preSeal_cases cfg s buf
  · rw [e]
  · rw [e, endpacket_outbuf]

theorem memcpy_zero (dst : Nat → Byte) (off : Nat) (src : List Byte) :
    memcpy dst off src 0 = dst := by
  funext i
  simp only [memcpy, Nat.add_zero]
  split
  · omega
  · rfl

theorem srcBytes_length (buf : List Byte) (n : Nat) : (srcBytes buf n).length = n := by
  simp [srcBytes]

theorem srcBytes_getD (buf : List Byte) (n j : Nat) (h : j < n) :
    (srcBytes buf n).getD j 0 = buf.getD j 0 := by
  have hl : j < (srcBytes buf n).length := by rw [srcBytes_length]; exact h
  rw [List.getD_eq_getElem _ _ hl]
  simp [srcBytes]

theorem record_length (cfg : Config) (ln : Nat) (buf : List Byte) :
    (record cfg ln buf).length =
      (header cfg ln).length + capLen (header cfg ln).length (stripLen buf buf.length) + 1 := by
  simp only [record, List.length_append, srcBytes_length, List.length_singleton]

theorem record_getD (cfg : Config) (ln : Nat) (buf : List Byte) (j : Nat)
    (hj : j < (record cfg ln buf).length) :
    (record cfg ln buf).getD j 0 =
      if j < (header cfg ln).length then (header cfg ln).getD j 0
      else if j < (header cfg ln).length +
          capLen (header cfg ln).length (stripLen buf buf.length) then
        buf.getD (j - (header cfg ln).length) 0
      else 10 := by
  rw [record_length] at hj
  unfold record
  split
  · rename_i h1
    rw [List.append_assoc, List.getD_append _ _ _ _ h1]
  · rename_i h1
    rw [List.append_assoc, List.getD_append_right _ _ _ _ (by omega)]
    split
    · rename_i h2
      rw [List.getD_append _ _ _ _ (by rw [srcBytes_length]; omega)]
      exact srcBytes_getD _ _ _ (by omega)
    · rename_i h2
      rw [List.getD_append_right _ _ _ _ (by rw [srcBytes_length]; omega), srcBytes_length]
      have : j - (header cfg ln).length -
          capLen (header cfg ln).length (stripLen buf buf.length) = 0 := by omega
      rw [this]; rfl

theorem append_outbuf_eq (cfg : Config) (s : State) (buf : List Byte) :
    (append cfg s buf).outbuf =
      memcpy
        (memcpy
          (memcpy s.outbuf (writeStart cfg s buf) (header cfg s.line_number)
            (header cfg s.line_number).length)
          (writeStart cfg s buf + (header cfg s.line_number).length) buf
          (capLen (header cfg s.line_number).length (stripLen buf buf.length)))
        (writeStart cfg s buf + (header cfg s.line_number).length +
          capLen (header cfg s.line_number).length (stripLen buf buf.length)) [10] 1 := by
  unfold append writeStart
  simp only
  split
  · simp only [preSeal_outbuf, Nat.add_assoc]
  · rename_i h
    simp only [ne_eq, Decidable.not_not] at h
    simp only [h, memcpy_zero, preSeal_outbuf, Nat.add_zero, Nat.add_assoc]

theorem append_outbuf (cfg : Config) (s : State) (buf : List Byte) (i : Nat) :
    (append cfg s buf).outbuf i =
      if writeStart cfg s buf ≤ i ∧
          i < writeStart cfg s buf + (record cfg s.line_number buf).length then
        (record cfg s.line_number buf).getD (i - writeStart cfg s buf) 0
      else s.outbuf i := by
  rw [append_outbuf_eq]
  simp only [memcpy]
  split
  · rename_i h
    have hj : i - writeStart cfg s buf < (record cfg s.line_number buf).length := by
      rw [record_length]; omega
    rw [if_pos ⟨by omega, by rw [record_length]; omega⟩, record_getD _ _ _ _ hj]
    rw [if_neg (by omega), if_neg (by omega)]
    have : i - (writeStart cfg s buf + (header cfg s.line_number).length +
        capLen (header cfg s.line_number).length (stripLen buf buf.length)) = 0 := by omega
    rw [this]; rfl
  · rename_i h
    split
    · rename_i h2
      have hj : i - writeStart cfg s buf < (record cfg s.line_number buf).length := by
        rw [record_length]; omega
      rw [if_pos ⟨by omega, by rw [record_length]; omega⟩, record_getD _ _ _ _ hj]
      rw [if_neg (by omega), if_pos (by omega)]
      congr 1; omega
    · rename_i h2
      split
      · rename_i h3
        have hj : i - writeStart cfg s buf < (record cfg s.line_number buf).length := by
          rw [record_length]; omega
        rw [if_pos ⟨by omega, by rw [record_length]; omega⟩, record_getD _ _ _ _ hj]
        rw [if_pos (by omega)]
      · rename_i h3
        rw [if_neg (by rw [record_length]; omega)]

theorem addline_outbuf (cfg : Config) (s : State) (buf : List Byte) (i : Nat) :
    (addline cfg s buf).outbuf i =
      if stripLen buf buf.length ≠ 0 ∧ writeStart cfg s buf ≤ i ∧
          i < writeStart cfg s buf + (record cfg s.line_number buf).length then
        (record cfg s.line_number buf).getD (i - writeStart cfg s buf) 0
      else s.outbuf i := by
  unfold addline
  split
  · rename_i h0
    rw [if_neg (by simp [h0])]
  · rename_i h0
    have e : (if (append cfg s buf).outbuf_len ≥
          intToSize (1491 - ((header cfg s.line_number).length : Int))
        then endpacket (append cfg s buf) else append cfg s buf).outbuf =
        (append cfg s buf).outbuf := by
      split
      · exact endpacket_outbuf _
      · rfl
    simp only [e, append_outbuf, h0, ne_eq, not_false_eq_true, true_and]

/-- Outside the footprint `Writes`, `addline` leaves `outbuf` as it was. -/
theorem addline_outbuf_frame (cfg : Config) (s : State) (buf : List Byte) (i : Nat)
    (h : ¬ Writes cfg s buf i) : (addline cfg s buf).outbuf i = s.outbuf i := by
  rw [addline_outbuf]; exact if_neg h

theorem writes_in_bounds (cfg : Config) (hc : sane cfg) (s : State) (hb : Bounded s)
    (buf : List Byte) (i : Nat) (hw : Writes cfg s buf i) : i < outbuf_size := by
  have hh : (header cfg s.line_number).length ≤ 65534 := by
    have := header_length_le cfg hc s.line_number; omega
  have h1 := (bounded_preSeal cfg s buf hb).1
  have h2 := preSeal_room cfg s buf hh
  obtain ⟨_, _, hi⟩ := hw
  rw [record_length] at hi
  unfold writeStart at hi
  omega

/-! ## Packet contents -/

theorem bytesAt_length (f : Nat → Byte) (off n : Nat) : (bytesAt f off n).length = n := by
  simp [bytesAt]

theorem bytesAt_congr (f g : Nat → Byte) (off n : Nat)
    (h : ∀ j, j < n → f (off + j) = g (off + j)) : bytesAt f off n = bytesAt g off n := by
  unfold bytesAt
  apply List.map_congr_left
  intro j hj
  exact h j (List.mem_range.mp hj)

theorem bytesAt_add (f : Nat → Byte) (off a b : Nat) :
    bytesAt f off (a + b) = bytesAt f off a ++ bytesAt f (off + a) b := by
  unfold bytesAt
  rw [List.range_add, List.map_append, List.map_map]
  congr 1
  apply List.map_congr_left
  intro j _
  simp [Nat.add_assoc]

theorem bytesAt_eq_of_getD (f : Nat → Byte) (off : Nat) (r : List Byte)
    (h : ∀ j, j < r.length → f (off + j) = r.getD j 0) : bytesAt f off r.length = r := by
  apply List.ext_getElem
  · exact bytesAt_length _ _ _
  · intro j h1 h2
    simp only [bytesAt, List.getElem_map, List.getElem_range]
    rw [h j h2, List.getD_eq_getElem _ _ h2]

/-- After the copy, the packet in progress is what it was after lines 123-124,
followed by the whole record. -/
theorem append_packet (cfg : Config) (s : State) (buf : List Byte) :
    bytesAt (append cfg s buf).outbuf (append cfg s buf).outbuf_head
        (append cfg s buf).outbuf_len =
      bytesAt s.outbuf (preSeal cfg s buf).outbuf_head (preSeal cfg s buf).outbuf_len ++
        record cfg s.line_number buf := by
  have hl : (append cfg s buf).outbuf_len =
      (preSeal cfg s buf).outbuf_len + (record cfg s.line_number buf).length := by
    rw [append_outbuf_len, record_length]; omega
  rw [hl, append_outbuf_head, bytesAt_add]
  congr 1
  · apply bytesAt_congr
    intro j hj
    rw [append_outbuf, if_neg]
    unfold writeStart; omega
  · apply bytesAt_eq_of_getD
    intro j hj
    rw [append_outbuf, if_pos]
    · unfold writeStart; congr 1; omega
    · unfold writeStart; omega

theorem wholeRecords_nil (cfg : Config) : WholeRecords cfg [] :=
  ⟨[], by simp, by simp⟩

theorem wholeRecords_snoc (cfg : Config) (p r : List Byte) (hp : WholeRecords cfg p)
    (hr : IsRecord cfg r) : WholeRecords cfg (p ++ r) := by
  obtain ⟨rs, h1, h2⟩ := hp
  refine ⟨rs ++ [r], ?_, by simp [h2]⟩
  intro x hx
  simp only [List.mem_append, List.mem_singleton] at hx
  rcases hx with hx | hx
  · exact h1 x hx
  · rw [hx]; exact hr

theorem record_getLast (cfg : Config) (ln : Nat) (buf p : List Byte) :
    (p ++ record cfg ln buf).getLast? = some 10 := by
  unfold record
  rw [← List.append_assoc, ← List.append_assoc]
  simp

theorem tidy_init (cfg : Config) : Tidy cfg init := by
  refine ⟨?_, ?_, ?_⟩
  · have : bytesAt init.outbuf init.outbuf_head init.outbuf_len = [] := rfl
    rw [this]; exact wholeRecords_nil cfg
  · intro h; exact absurd rfl h
  · intro d l p h; simp [init] at h

theorem tidy_endpacket (cfg : Config) (s : State) (h : Tidy cfg s) :
    Tidy cfg (endpacket s) := by
  obtain ⟨h1, h2, h3⟩ := h
  unfold endpacket
  split
  · rename_i hpos
    refine ⟨?_, ?_, ?_⟩
    · simp only [bytesAt, List.range_zero, List.map_nil]; exact wholeRecords_nil cfg
    · intro hne; exact absurd rfl hne
    · intro d l p hm
      simp only [List.mem_append, List.mem_singleton] at hm
      rcases hm with hm | hm
      · exact h3 d l p hm
      · injection hm with hd hl hp
        subst hd hl hp
        exact ⟨h1, bytesAt_length _ _ _, h2 (by omega)⟩
  · exact ⟨h1, h2, h3⟩

theorem tidy_preSeal (cfg : Config) (s : State) (buf : List Byte) (h : Tidy cfg s) :
    Tidy cfg (preSeal cfg s buf) := by
  obtain ⟨ln, e | ⟨_, e⟩⟩ := preSeal_cases cfg s buf
  · rw [e]; exact h
  · rw [e]; exact tidy_endpacket cfg _ h

theorem tidy_append (cfg : Config) (s : State) (buf : List Byte)
    (hne : stripLen buf buf.length ≠ 0) (h : Tidy cfg s) : Tidy cfg (append cfg s buf) := by
  obtain ⟨h1, _, h3⟩ := tidy_preSeal cfg s buf h
  rw [preSeal_outbuf] at h1
  refine ⟨?_, ?_, ?_⟩
  · rw [append_packet]
    exact wholeRecords_snoc cfg _ _ h1 ⟨s.line_number, buf, hne, rfl⟩
  · intro _
    rw [append_packet]
    exact record_getLast cfg _ _ _
  · rw [append_trace]; exact h3

theorem tidy_addline (cfg : Config) (s : State) (buf : List Byte) (h : Tidy cfg s) :
    Tidy cfg (addline cfg s buf) := by
  unfold addline
  split
  · exact h
  · rename_i hne
    simp only
    split
    · exact tidy_endpacket cfg _ (tidy_append cfg s buf hne h)
    · exact tidy_append cfg s buf hne h

theorem tidy_of_reachable (cfg : Config) (s : State) (hr : Reachable cfg s) : Tidy cfg s := by
  induction hr with
  | init => exact tidy_init cfg
  | line s buf _ _ ih => exact tidy_addline cfg s buf ih
  | forced s _ ih => exact tidy_endpacket cfg s ih
  | sent s _ _ ih =>
    obtain ⟨h1, h2, h3⟩ := ih
    refine ⟨h1, h2, ?_⟩
    intro d l p hm
    simp only [dequeue, List.mem_append, List.mem_singleton] at hm
    rcases hm with hm | hm
    · exact h3 d l p hm
    · cases hm
  | env s ib fl r0 r1 _ ih => exact ih
  | read s _ ih =>
    obtain ⟨h1, h2, h3⟩ := ih
    refine ⟨h1, h2, ?_⟩
    intro d l p hm
    simp only [List.mem_append, List.mem_singleton] at hm
    rcases hm with hm | hm
    · exact h3 d l p hm
    · cases hm

/-- One call of `addline` on a non-empty line: the record goes whole behind
the packet in progress, which then either stays in progress or is sealed into
one descriptor. -/
theorem addline_one_packet (cfg : Config) (s : State) (buf : List Byte)
    (hne : stripLen buf buf.length ≠ 0) :
    ((addline cfg s buf).outbuf_len ≠ 0 ∧
      (addline cfg s buf).outbuf_head = (preSeal cfg s buf).outbuf_head ∧
      bytesAt (addline cfg s buf).outbuf (addline cfg s buf).outbuf_head
          (addline cfg s buf).outbuf_len =
        bytesAt s.outbuf (preSeal cfg s buf).outbuf_head (preSeal cfg s buf).outbuf_len ++
          record cfg s.line_number buf) ∨
    ((addline cfg s buf).outbuf_len = 0 ∧
      (addline cfg s buf).pktbuf (preSeal cfg s buf).pktbuf_head =
        ⟨(preSeal cfg s buf).outbuf_head,
          (preSeal cfg s buf).outbuf_len + (record cfg s.line_number buf).length⟩ ∧
      (addline cfg s buf).trace = (preSeal cfg s buf).trace ++
        [Obs.enq (preSeal cfg s buf).outbuf_head
          ((preSeal cfg s buf).outbuf_len + (record cfg s.line_number buf).length)
          (bytesAt s.outbuf (preSeal cfg s buf).outbuf_head (preSeal cfg s buf).outbuf_len ++
            record cfg s.line_number buf)]) := by
  have hl : (append cfg s buf).outbuf_len =
      (preSeal cfg s buf).outbuf_len + (record cfg s.line_number buf).length := by
    rw [append_outbuf_len, record_length]; omega
  have hpos : (append cfg s buf).outbuf_len > 0 := by rw [append_outbuf_len]; omega
  unfold addline
  rw [if_neg hne]
  simp only
  split
  · right
    have hp := append_packet cfg s buf
    unfold endpacket
    rw [if_pos hpos]
    refine ⟨rfl, ?_, ?_⟩
    · simp only [append_pktbuf_head, if_true, append_outbuf_head, hl]
    · rw [append_outbuf_head, hl] at hp
      simp only [append_trace, append_outbuf_head, hl, hp]
  · left
    exact ⟨by omega, append_outbuf_head cfg s buf, append_packet cfg s buf⟩

/-! ## Evaluation of the loop on one line -/

theorem scan_line (line rest : List Byte) (h : ∀ b ∈ line, b ≠ 10) :
    ∀ p, scan (line ++ 10 :: rest) p = p + line.length := by
  induction line with
  | nil => intro p; simp [scan]
  | cons b bs ih =>
    intro p
    have hb : b ≠ 10 := h b (List.mem_cons_self _ _)
    rw [List.cons_append, scan, if_pos hb, ih (fun x hx => h x (List.mem_cons_of_mem _ hx))]
    simp only [List.length_cons]
    omega

theorem scan_none (bs : List Byte) (h : ∀ b ∈ bs, b ≠ 10) :
    ∀ p, scan bs p = p + bs.length := by
  induction bs with
  | nil => intro p; simp [scan]
  | cons b bs ih =>
    intro p
    have hb : b ≠ 10 := h b (List.mem_cons_self _ _)
    rw [scan, if_pos hb, ih (fun x hx => h x (List.mem_cons_of_mem _ hx))]
    simp only [List.length_cons]
    omega

theorem lines_cons (cfg : Config) (fuel : Nat) (s : State) (p : Nat) (line rest : List Byte)
    (hd : s.input_buf.drop p = line ++ 10 :: rest) (h10 : ∀ b ∈ line, b ≠ 10)
    (hr : hasroom s = true) :
    lines cfg (fuel + 1) s p = lines cfg fuel (addline cfg s line) (p + line.length + 1) := by
  have hlen : (s.input_buf.drop p).length = line.length + 1 + rest.length := by
    rw [hd]; simp; omega
  rw [List.length_drop] at hlen
  have hp : p < s.input_len := by unfold State.input_len; omega
  rw [lines, if_pos ⟨hp, hr⟩]
  simp only [hd, scan_line line rest h10]
  rw [if_neg (by unfold State.input_len; omega)]
  have : p + line.length - p = line.length := by omega
  rw [this, List.take_left' rfl]

theorem lines_done (cfg : Config) (fuel : Nat) (s : State) (p : Nat)
    (h : s.input_len ≤ p) : lines cfg fuel s p = (s, p) := by
  cases fuel with
  | zero => rfl
  | succ fuel =>
    rw [lines, if_neg (by omega)]

theorem lines_noroom (cfg : Config) (fuel : Nat) (s : State) (p : Nat)
    (h : hasroom s = false) : lines cfg fuel s p = (s, p) := by
  cases fuel with
  | zero => rfl
  | succ fuel =>
    rw [lines, if_neg (by simp [h])]

/-! ## Fields that `endpacket` and `addline` leave alone -/

theorem endpacket_frame (s : State) :
    (endpacket s).input_buf = s.input_buf ∧ (endpacket s).flushing = s.flushing ∧
    (endpacket s).revents0 = s.revents0 ∧ (endpacket s).revents1 = s.revents1 ∧
    (endpacket s).pktbuf_tail = s.pktbuf_tail ∧ (endpacket s).outbuf_tail = s.outbuf_tail ∧
    (endpacket s).line_number = s.line_number := by
  unfold endpacket
  split <;> exact ⟨rfl, rfl, rfl, rfl, rfl, rfl, rfl⟩

theorem preSeal_frame (cfg : Config) (s : State) (buf : List Byte) :
    (preSeal cfg s buf).input_buf = s.input_buf ∧ (preSeal cfg s buf).flushing = s.flushing ∧
    (preSeal cfg s buf).revents0 = s.revents0 ∧ (preSeal cfg s buf).revents1 = s.revents1 ∧
    (preSeal cfg s buf).pktbuf_tail = s.pktbuf_tail ∧
    (preSeal cfg s buf).outbuf_tail = s.outbuf_tail := by
  obtain ⟨ln, e | ⟨_, e⟩⟩ := preSeal_cases cfg s buf
  · rw [e]; exact ⟨rfl, rfl, rfl, rfl, rfl, rfl⟩
  · rw [e]
    obtain ⟨h1, h2, h3, h4, h5, h6, _⟩ := endpacket_frame { s with line_number := ln }
    exact ⟨h1, h2, h3, h4, h5, h6⟩

theorem append_frame (cfg : Config) (s : State) (buf : List Byte) :
    (append cfg s buf).input_buf = s.input_buf ∧ (append cfg s buf).flushing = s.flushing ∧
    (append cfg s buf).revents0 = s.revents0 ∧ (append cfg s buf).revents1 = s.revents1 ∧
    (append cfg s buf).pktbuf_tail = s.pktbuf_tail ∧
    (append cfg s buf).outbuf_tail = s.outbuf_tail := by
  obtain ⟨h1, h2, h3, h4, h5, h6⟩ := preSeal_frame cfg s buf
  unfold append
  simp only
  split <;> exact ⟨h1, h2, h3, h4, h5, h6⟩

theorem addline_frame (cfg : Config) (s : State) (buf : List Byte) :
    (addline cfg s buf).input_buf = s.input_buf ∧ (addline cfg s buf).flushing = s.flushing ∧
    (addline cfg s buf).revents0 = s.revents0 ∧ (addline cfg s buf).revents1 = s.revents1 ∧
    (addline cfg s buf).pktbuf_tail = s.pktbuf_tail ∧
    (addline cfg s buf).outbuf_tail = s.outbuf_tail := by
  unfold addline
  split
  · exact ⟨rfl, rfl, rfl, rfl, rfl, rfl⟩
  · simp only
    obtain ⟨h1, h2, h3, h4, h5, h6⟩ := append_frame cfg s buf
    split
    · obtain ⟨g1, g2, g3, g4, g5, g6, _⟩ := endpacket_frame (append cfg s buf)
      exact ⟨g1.trans h1, g2.trans h2, g3.trans h3, g4.trans h4, g5.trans h5, g6.trans h6⟩
    · exact ⟨h1, h2, h3, h4, h5, h6⟩


/-! ## Evaluation of one pass through the loop -/

theorem pollMask_zero (e : Nat) : pollMask e 0 = 0 := by
  simp [pollMask]

theorem inputStep_read (cfg : Config) (ev : Event) (s : State) (bytes : List Byte)
    (h0 : s.revents0 = POLLIN) (hrd : ev.read = .data bytes) (hne : bytes ≠ [])
    (hfit : s.input_len + bytes.length ≤ insize) :
    inputStep cfg ev s = readStep cfg { s with trace := s.trace ++ [Obs.rd] } bytes := by
  have hb : s.revents0 &&& POLLBAD = 0 := by rw [h0]; decide
  have hp : s.revents0 &&& POLLIN ≠ 0 := by rw [h0]; decide
  have ht : bytes.take (insize - s.input_len) = bytes :=
    List.take_of_length_le (by omega)
  have hl : bytes.length ≠ 0 := fun h => hne (List.length_eq_zero.mp h)
  unfold inputStep
  rw [if_neg (by simp [hb]), if_pos hp]
  simp only [hrd]
  have ht2 : bytes.take (insize -
      State.input_len { s with trace := s.trace ++ [Obs.rd] }) = bytes := ht
  rw [ht2, if_neg hl]

theorem outputStep_idle (cfg : Config) (ev : Event) (s : State) (h1 : s.revents1 = 0) :
    outputStep cfg ev s = .running s := by
  unfold outputStep
  rw [h1]
  simp

theorem readStep_line (cfg : Config) (s : State) (line : List Byte)
    (hi : s.input_buf = []) (hr : hasroom s = true) (h10 : ∀ b ∈ line, b ≠ 10) :
    readStep cfg s (line ++ [10]) =
      { addline cfg { s with input_buf := line ++ [10] } line with input_buf := [] } := by
  unfold readStep
  simp only [hi, List.nil_append]
  have hlen : State.input_len { s with input_buf := line ++ [10] } = line.length + 1 := by
    simp [State.input_len]
  rw [hlen]
  rw [lines_cons cfg line.length { s with input_buf := line ++ [10] } 0 line []
    (by simp) h10 hr]
  have hin : (addline cfg { s with input_buf := line ++ [10] } line).input_len =
      line.length + 1 := by
    unfold State.input_len
    rw [(addline_frame cfg _ line).1]
    simp
  rw [lines_done cfg _ _ _ (by rw [hin]; omega)]
  unfold compact
  rw [if_neg (by rw [hin]; omega)]

theorem iteration_normal_ready (cfg : Config) (ev : Event) (s : State) (r0 r1 : Nat)
    (hf : s.flushing = false) (hp : ev.poll = .ready r0 r1) :
    iteration cfg ev s =
      outputStep cfg ev (inputStep cfg ev
        { s with revents0 := pollMask (events0 s) r0, revents1 := pollMask (events1 s) r1 }) := by
  unfold iteration
  rw [if_neg (by simp [hf]), hp]
  simp only [afterPoll, hf, Bool.false_eq_true, if_false]

theorem iteration_normal_timeout (cfg : Config) (ev : Event) (s : State)
    (hf : s.flushing = false) (hp : ev.poll = .timeout) :
    iteration cfg ev s =
      outputStep cfg ev (inputStep cfg ev (endpacket { s with revents0 := 0, revents1 := 0 })) := by
  unfold iteration
  rw [if_neg (by simp [hf]), hp]
  simp only [afterPoll, hf, Bool.false_eq_true, if_false]

theorem iter_read_line (cfg : Config) (s : State) (line : List Byte)
    (hf : s.flushing = false) (hi : s.input_buf = []) (hr : hasroom s = true)
    (h10 : ∀ b ∈ line, b ≠ 10) (hlen : line.length + 1 ≤ insize) :
    iteration cfg (rdEv (line ++ [10])) s =
      .running
        { addline cfg
            { s with
              input_buf := line ++ [10], revents0 := POLLIN, revents1 := 0,
              trace := s.trace ++ [Obs.rd] } line with
          input_buf := [] } := by
  have he0 : events0 s = POLLIN := by
    unfold events0 State.input_len; rw [hi]; rfl
  have hm : pollMask POLLIN POLLIN = POLLIN := by decide
  rw [iteration_normal_ready cfg _ s POLLIN 0 hf rfl, he0, hm, pollMask_zero]
  rw [inputStep_read cfg _ _ (line ++ [10]) rfl rfl (by simp)
    (by simp only [State.input_len, hi, List.length_nil, List.length_append,
          List.length_singleton]; omega)]
  have key := readStep_line cfg
    { s with revents0 := POLLIN, revents1 := 0, trace := s.trace ++ [Obs.rd] } line hi hr h10
  rw [key, outputStep_idle]
  exact (addline_frame cfg _ line).2.2.2.1

theorem iter_timeout (cfg : Config) (s : State) (hf : s.flushing = false) :
    iteration cfg tmoEv s = .running (endpacket { s with revents0 := 0, revents1 := 0 }) := by
  rw [iteration_normal_timeout cfg _ s hf rfl]
  have e0 : (endpacket { s with revents0 := 0, revents1 := 0 }).revents0 = 0 :=
    (endpacket_frame { s with revents0 := 0, revents1 := 0 }).2.2.1
  have e1 : (endpacket { s with revents0 := 0, revents1 := 0 }).revents1 = 0 :=
    (endpacket_frame { s with revents0 := 0, revents1 := 0 }).2.2.2.1
  have hin : inputStep cfg tmoEv (endpacket { s with revents0 := 0, revents1 := 0 }) =
      endpacket { s with revents0 := 0, revents1 := 0 } := by
    unfold inputStep
    rw [e0]
    simp
  rw [hin, outputStep_idle _ _ _ e1]

/-! ## `addline` without a header -/

theorem header_plain (cfg : Config) (hn : cfg.numbering = false) (hp : cfg.line_prefix = none)
    (n : Nat) : header cfg n = [] := by
  unfold header
  rw [hn, hp]
  rfl

theorem stripLen_last (buf : List Byte) (n : Nat) (h : buf.getD n 0 ≠ 13) :
    stripLen buf (n + 1) = n + 1 := by
  rw [stripLen, if_neg h]

theorem preSeal_plain (cfg : Config) (hn : cfg.numbering = false) (s : State)
    (buf : List Byte) :
    preSeal cfg s buf =
      if s.outbuf_len ≠ 0 ∧ s.outbuf_len + (header cfg s.line_number).length +
          capLen (header cfg s.line_number).length (stripLen buf buf.length) > 1491
      then endpacket s else s := by
  unfold preSeal
  simp only [hn, Bool.false_eq_true, if_false]

theorem addline_open (cfg : Config) (s : State) (buf : List Byte)
    (hne : stripLen buf buf.length ≠ 0)
    (h : ¬ (append cfg s buf).outbuf_len ≥
      intToSize (1491 - ((header cfg s.line_number).length : Int))) :
    addline cfg s buf = append cfg s buf := by
  unfold addline
  rw [if_neg hne]
  simp only
  rw [if_neg h]

theorem addline_closed (cfg : Config) (s : State) (buf : List Byte)
    (hne : stripLen buf buf.length ≠ 0)
    (h : (append cfg s buf).outbuf_len ≥
      intToSize (1491 - ((header cfg s.line_number).length : Int))) :
    addline cfg s buf = endpacket (append cfg s buf) := by
  unfold addline
  rw [if_neg hne]
  simp only
  rw [if_pos h]

theorem intToSize_1491_zero : intToSize (1491 - ((0 : Nat) : Int)) = 1491 := by decide

theorem capLen_small (len : Nat) (h : len ≤ 65534) : capLen 0 len = len := by
  unfold capLen
  rw [if_neg (by omega)]


/-! ## Observations -/

theorem enqs_append (a b : List Obs) : enqs (a ++ b) = enqs a ++ enqs b := by
  induction a with
  | nil => rfl
  | cons x xs ih => cases x <;> simp [enqs, ih]

theorem txs_append (a b : List Obs) : txs (a ++ b) = txs a ++ txs b := by
  induction a with
  | nil => rfl
  | cons x xs ih => cases x <;> simp [txs, ih]

theorem reads_append (a b : List Obs) : reads (a ++ b) = reads a + reads b := by
  induction a with
  | nil => simp [reads]
  | cons x xs ih => cases x <;> simp [reads, ih] ; omega

theorem endpacket_pos (s : State) (h : s.outbuf_len > 0) :
    endpacket s =
      { s with
        pktbuf := fun i =>
          if i = s.pktbuf_head then ⟨s.outbuf_head, s.outbuf_len⟩ else s.pktbuf i
        pktbuf_head := (s.pktbuf_head + 1) % pktbuf_size
        outbuf_head :=
          if s.outbuf_head + s.outbuf_len + 65536 ≥ outbuf_size then 0
          else s.outbuf_head + s.outbuf_len
        outbuf_len := 0
        trace := s.trace ++
          [Obs.enq s.outbuf_head s.outbuf_len (bytesAt s.outbuf s.outbuf_head s.outbuf_len)] } := by
  unfold endpacket
  rw [if_pos h]

theorem endpacket_zero (s : State) (h : s.outbuf_len = 0) : endpacket s = s := by
  unfold endpacket
  rw [if_neg (by omega)]

theorem run_cons_running (cfg : Config) (ev : Event) (evs : List Event) (s s1 : State)
    (h : iteration cfg ev s = .running s1) : run cfg (ev :: evs) s = run cfg evs s1 := by
  rw [run, h]

theorem run_cons_exited (cfg : Config) (ev : Event) (evs : List Event) (s s1 : State)
    (c : Nat) (h : iteration cfg ev s = .exited c s1) :
    run cfg (ev :: evs) s = .exited c s1 := by
  rw [run, h]

theorem run_append (cfg : Config) (a b : List Event) :
    ∀ s s1, run cfg a s = .running s1 → run cfg (a ++ b) s = run cfg b s1 := by
  induction a with
  | nil =>
    intro s s1 h
    simp only [run] at h
    injection h with h
    rw [h]; rfl
  | cons ev evs ih =>
    intro s s1 h
    rw [List.cons_append]
    cases hi : iteration cfg ev s with
    | running s2 =>
      rw [run_cons_running cfg ev _ s s2 hi] at h ⊢
      exact ih s2 s1 h
    | exited c s2 =>
      rw [run_cons_exited cfg ev _ s s2 c hi] at h
      cases h

/-! ## Possible answers -/

theorem runOk_cons_running (cfg : Config) (ev : Event) (evs : List Event) (s s1 : State)
    (ha : admissible cfg s ev = true) (h : iteration cfg ev s = .running s1) :
    runOk cfg (ev :: evs) s = runOk cfg evs s1 := by
  rw [runOk, ha, h, Bool.true_and]

theorem runOk_cons_exited (cfg : Config) (ev : Event) (evs : List Event) (s s1 : State)
    (c : Nat) (ha : admissible cfg s ev = true) (h : iteration cfg ev s = .exited c s1) :
    runOk cfg (ev :: evs) s = true := by
  rw [runOk, ha, h, Bool.true_and]

theorem runOk_append (cfg : Config) (a b : List Event) :
    ∀ s s1, run cfg a s = .running s1 → runOk cfg a s = true → runOk cfg b s1 = true →
      runOk cfg (a ++ b) s = true := by
  induction a with
  | nil =>
    intro s s1 h _ hb
    simp only [run] at h
    injection h with h
    rw [h]; exact hb
  | cons ev evs ih =>
    intro s s1 h ha hb
    rw [List.cons_append]
    rw [runOk, Bool.and_eq_true] at ha
    cases hi : iteration cfg ev s with
    | running s2 =>
      rw [run_cons_running cfg ev _ s s2 hi] at h
      rw [hi] at ha
      rw [runOk_cons_running cfg ev _ s s2 ha.1 hi]
      exact ih s2 s1 h ha.2 hb
    | exited c s2 =>
      rw [run_cons_exited cfg ev _ s s2 c hi] at h
      cases h

theorem admissible_read (cfg : Config) (s : State) (bytes : List Byte)
    (hf : s.flushing = false) (hi : s.input_buf = []) (hne : bytes ≠ [])
    (hlen : bytes.length ≤ insize) : admissible cfg s (rdEv bytes) = true := by
  have he0 : events0 s = POLLIN := by
    unfold events0 State.input_len; rw [hi]; rfl
  have hm : pollMask POLLIN POLLIN ≠ 0 := by decide
  have hpos : 0 < bytes.length := List.length_pos.mpr hne
  have hz : s.input_len = 0 := by unfold State.input_len; rw [hi]; rfl
  simp only [admissible, rdEv, pollOk, readOk, hf, he0, hz, Bool.false_and, Bool.false_or,
    Bool.false_eq_true, if_false, Bool.and_eq_true, decide_eq_true_eq]
  exact ⟨Or.inl hm, hpos, by omega⟩

theorem admissible_timeout (cfg : Config) (s : State) (hf : s.flushing = false)
    (hl : s.outbuf_len ≠ 0) (ht : 0 ≤ cfg.timeout) : admissible cfg s tmoEv = true := by
  simp only [admissible, tmoEv, pollOk, readOk, pollWait, hf, Bool.false_and, Bool.false_or,
    Bool.false_eq_true, if_false, Bool.and_eq_true, decide_eq_true_eq, hl, ne_eq,
    not_false_eq_true, if_true, and_true]
  exact ht

theorem admissible_eof (cfg : Config) (s : State) (hf : s.flushing = false)
    (hi : s.input_len < insize) : admissible cfg s eofEv = true := by
  have he0 : events0 s = POLLIN := by unfold events0; rw [if_pos hi]
  have hm : pollMask POLLIN POLLIN ≠ 0 := by decide
  simp only [admissible, eofEv, pollOk, readOk, hf, he0, Bool.false_and, Bool.false_or,
    Bool.false_eq_true, if_false, Bool.and_eq_true, decide_eq_true_eq, and_true]
  exact Or.inl hm

theorem admissible_exit (cfg : Config) (s : State) (ev : Event) (hf : s.flushing = true)
    (he : s.pktbuf_tail = s.pktbuf_head) : admissible cfg s ev = true := by
  simp [admissible, hf, he]

/-! ## The run that fills the descriptor queue -/

theorem hasroom_filled (k : Nat) (s : State) (h : Filled k s) (hk : k < 1023) :
    hasroom s = true := by
  obtain ⟨_, _, _, h4, h5, h6, h7, _, _⟩ := h
  unfold hasroom
  rw [h4, h5, h6, h7]
  simp only [pktbuf_size, outbuf_size]
  rw [if_neg (by omega), if_neg (by omega), if_pos (by omega)]

theorem addline_short (cfg : Config) (hn : cfg.numbering = false)
    (hp : cfg.line_prefix = none) (s : State) (buf : List Byte)
    (h0 : s.outbuf_len = 0) (hs : stripLen buf buf.length = buf.length)
    (hpos : buf.length ≠ 0) (hlt : buf.length + 1 < 1491) :
    addline cfg s buf = append cfg s buf ∧ preSeal cfg s buf = s ∧
      (append cfg s buf).outbuf_len = buf.length + 1 := by
  have hh : (header cfg s.line_number).length = 0 := by rw [header_plain cfg hn hp]; rfl
  have hpre : preSeal cfg s buf = s := by
    rw [preSeal_plain cfg hn, if_neg (by simp [h0])]
  have hl : (append cfg s buf).outbuf_len = buf.length + 1 := by
    rw [append_outbuf_len, hpre, h0, hh, hs, capLen_small _ (by omega)]; omega
  refine ⟨?_, hpre, hl⟩
  apply addline_open
  · rw [hs]; exact hpos
  · rw [hl, hh, intToSize_1491_zero]; omega

theorem fill_half (k : Nat) (s : State) (h : Filled k s) (hk : k < 1023) :
    ∃ s1, iteration cfgT (rdEv [97, 10]) s = .running s1 ∧ Pending k s1 := by
  have hroom := hasroom_filled k s h hk
  obtain ⟨h1, h2, h3, h4, h5, h6, h7, h8, h9⟩ := h
  have it1 := iter_read_line cfgT s [97] h1 h2 hroom (by decide) (by decide)
  obtain ⟨a1, a2, a3⟩ := addline_short cfgT rfl rfl
    { s with input_buf := [97] ++ [10], revents0 := POLLIN, revents1 := 0,
             trace := s.trace ++ [Obs.rd] } [97] h3 (by decide) (by decide) (by decide)
  rw [a1] at it1
  obtain ⟨f1, f2, f3, f4, f5, f6⟩ := append_frame cfgT
    { s with input_buf := [97] ++ [10], revents0 := POLLIN, revents1 := 0,
             trace := s.trace ++ [Obs.rd] } [97]
  have g1 := append_outbuf_head cfgT
    { s with input_buf := [97] ++ [10], revents0 := POLLIN, revents1 := 0,
             trace := s.trace ++ [Obs.rd] } [97]
  have g2 := append_pktbuf_head cfgT
    { s with input_buf := [97] ++ [10], revents0 := POLLIN, revents1 := 0,
             trace := s.trace ++ [Obs.rd] } [97]
  have g3 := append_trace cfgT
    { s with input_buf := [97] ++ [10], revents0 := POLLIN, revents1 := 0,
             trace := s.trace ++ [Obs.rd] } [97]
  rw [a2] at g1 g2 g3
  generalize append cfgT
    { s with input_buf := [97] ++ [10], revents0 := POLLIN, revents1 := 0,
             trace := s.trace ++ [Obs.rd] } [97] = A at *
  have g3b : A.trace = s.trace ++ [Obs.rd] := g3
  refine ⟨{ A with input_buf := [] }, it1, f2.trans h1, rfl, a3, g2.trans h4, f5.trans h5,
    f6.trans h6, g1.trans h7, ?_, ?_⟩
  · simp only [g3b, enqs_append, enqs, List.append_nil, h8]
  · simp only [g3b, txs_append, txs, List.append_nil, h9]

theorem fill_seal (k : Nat) (s : State) (h : Pending k s) (hk : k < 1023) :
    ∃ s1, iteration cfgT tmoEv s = .running s1 ∧ Filled (k + 1) s1 := by
  obtain ⟨h1, h2, h3, h4, h5, h6, h7, h8, h9⟩ := h
  refine ⟨_, iter_timeout cfgT s h1, ?_⟩
  rw [endpacket_pos _ (by show s.outbuf_len > 0; omega)]
  refine ⟨h1, h2, rfl, ?_, h5, h6, ?_, ?_, ?_⟩
  · simp only [h4, pktbuf_size]; omega
  · simp only [h7, h3, outbuf_size]
    rw [if_neg (by omega)]; omega
  · simp only [enqs_append, enqs, List.length_append, List.length_singleton, h8]
  · simp only [txs_append, txs, List.append_nil, h9]

theorem fill_round (k : Nat) (s : State) (h : Filled k s) (hk : k < 1023) :
    ∃ s1, run cfgT [rdEv [97, 10], tmoEv] s = .running s1 ∧ Filled (k + 1) s1 ∧
      runOk cfgT [rdEv [97, 10], tmoEv] s = true := by
  obtain ⟨s1, it1, p1⟩ := fill_half k s h hk
  obtain ⟨s2, it2, p2⟩ := fill_seal k s1 p1 hk
  have a1 := admissible_read cfgT s [97, 10] h.1 h.2.1 (by decide) (by decide)
  have a2 := admissible_timeout cfgT s1 p1.1 (by rw [p1.2.2.1]; decide) (by decide)
  refine ⟨s2, ?_, p2, ?_⟩
  · rw [run_cons_running cfgT _ _ _ _ it1, run_cons_running cfgT _ _ _ _ it2]; rfl
  · rw [runOk_cons_running cfgT _ _ _ _ a1 it1, runOk_cons_running cfgT _ _ _ _ a2 it2]; rfl

theorem fill_run (n : Nat) :
    ∀ (k : Nat) (s : State), Filled k s → k + n ≤ 1023 →
      ∃ s1, run cfgT (fill n) s = .running s1 ∧ Filled (k + n) s1 ∧
        runOk cfgT (fill n) s = true := by
  induction n with
  | zero => intro k s h _; exact ⟨s, rfl, h, rfl⟩
  | succ n ih =>
    intro k s h hk
    obtain ⟨s1, r1, p1, o1⟩ := fill_round k s h (by omega)
    obtain ⟨s2, r2, p2, o2⟩ := ih (k + 1) s1 p1 (by omega)
    have e : fill (n + 1) = [rdEv [97, 10], tmoEv] ++ fill n := rfl
    refine ⟨s2, ?_, ?_, ?_⟩
    · rw [e, run_append cfgT _ _ s s1 r1]; exact r2
    · have e2 : k + (n + 1) = k + 1 + n := by omega
      rw [e2]; exact p2
    · rw [e]; exact runOk_append cfgT _ _ s s1 r1 o1 o2

theorem filled_init : Filled 0 init :=
  ⟨rfl, rfl, rfl, rfl, rfl, rfl, rfl, rfl, rfl⟩

/-! ## The line that seals twice -/

theorem longLine_length : longLine.length = 1490 := by
  unfold longLine
  exact List.length_replicate _ _

theorem longLine_strip : stripLen longLine longLine.length = longLine.length := by
  rw [longLine_length]
  apply stripLen_last
  unfold longLine
  rw [List.getD_eq_getElem?_getD, List.getElem?_replicate, if_pos (by decide)]
  decide

theorem longLine_no10 : ∀ b ∈ longLine, b ≠ 10 := by
  intro b hb
  rw [longLine, List.mem_replicate] at hb
  rw [hb.2]; decide

theorem addline_twice (cfg : Config) (hn : cfg.numbering = false)
    (hp : cfg.line_prefix = none) (s : State) (buf : List Byte)
    (hL : s.outbuf_len ≠ 0) (hs : stripLen buf buf.length = buf.length)
    (h1 : 1490 ≤ buf.length) (h2 : buf.length ≤ 65534)
    (hsum : s.outbuf_len + buf.length > 1491) :
    preSeal cfg s buf = endpacket s ∧ (append cfg s buf).outbuf_len = buf.length + 1 ∧
      addline cfg s buf = endpacket (append cfg s buf) := by
  have hh : (header cfg s.line_number).length = 0 := by rw [header_plain cfg hn hp]; rfl
  have hpre : preSeal cfg s buf = endpacket s := by
    rw [preSeal_plain cfg hn, if_pos]
    rw [hh, hs, capLen_small _ h2]
    exact ⟨hL, by omega⟩
  have he : (endpacket s).outbuf_len = 0 := by
    rw [endpacket_pos s (by omega)]
  have hl : (append cfg s buf).outbuf_len = buf.length + 1 := by
    rw [append_outbuf_len, hpre, he, hh, hs, capLen_small _ h2]; omega
  refine ⟨hpre, hl, ?_⟩
  apply addline_closed
  · rw [hs]; omega
  · rw [hl, hh, intToSize_1491_zero]; omega

theorem hasroom_pending (k : Nat) (s : State) (h : Pending k s) (hk : k < 1023) :
    hasroom s = true := by
  obtain ⟨_, _, _, h4, h5, h6, h7, _, _⟩ := h
  unfold hasroom
  rw [h4, h5, h6, h7]
  simp only [pktbuf_size, outbuf_size]
  rw [if_neg (by omega), if_neg (by omega), if_pos (by omega)]

/-- From a state with 1022 queued packets and one line in progress, the long
line is admitted and `endpacket` runs twice: `pktbuf_head` comes round to
`pktbuf_tail`. -/
theorem overflow_step (s : State) (h : Pending 1022 s) :
    ∃ s2, iteration cfgT (rdEv (longLine ++ [10])) s = .running s2 ∧
      s2.flushing = false ∧ s2.input_buf = [] ∧ s2.outbuf_len = 0 ∧
      s2.pktbuf_head = 0 ∧ s2.pktbuf_tail = 0 ∧
      (enqs s2.trace).length = 1024 ∧ txs s2.trace = [] := by
  have hroom := hasroom_pending 1022 s h (by decide)
  obtain ⟨h1, h2, h3, h4, h5, h6, h7, h8, h9⟩ := h
  have it1 := iter_read_line cfgT s longLine h1 h2 hroom longLine_no10
    (by rw [longLine_length]; decide)
  obtain ⟨a1, a2, a3⟩ := addline_twice cfgT rfl rfl
    { s with input_buf := longLine ++ [10], revents0 := POLLIN, revents1 := 0,
             trace := s.trace ++ [Obs.rd] } longLine
    (by show s.outbuf_len ≠ 0; omega) longLine_strip
    (by rw [longLine_length]) (by rw [longLine_length]; decide)
    (by show s.outbuf_len + longLine.length > 1491; rw [longLine_length]; omega)
  rw [a3] at it1
  obtain ⟨f1, f2, f3, f4, f5, f6⟩ := append_frame cfgT
    { s with input_buf := longLine ++ [10], revents0 := POLLIN, revents1 := 0,
             trace := s.trace ++ [Obs.rd] } longLine
  have g2 := append_pktbuf_head cfgT
    { s with input_buf := longLine ++ [10], revents0 := POLLIN, revents1 := 0,
             trace := s.trace ++ [Obs.rd] } longLine
  have g3 := append_trace cfgT
    { s with input_buf := longLine ++ [10], revents0 := POLLIN, revents1 := 0,
             trace := s.trace ++ [Obs.rd] } longLine
  rw [a1, endpacket_pos _ (by show s.outbuf_len > 0; omega)] at g2 g3
  rw [longLine_length] at a2
  generalize append cfgT
    { s with input_buf := longLine ++ [10], revents0 := POLLIN, revents1 := 0,
             trace := s.trace ++ [Obs.rd] } longLine = B at *
  have g2b : B.pktbuf_head = 1023 := by
    rw [g2]; show (s.pktbuf_head + 1) % pktbuf_size = 1023; rw [h4]; rfl
  have g3b : B.trace = s.trace ++ [Obs.rd] ++
      [Obs.enq s.outbuf_head s.outbuf_len (bytesAt s.outbuf s.outbuf_head s.outbuf_len)] := g3
  refine ⟨{ endpacket B with input_buf := [] }, it1, ?_⟩
  rw [endpacket_pos B (by omega)]
  refine ⟨f2.trans h1, rfl, rfl, ?_, f5.trans h5, ?_, ?_⟩
  · simp only [g2b, pktbuf_size]
  · simp only [g3b, enqs_append, enqs, List.append_nil, List.length_append,
      List.length_singleton, h8]
  · simp only [g3b, txs_append, txs, List.append_nil, h9]

/-! ## Further passes through the loop -/

theorem iteration_exit (cfg : Config) (ev : Event) (s : State) (hf : s.flushing = true)
    (he : s.pktbuf_tail = s.pktbuf_head) : iteration cfg ev s = .exited 0 s := by
  unfold iteration
  rw [if_pos ⟨hf, he⟩]

theorem iter_eof (cfg : Config) (s : State) (hf : s.flushing = false)
    (hi : s.input_len < insize) :
    iteration cfg eofEv s =
      .running
        { endpacket { s with revents0 := POLLIN, revents1 := 0, trace := s.trace ++ [Obs.rd] }
          with flushing := true } := by
  have he0 : events0 s = POLLIN := by
    unfold events0; rw [if_pos hi]
  have hm : pollMask POLLIN POLLIN = POLLIN := by decide
  rw [iteration_normal_ready cfg _ s POLLIN 0 hf rfl, he0, hm, pollMask_zero]
  have hin : inputStep cfg eofEv { s with revents0 := POLLIN, revents1 := 0 } =
      { endpacket { s with revents0 := POLLIN, revents1 := 0, trace := s.trace ++ [Obs.rd] }
        with flushing := true } := by
    unfold inputStep
    have hb : POLLIN &&& POLLBAD = 0 := by decide
    have hp : POLLIN &&& POLLIN ≠ 0 := by decide
    simp only [hb, hp, ne_eq, not_true_eq_false, not_false_eq_true, if_false, if_true, eofEv]
  rw [hin, outputStep_idle]
  exact (endpacket_frame _).2.2.2.1

theorem iter_read_noroom (cfg : Config) (s : State) (bytes : List Byte)
    (hf : s.flushing = false) (hi : s.input_buf = []) (hr : hasroom s = false)
    (hne : bytes ≠ []) (hlen : bytes.length ≤ insize) :
    iteration cfg (rdEv bytes) s =
      .running
        { s with
          input_buf := [], revents0 := POLLIN, revents1 := 0,
          trace := s.trace ++ [Obs.rd] } := by
  have he0 : events0 s = POLLIN := by
    unfold events0 State.input_len; rw [hi]; rfl
  have hm : pollMask POLLIN POLLIN = POLLIN := by decide
  rw [iteration_normal_ready cfg _ s POLLIN 0 hf rfl, he0, hm, pollMask_zero]
  rw [inputStep_read cfg _ _ bytes rfl rfl hne
    (by simp only [State.input_len, hi, List.length_nil]; omega)]
  unfold readStep
  simp only
  rw [lines_noroom cfg _ _ _ (by exact hr)]
  unfold compact
  rw [if_neg (by simp), outputStep_idle _ _ _ rfl]


/-! ## Calls of `read` -/

theorem reads_endpacket (s : State) : reads (endpacket s).trace = reads s.trace := by
  unfold endpacket
  split
  · simp only [reads_append, reads, Nat.add_zero]
  · rfl

theorem reads_dequeue (s : State) : reads (dequeue s).trace = reads s.trace := by
  simp only [dequeue, reads_append, reads, Nat.add_zero]

theorem reads_sendLoop (cfg : Config) (send : Nat → SendResult) (fuel : Nat) :
    ∀ (k : Nat) (s : State), reads (sendLoop cfg send fuel k s).state.trace = reads s.trace := by
  induction fuel with
  | zero => intro k s; rfl
  | succ fuel ih =>
    intro k s
    unfold sendLoop
    split
    · split
      · split
        · rfl
        · rw [ih, reads_dequeue]
      · rfl
      · split
        · split
          · rfl
          · rw [ih, reads_dequeue]
        · rfl
    · rfl

theorem reads_outputStep (cfg : Config) (ev : Event) (s : State) :
    reads (outputStep cfg ev s).state.trace = reads s.trace := by
  unfold outputStep
  split
  · rfl
  · split
    · exact reads_sendLoop cfg _ _ _ _
    · rfl

theorem inputStep_no_read (cfg : Config) (ev : Event) (s : State)
    (h : s.revents0 &&& POLLIN = 0) :
    reads (inputStep cfg ev s).trace = reads s.trace := by
  unfold inputStep
  split
  · exact reads_endpacket s
  · rw [if_neg (by simp [h])]

theorem pollMask_no_interest (r : Nat) : pollMask 0 r &&& POLLIN = 0 := by
  unfold pollMask
  rw [Nat.zero_or, Nat.land_assoc]
  have : POLLBAD &&& POLLIN = 0 := by decide
  rw [this]; exact Nat.and_zero r

theorem no_interest_no_read (cfg : Config) (ev : Event) (s : State)
    (hf : s.flushing = false) (hfull : ¬ s.input_len < insize) :
    reads (iteration cfg ev s).state.trace = reads s.trace := by
  have he0 : events0 s = 0 := by unfold events0; rw [if_neg hfull]
  cases hp : ev.poll with
  | failed e =>
    unfold iteration
    rw [if_neg (by simp [hf]), hp]
    simp only
    split <;> rfl
  | timeout =>
    rw [iteration_normal_timeout cfg ev s hf hp, reads_outputStep,
      inputStep_no_read _ _ _ (by rw [(endpacket_frame _).2.2.1]; exact Nat.zero_and _),
      reads_endpacket]
  | ready r0 r1 =>
    rw [iteration_normal_ready cfg ev s r0 r1 hf hp, reads_outputStep,
      inputStep_no_read _ _ _ (by rw [he0]; exact pollMask_no_interest r0)]


/-! ## A line that fills a packet on its own -/

theorem addline_alone (cfg : Config) (hn : cfg.numbering = false)
    (hp : cfg.line_prefix = none) (s : State) (buf : List Byte)
    (h0 : s.outbuf_len = 0) (hs : stripLen buf buf.length = buf.length)
    (h1 : 1490 ≤ buf.length) (h2 : buf.length ≤ 65534) :
    preSeal cfg s buf = s ∧ (append cfg s buf).outbuf_len = buf.length + 1 ∧
      addline cfg s buf = endpacket (append cfg s buf) := by
  have hh : (header cfg s.line_number).length = 0 := by rw [header_plain cfg hn hp]; rfl
  have hpre : preSeal cfg s buf = s := by
    rw [preSeal_plain cfg hn, if_neg (by simp [h0])]
  have hl : (append cfg s buf).outbuf_len = buf.length + 1 := by
    rw [append_outbuf_len, hpre, h0, hh, hs, capLen_small _ h2]; omega
  refine ⟨hpre, hl, ?_⟩
  apply addline_closed
  · rw [hs]; omega
  · rw [hl, hh, intToSize_1491_zero]; omega

theorem bigLine_length : bigLine.length = 65534 := by
  unfold bigLine
  exact List.length_replicate _ _

theorem bigLine_strip : stripLen bigLine bigLine.length = bigLine.length := by
  rw [bigLine_length]
  apply stripLen_last
  unfold bigLine
  rw [List.getD_eq_getElem?_getD, List.getElem?_replicate, if_pos (by decide)]
  decide

theorem bigLine_no10 : ∀ b ∈ bigLine, b ≠ 10 := by
  intro b hb
  rw [bigLine, List.mem_replicate] at hb
  rw [hb.2]; decide

theorem sane_defaults : sane defaults := by decide


/-! ## Sixteen lines that fill `outbuf` -/

theorem bigChunk_length (n : Nat) : (bigChunk n).length = 65535 * n := by
  induction n with
  | zero => rfl
  | succ n ih =>
    simp only [bigChunk, List.length_append, List.length_cons, bigLine_length, ih]
    omega

theorem hasroom_packed (k : Nat) (s : State) (h : Packed k s) (hk : k ≤ 16) :
    hasroom s = true := by
  obtain ⟨_, h2, h3, h4, h5, _⟩ := h
  unfold hasroom
  rw [h2, h3, h4, h5]
  simp only [pktbuf_size, outbuf_size]
  rw [if_neg (by omega), if_neg (by omega), if_pos (by split <;> omega)]

theorem record_bigLine_zero (ln : Nat) : (record defaults ln bigLine).getD 0 0 = 97 := by
  have hh : (header defaults ln).length = 0 := by rw [header_plain defaults rfl rfl]; rfl
  rw [record_getD _ _ _ _ (by rw [record_length]; omega), if_neg (by omega),
    if_pos (by rw [hh, bigLine_strip, bigLine_length, capLen_small _ (by decide)]; decide)]
  unfold bigLine
  rw [hh, List.getD_eq_getElem?_getD, List.getElem?_replicate, if_pos (by decide)]
  rfl

theorem packed_step (k : Nat) (s : State) (h : Packed k s) (hk : k < 16) :
    Packed (k + 1) (addline defaults s bigLine) := by
  obtain ⟨h1, h2, h3, h4, h5, h6⟩ := h
  obtain ⟨a1, a2, a3⟩ := addline_alone defaults rfl rfl s bigLine h1 bigLine_strip
    (by rw [bigLine_length]; decide) (by rw [bigLine_length])
  rw [bigLine_length] at a2
  have g1 := append_outbuf_head defaults s bigLine
  have g2 := append_pktbuf_head defaults s bigLine
  have g4 := append_pktbuf defaults s bigLine
  have g5 := append_outbuf defaults s bigLine 0
  obtain ⟨_, _, _, _, f5, f6⟩ := append_frame defaults s bigLine
  have hw : writeStart defaults s bigLine = 65535 * k := by
    unfold writeStart; rw [a1, h1, h5, if_pos hk]; rfl
  rw [hw] at g5
  rw [a1] at g1 g2 g4
  rw [h5, if_pos hk] at g1
  rw [a3, endpacket_pos _ (by rw [a2]; decide)]
  refine ⟨rfl, ?_, f5.trans h3, f6.trans h4, ?_, ?_⟩
  · simp only [g2, h2, pktbuf_size]; omega
  · simp only [g1, a2, outbuf_size]
    split <;> split <;> omega
  · intro _
    simp only [g2, h2, g1, a2, g4]
    by_cases hk0 : k = 0
    · subst hk0
      refine ⟨by simp, ?_⟩
      rw [g5, if_pos (by rw [record_length]; omega)]
      exact record_bigLine_zero _
    · obtain ⟨h6a, h6b⟩ := h6 (by omega)
      refine ⟨by rw [if_neg (by omega)]; exact h6a, ?_⟩
      rw [g5, if_neg (by omega)]
      exact h6b

theorem packed_lines (m : Nat) :
    ∀ (k : Nat) (s : State) (p fuel : Nat) (rest : List Byte),
      Packed k s → k + m ≤ 16 → s.input_buf.drop p = bigChunk m ++ rest →
      ∃ s1, lines defaults (fuel + m) s p = lines defaults fuel s1 (p + 65535 * m) ∧
        Packed (k + m) s1 ∧ s1.input_buf = s.input_buf ∧ s1.flushing = s.flushing ∧
        s1.revents1 = s.revents1 := by
  induction m with
  | zero => intro k s p fuel rest h _ _; exact ⟨s, rfl, h, rfl, rfl, rfl⟩
  | succ m ih =>
    intro k s p fuel rest h hk hd
    have hd1 : s.input_buf.drop p = bigLine ++ 10 :: (bigChunk m ++ rest) := by
      rw [hd, bigChunk, List.append_assoc, List.cons_append]
    have hroom := hasroom_packed k s h (by omega)
    have e1 := lines_cons defaults (fuel + m) s p bigLine (bigChunk m ++ rest) hd1
      bigLine_no10 hroom
    obtain ⟨f1, f2, _, f4, _, _⟩ := addline_frame defaults s bigLine
    have hd2 : (addline defaults s bigLine).input_buf.drop (p + bigLine.length + 1) =
        bigChunk m ++ rest := by
      rw [f1]
      have : p + bigLine.length + 1 = p + (bigLine.length + 1) := by omega
      rw [this, ← List.drop_drop, hd1]
      have e : bigLine ++ 10 :: (bigChunk m ++ rest) =
          (bigLine ++ [10]) ++ (bigChunk m ++ rest) := by
        rw [List.append_assoc, List.singleton_append]
      rw [e]
      have hl : bigLine.length + 1 = (bigLine ++ [10]).length := by
        rw [List.length_append, List.length_singleton]
      rw [hl, List.drop_left]
    obtain ⟨s1, r1, p1, i1, fl1, rv1⟩ := ih (k + 1) (addline defaults s bigLine)
      (p + bigLine.length + 1) fuel rest (packed_step k s h (by omega)) (by omega) hd2
    refine ⟨s1, ?_, ?_, i1.trans f1, fl1.trans f2, rv1.trans f4⟩
    · have e2 : fuel + (m + 1) = fuel + m + 1 := by omega
      have e3 : p + bigLine.length + 1 + 65535 * m = p + 65535 * (m + 1) := by
        rw [bigLine_length]; omega
      rw [e2, e1, r1, e3]
    · have : k + (m + 1) = k + 1 + m := by omega
      rw [this]; exact p1

theorem packed_init : Packed 0 init :=
  ⟨rfl, rfl, rfl, rfl, rfl, fun h => absurd h (by decide)⟩

theorem readStep_of_lines (cfg : Config) (s s1 : State) (chunk : List Byte) (p fuel : Nat)
    (hf : State.input_len { s with input_buf := s.input_buf ++ chunk } = fuel)
    (h : lines cfg fuel { s with input_buf := s.input_buf ++ chunk } 0 = (s1, p)) :
    readStep cfg s chunk = compact s1 p := by
  unfold readStep
  simp only
  rw [hf, h]

/-- One pass that reads the sixteen lines at program start. -/
theorem packed_run :
    ∃ s, iteration defaults (rdEv (bigChunk 16)) init = .running s ∧ Packed 16 s ∧
      s.flushing = false ∧ s.input_buf = [] := by
  have hlen : (bigChunk 16).length = 1048560 := by rw [bigChunk_length]
  have hm : pollMask POLLIN POLLIN = POLLIN := by decide
  have he0 : events0 init = POLLIN := by decide
  have hne : bigChunk 16 ≠ [] := by
    intro h; rw [h] at hlen; cases hlen
  obtain ⟨s1, r1, p1, i1, fl1, rv1⟩ := packed_lines 16 0
    { init with revents0 := POLLIN, revents1 := 0, trace := init.trace ++ [Obs.rd],
                input_buf := [] ++ bigChunk 16 } 0 1048544 []
    ⟨rfl, rfl, rfl, rfl, rfl, fun h => absurd h (by decide)⟩ (by decide) (by simp)
  have hz : State.input_len { init with revents0 := POLLIN, revents1 := 0 } = 0 := rfl
  have hfit : State.input_len { init with revents0 := POLLIN, revents1 := 0 } +
      (bigChunk 16).length ≤ insize := by
    rw [hz, hlen]; decide
  have hs1 : s1.input_len = 1048560 := by
    unfold State.input_len
    rw [i1]
    show ([] ++ bigChunk 16).length = 1048560
    rw [List.nil_append, hlen]
  rw [lines_done defaults _ s1 _ (by rw [hs1])] at r1
  have hin : State.input_len
      { init with revents0 := POLLIN, revents1 := 0, trace := init.trace ++ [Obs.rd],
                  input_buf := [] ++ bigChunk 16 } = 1048544 + 16 := by
    show ([] ++ bigChunk 16).length = 1048544 + 16
    rw [List.nil_append, hlen]
  have hrs := readStep_of_lines defaults
    { init with revents0 := POLLIN, revents1 := 0, trace := init.trace ++ [Obs.rd] }
    s1 (bigChunk 16) (0 + 65535 * 16) (1048544 + 16) hin r1
  have hc : compact s1 (0 + 65535 * 16) = { s1 with input_buf := [] } := by
    unfold compact
    rw [if_neg (by rw [hs1]; decide)]
  refine ⟨{ s1 with input_buf := [] }, ?_, p1, fl1, rfl⟩
  rw [iteration_normal_ready defaults _ init POLLIN 0 rfl rfl, he0, hm, pollMask_zero,
    inputStep_read defaults _ _ (bigChunk 16) rfl rfl hne hfit, hrs, hc, outputStep_idle]
  exact rv1


/-! ## The fuel of the line loop is enough -/

theorem scan_ge (bs : List Byte) : ∀ p, p ≤ scan bs p := by
  induction bs with
  | nil => intro p; exact Nat.le_refl p
  | cons b bs ih =>
    intro p
    rw [scan]
    split
    · exact Nat.le_trans (Nat.le_succ p) (ih (p + 1))
    · exact Nat.le_refl p

/-- Once the fuel covers the bytes that are left, more fuel changes nothing:
the loop of lines 273-281 has ended by itself. -/
theorem lines_fuel (cfg : Config) (fuel : Nat) :
    ∀ (s : State) (p extra : Nat), s.input_len ≤ p + fuel →
      lines cfg (fuel + extra) s p = lines cfg fuel s p := by
  induction fuel with
  | zero =>
    intro s p extra h
    rw [lines_done cfg _ s p (by omega), lines_done cfg _ s p (by omega)]
  | succ fuel ih =>
    intro s p extra h
    have e : fuel + 1 + extra = (fuel + extra) + 1 := by omega
    rw [e, lines, lines]
    split
    · simp only
      split
      · rfl
      · have hs := scan_ge (s.input_buf.drop p) p
        have hl : (addline cfg s
            ((s.input_buf.drop p).take (scan (s.input_buf.drop p) p - p))).input_len =
            s.input_len := by
          unfold State.input_len
          rw [(addline_frame cfg s _).1]
        exact ih _ _ extra (by rw [hl]; omega)
    · rfl


/-! ## The fuel of the send loop is enough -/

theorem dequeue_indices (s : State) :
    (dequeue s).pktbuf_head = s.pktbuf_head ∧
    (dequeue s).pktbuf_tail = (s.pktbuf_tail + 1) % pktbuf_size := by
  refine ⟨rfl, ?_⟩
  show (s.pktbuf_tail + 1) &&& (pktbuf_size - 1) = (s.pktbuf_tail + 1) % pktbuf_size
  exact Nat.and_pow_two_sub_one_eq_mod (s.pktbuf_tail + 1) 10

/-- In every state of the event loop both queue indices are below
`pktbuf_size`. -/
theorem indices_of_reachable (cfg : Config) (s : State) (hr : Reachable cfg s) :
    s.pktbuf_head < pktbuf_size ∧ s.pktbuf_tail < pktbuf_size := by
  have hend : ∀ t : State, t.pktbuf_head < pktbuf_size ∧ t.pktbuf_tail < pktbuf_size →
      (endpacket t).pktbuf_head < pktbuf_size ∧ (endpacket t).pktbuf_tail < pktbuf_size := by
    intro t ht
    unfold endpacket
    split
    · exact ⟨Nat.mod_lt _ (by decide), ht.2⟩
    · exact ht
  induction hr with
  | init => exact ⟨by decide, by decide⟩
  | line s buf _ _ ih =>
    unfold addline
    split
    · exact ih
    · simp only
      have hp : (preSeal cfg s buf).pktbuf_head < pktbuf_size ∧
          (preSeal cfg s buf).pktbuf_tail < pktbuf_size := by
        obtain ⟨ln, e | ⟨_, e⟩⟩ := preSeal_cases cfg s buf
        · rw [e]; exact ih
        · rw [e]; exact hend _ ih
      have ha : (append cfg s buf).pktbuf_head < pktbuf_size ∧
          (append cfg s buf).pktbuf_tail < pktbuf_size := by
        rw [append_pktbuf_head, append_pktbuf_tail]; exact hp
      split
      · exact hend _ ha
      · exact ha
  | forced s _ ih => exact hend s ih
  | sent s _ _ ih =>
    rw [(dequeue_indices s).1, (dequeue_indices s).2]
    exact ⟨ih.1, Nat.mod_lt _ (by decide)⟩
  | env s ib fl r0 r1 _ ih => exact ih
  | read s _ ih => exact ih

/-- With both indices below `pktbuf_size`, the send loop ends within
`pktbuf_size` rounds: more fuel changes nothing. -/
theorem sendLoop_fuel (cfg : Config) (send : Nat → SendResult) (fuel : Nat) :
    ∀ (k : Nat) (s : State) (extra : Nat),
      s.pktbuf_head < pktbuf_size → s.pktbuf_tail < pktbuf_size →
      (s.pktbuf_head + pktbuf_size - s.pktbuf_tail) % pktbuf_size < fuel →
      sendLoop cfg send (fuel + extra) k s = sendLoop cfg send fuel k s := by
  induction fuel with
  | zero => intro k s extra _ _ h; omega
  | succ fuel ih =>
    intro k s extra hh ht hq
    have e : fuel + 1 + extra = (fuel + extra) + 1 := by omega
    have hstep : s.pktbuf_head ≠ s.pktbuf_tail →
        sendLoop cfg send (fuel + extra) (k + 1) (dequeue s) =
          sendLoop cfg send fuel (k + 1) (dequeue s) := by
      intro hne
      apply ih
      · rw [(dequeue_indices s).1]; exact hh
      · rw [(dequeue_indices s).2]; exact Nat.mod_lt _ (by decide)
      · rw [(dequeue_indices s).1, (dequeue_indices s).2]
        simp only [pktbuf_size] at hh ht hq ⊢
        omega
    rw [e, sendLoop, sendLoop]
    split
    · rename_i hne
      split
      · split
        · rfl
        · exact hstep hne
      · rfl
      · split
        · split
          · rfl
          · exact hstep hne
        · rfl
    · rfl



/-! ## Queued descriptors are not empty -/

theorem live_endpacket (s : State) (h : Live s) : Live (endpacket s) := by
  obtain ⟨h1, h2, h3⟩ := h
  unfold endpacket
  split
  · rename_i hpos
    refine ⟨Nat.mod_lt _ (by decide), h2, ?_⟩
    intro i hq
    simp only
    split
    · exact hpos
    · rename_i hi
      apply h3
      unfold Queued at hq ⊢
      simp only [pktbuf_size] at hq h1 h2 ⊢
      omega
  · exact ⟨h1, h2, h3⟩

theorem live_dequeue (s : State) (h : Live s) (hne : s.pktbuf_head ≠ s.pktbuf_tail) :
    Live (dequeue s) := by
  obtain ⟨h1, h2, h3⟩ := h
  have ht := (dequeue_indices s).2
  have hh := (dequeue_indices s).1
  refine ⟨by rw [hh]; exact h1, by rw [ht]; exact Nat.mod_lt _ (by decide), ?_⟩
  intro i hq
  have hp : (dequeue s).pktbuf = s.pktbuf := rfl
  rw [hp]
  apply h3
  unfold Queued at hq ⊢
  rw [hh, ht] at hq
  simp only [pktbuf_size] at hq h1 h2 ⊢
  omega

theorem live_of_reachable (cfg : Config) (s : State) (hr : Reachable cfg s) : Live s := by
  induction hr with
  | init =>
    refine ⟨by decide, by decide, ?_⟩
    intro i hq
    unfold Queued at hq
    simp only [init, pktbuf_size] at hq
    omega
  | line s buf _ _ ih =>
    unfold addline
    split
    · exact ih
    · simp only
      have hp : Live (preSeal cfg s buf) := by
        obtain ⟨ln, e | ⟨_, e⟩⟩ := preSeal_cases cfg s buf
        · rw [e]; exact ih
        · rw [e]; exact live_endpacket _ ih
      have ha : Live (append cfg s buf) := by
        unfold Live Queued
        rw [append_pktbuf_head, append_pktbuf_tail, append_pktbuf]
        exact hp
      split
      · exact live_endpacket _ ha
      · exact ha
  | forced s _ ih => exact live_endpacket s ih
  | sent s _ hne ih => exact live_dequeue s ih hne
  | env s ib fl r0 r1 _ ih => exact ih
  | read s _ ih => exact ih

/-- In a state of the event loop with a non-empty queue the oldest descriptor
has at least one byte. -/
theorem oldest_not_empty (cfg : Config) (s : State) (hr : Reachable cfg s)
    (hne : s.pktbuf_head ≠ s.pktbuf_tail) : (s.pktbuf s.pktbuf_tail).len ≠ 0 := by
  obtain ⟨h1, h2, h3⟩ := live_of_reachable cfg s hr
  have : Queued s s.pktbuf_tail := by
    unfold Queued
    simp only [pktbuf_size] at h1 h2 ⊢
    omega
  have := h3 _ this
  omega

/-- With network errors ignored the send loop never ends the program. -/
theorem sendLoop_ignore (cfg : Config) (hi : cfg.ignore_net_errs = true)
    (send : Nat → SendResult) (fuel : Nat) :
    ∀ (k : Nat) (s : State), (sendLoop cfg send fuel k s).code = none := by
  induction fuel with
  | zero => intro k s; rfl
  | succ fuel ih =>
    intro k s
    unfold sendLoop
    split
    · split
      · split
        · rfl
        · exact ih _ _
      · rfl
      · split
        · rfl
        · exact ih _ _
    · rfl


/-! ## Carriage returns, truncation, and the bytes of a record -/

theorem stripLen_le (buf : List Byte) : ∀ n, stripLen buf n ≤ n := by
  intro n
  induction n with
  | zero => exact Nat.le_refl _
  | succ n ih =>
    rw [stripLen]
    split
    · omega
    · exact Nat.le_refl _

theorem stripLen_congr (a b : List Byte) :
    ∀ n, (∀ i, i < n → a.getD i 0 = b.getD i 0) → stripLen a n = stripLen b n := by
  intro n
  induction n with
  | zero => intro _; rfl
  | succ n ih =>
    intro h
    rw [stripLen, stripLen, h n (by omega), ih (fun i hi => h i (by omega))]

theorem stripLen_all_cr (buf : List Byte) (h : ∀ b ∈ buf, b = 13) :
    ∀ n, n ≤ buf.length → stripLen buf n = 0 := by
  intro n
  induction n with
  | zero => intro _; rfl
  | succ n ih =>
    intro hn
    have hlt : n < buf.length := by omega
    have hb : buf.getD n 0 = 13 := by
      rw [List.getD_eq_getElem _ _ hlt]
      exact h _ (List.getElem_mem hlt)
    rw [stripLen, if_pos hb]
    exact ih (by omega)

theorem stripLen_append_cr_aux (b : List Byte) (k : Nat) :
    ∀ j, j ≤ k → stripLen (b ++ List.replicate k 13) (b.length + j) = stripLen b b.length := by
  intro j
  induction j with
  | zero =>
    intro _
    apply stripLen_congr
    intro i hi
    rw [List.getD_append _ _ _ _ hi]
  | succ j ih =>
    intro hj
    have hb : (b ++ List.replicate k 13).getD (b.length + j) 0 = 13 := by
      rw [List.getD_append_right _ _ _ _ (by omega)]
      rw [List.getD_eq_getElem?_getD, List.getElem?_replicate, if_pos (by omega)]
      rfl
    rw [← Nat.add_assoc, stripLen, if_pos hb]
    exact ih (by omega)

/-- Trailing carriage returns, however many, do not change the stripped
length. -/
theorem stripLen_append_cr (b : List Byte) (k : Nat) :
    stripLen (b ++ List.replicate k 13) (b ++ List.replicate k 13).length =
      stripLen b b.length := by
  rw [List.length_append, List.length_replicate]
  exact stripLen_append_cr_aux b k k (Nat.le_refl _)

theorem capLen_le_len (hdr_len len : Nat) (hh : hdr_len ≤ 65534) :
    capLen hdr_len len ≤ len := by
  unfold capLen
  split
  · rw [intToSize_65534 hh]; omega
  · exact Nat.le_refl _

theorem srcBytes_eq_take (buf : List Byte) (n : Nat) (h : n ≤ buf.length) :
    srcBytes buf n = buf.take n := by
  apply List.ext_getElem
  · rw [srcBytes_length, List.length_take]; omega
  · intro j h1 h2
    rw [srcBytes_length] at h1
    have e := srcBytes_getD buf n j h1
    rw [List.getD_eq_getElem _ _ (by rw [srcBytes_length]; exact h1),
      List.getD_eq_getElem _ _ (by omega)] at e
    rw [e, List.getElem_take]

theorem memcpy_congr (dst : Nat → Byte) (off : Nat) (a b : List Byte) (n : Nat)
    (h : ∀ j, j < n → a.getD j 0 = b.getD j 0) : memcpy dst off a n = memcpy dst off b n := by
  funext i
  unfold memcpy
  split
  · rename_i hi
    exact h _ (by omega)
  · rfl

/-- The bytes that `addline` leaves in `outbuf` from `writeStart` on are the
record of the line. -/
theorem addline_written (cfg : Config) (s : State) (buf : List Byte)
    (hne : stripLen buf buf.length ≠ 0) :
    bytesAt (addline cfg s buf).outbuf (writeStart cfg s buf)
      (record cfg s.line_number buf).length = record cfg s.line_number buf := by
  apply bytesAt_eq_of_getD
  intro j hj
  rw [addline_outbuf, if_pos ⟨hne, by omega, by omega⟩]
  congr 1
  omega

/-- The record of a line under a configuration that passed the sanity check:
header, the first `capLen` bytes of the line, terminator. -/
theorem record_eq_take (cfg : Config) (ln : Nat) (buf : List Byte)
    (hh : (header cfg ln).length ≤ 65534) :
    record cfg ln buf =
      header cfg ln ++
        buf.take (capLen (header cfg ln).length (stripLen buf buf.length)) ++ [10] := by
  unfold record
  rw [srcBytes_eq_take]
  exact Nat.le_trans (capLen_le_len _ _ hh) (stripLen_le buf buf.length)


theorem preSeal_congr (cfg : Config) (s : State) (a b : List Byte)
    (hs : stripLen a a.length = stripLen b b.length) : preSeal cfg s a = preSeal cfg s b := by
  unfold preSeal
  rw [hs]

/-- `addline` depends on its buffer only through the stripped length and the
bytes it copies. -/
theorem append_congr (cfg : Config) (s : State) (a b : List Byte)
    (hs : stripLen a a.length = stripLen b b.length)
    (hb : ∀ j, j < capLen (header cfg s.line_number).length (stripLen b b.length) →
      a.getD j 0 = b.getD j 0) : append cfg s a = append cfg s b := by
  have hp := preSeal_congr cfg s a b hs
  unfold append
  simp only
  rw [hp, hs]
  split <;> rw [memcpy_congr _ _ a b _ hb]

theorem addline_congr (cfg : Config) (s : State) (a b : List Byte)
    (hs : stripLen a a.length = stripLen b b.length)
    (hb : ∀ j, j < capLen (header cfg s.line_number).length (stripLen b b.length) →
      a.getD j 0 = b.getD j 0) : addline cfg s a = addline cfg s b := by
  unfold addline
  rw [hs, append_congr cfg s a b hs hb]

theorem stripLen_no_cr (b : List Byte) (h : b.getLast? ≠ some 13) :
    stripLen b b.length = b.length := by
  cases hb : b.length with
  | zero => rfl
  | succ n =>
    apply stripLen_last
    intro h13
    apply h
    rw [List.getLast?_eq_getElem?, hb, Nat.add_sub_cancel]
    rw [List.getD_eq_getElem?_getD] at h13
    have hlt : n < b.length := by omega
    rw [List.getElem?_eq_getElem hlt] at h13 ⊢
    simp only [Option.getD_some] at h13
    rw [h13]


/-! ## Who writes which cursor -/

theorem lines_tails (cfg : Config) (fuel : Nat) :
    ∀ (s : State) (p : Nat),
      (lines cfg fuel s p).1.outbuf_tail = s.outbuf_tail ∧
      (lines cfg fuel s p).1.pktbuf_tail = s.pktbuf_tail := by
  induction fuel with
  | zero => intro s p; exact ⟨rfl, rfl⟩
  | succ fuel ih =>
    intro s p
    rw [lines]
    split
    · simp only
      split
      · exact ⟨rfl, rfl⟩
      · obtain ⟨h1, h2⟩ := ih
          (addline cfg s ((s.input_buf.drop p).take (scan (s.input_buf.drop p) p - p)))
          (scan (s.input_buf.drop p) p + 1)
        obtain ⟨_, _, _, _, g5, g6⟩ := addline_frame cfg s
          ((s.input_buf.drop p).take (scan (s.input_buf.drop p) p - p))
        exact ⟨h1.trans g6, h2.trans g5⟩
    · exact ⟨rfl, rfl⟩

theorem compact_tails (s : State) (p : Nat) :
    (compact s p).outbuf_tail = s.outbuf_tail ∧ (compact s p).pktbuf_tail = s.pktbuf_tail := by
  unfold compact
  split <;> exact ⟨rfl, rfl⟩

theorem readStep_tails (cfg : Config) (s : State) (chunk : List Byte) :
    (readStep cfg s chunk).outbuf_tail = s.outbuf_tail ∧
    (readStep cfg s chunk).pktbuf_tail = s.pktbuf_tail := by
  unfold readStep
  simp only
  obtain ⟨c1, c2⟩ := compact_tails
    (lines cfg (State.input_len { s with input_buf := s.input_buf ++ chunk })
      { s with input_buf := s.input_buf ++ chunk } 0).1
    (lines cfg (State.input_len { s with input_buf := s.input_buf ++ chunk })
      { s with input_buf := s.input_buf ++ chunk } 0).2
  obtain ⟨l1, l2⟩ := lines_tails cfg
    (State.input_len { s with input_buf := s.input_buf ++ chunk })
    { s with input_buf := s.input_buf ++ chunk } 0
  exact ⟨c1.trans l1, c2.trans l2⟩

theorem endpacket_tails (s : State) :
    (endpacket s).outbuf_tail = s.outbuf_tail ∧ (endpacket s).pktbuf_tail = s.pktbuf_tail := by
  obtain ⟨_, _, _, _, h5, h6, _⟩ := endpacket_frame s
  exact ⟨h6, h5⟩

theorem inputStep_tails (cfg : Config) (ev : Event) (s : State) :
    (inputStep cfg ev s).outbuf_tail = s.outbuf_tail ∧
    (inputStep cfg ev s).pktbuf_tail = s.pktbuf_tail := by
  unfold inputStep
  split
  · exact endpacket_tails s
  · split
    · simp only
      split
      · exact endpacket_tails { s with trace := s.trace ++ [Obs.rd] }
      · exact endpacket_tails { s with trace := s.trace ++ [Obs.rd] }
      · split
        · exact endpacket_tails { s with trace := s.trace ++ [Obs.rd] }
        · exact readStep_tails cfg { s with trace := s.trace ++ [Obs.rd] } _
    · exact ⟨rfl, rfl⟩

theorem afterPoll_tails (s : State) (r : PollResult) :
    (afterPoll s r).outbuf_tail = s.outbuf_tail ∧ (afterPoll s r).pktbuf_tail = s.pktbuf_tail := by
  cases r with
  | failed e => exact ⟨rfl, rfl⟩
  | timeout => simp only [afterPoll]; split <;> exact ⟨rfl, rfl⟩
  | ready r0 r1 => simp only [afterPoll]; split <;> exact ⟨rfl, rfl⟩

/-- The send loop writes neither the packet in progress nor the head of the
descriptor queue. -/
theorem sendLoop_heads (cfg : Config) (send : Nat → SendResult) (fuel : Nat) :
    ∀ (k : Nat) (s : State),
      (sendLoop cfg send fuel k s).state.outbuf_head = s.outbuf_head ∧
      (sendLoop cfg send fuel k s).state.outbuf_len = s.outbuf_len ∧
      (sendLoop cfg send fuel k s).state.pktbuf_head = s.pktbuf_head ∧
      (sendLoop cfg send fuel k s).state.outbuf = s.outbuf ∧
      (sendLoop cfg send fuel k s).state.pktbuf = s.pktbuf ∧
      (sendLoop cfg send fuel k s).state.line_number = s.line_number := by
  induction fuel with
  | zero => intro k s; exact ⟨rfl, rfl, rfl, rfl, rfl, rfl⟩
  | succ fuel ih =>
    intro k s
    unfold sendLoop
    split
    · split
      · split
        · exact ⟨rfl, rfl, rfl, rfl, rfl, rfl⟩
        · exact ih _ (dequeue s)
      · exact ⟨rfl, rfl, rfl, rfl, rfl, rfl⟩
      · split
        · split
          · exact ⟨rfl, rfl, rfl, rfl, rfl, rfl⟩
          · exact ih _ (dequeue s)
        · exact ⟨rfl, rfl, rfl, rfl, rfl, rfl⟩
    · exact ⟨rfl, rfl, rfl, rfl, rfl, rfl⟩

/-- A send loop whose first `send` neither returns a positive count nor fails
with `ignore_net_errs` on leaves the state as it was. -/
theorem sendLoop_blocked (cfg : Config) (send : Nat → SendResult) (fuel k : Nat) (s : State)
    (h1 : ∀ n, send k = SendResult.sent n → n = 0)
    (h2 : send k = SendResult.failed → cfg.ignore_net_errs = false) :
    (sendLoop cfg send fuel k s).state = s := by
  cases fuel with
  | zero => rfl
  | succ fuel =>
    unfold sendLoop
    split
    · split
      · rename_i n hs
        rw [if_pos (h1 n hs)]
        rfl
      · rfl
      · rename_i hs
        rw [if_neg (by rw [h2 hs]; decide)]
        rfl
    · rfl


theorem outputStep_blocked (cfg : Config) (ev : Event) (s : State)
    (h1 : ∀ n, ev.send 0 = SendResult.sent n → n = 0)
    (h2 : ev.send 0 = SendResult.failed → cfg.ignore_net_errs = false) :
    (outputStep cfg ev s).state = s := by
  unfold outputStep
  split
  · rfl
  · split
    · exact sendLoop_blocked cfg ev.send pktbuf_size 0 s h1 h2
    · rfl

/-- A pass in which no `send` returns a positive count and none fails with
`ignore_net_errs` on leaves both tail cursors as they were. -/
theorem iteration_tails (cfg : Config) (ev : Event) (s : State)
    (h1 : ∀ n, ev.send 0 = SendResult.sent n → n = 0)
    (h2 : ev.send 0 = SendResult.failed → cfg.ignore_net_errs = false) :
    (iteration cfg ev s).state.outbuf_tail = s.outbuf_tail ∧
    (iteration cfg ev s).state.pktbuf_tail = s.pktbuf_tail := by
  unfold iteration
  split
  · exact ⟨rfl, rfl⟩
  · split
    · split <;> exact ⟨rfl, rfl⟩
    · rw [outputStep_blocked cfg ev _ h1 h2]
      obtain ⟨a1, a2⟩ := inputStep_tails cfg ev (endpacket (afterPoll s PollResult.timeout))
      obtain ⟨b1, b2⟩ := endpacket_tails (afterPoll s PollResult.timeout)
      obtain ⟨c1, c2⟩ := afterPoll_tails s PollResult.timeout
      exact ⟨a1.trans (b1.trans c1), a2.trans (b2.trans c2)⟩
    · rename_i r0 r1 _
      rw [outputStep_blocked cfg ev _ h1 h2]
      obtain ⟨a1, a2⟩ := inputStep_tails cfg ev (afterPoll s (PollResult.ready r0 r1))
      obtain ⟨c1, c2⟩ := afterPoll_tails s (PollResult.ready r0 r1)
      exact ⟨a1.trans c1, a2.trans c2⟩


/-! ## The history agrees with the state -/

theorem enqPayloads_append (a b : List Obs) :
    enqPayloads (a ++ b) = enqPayloads a ++ enqPayloads b := by
  induction a with
  | nil => rfl
  | cons x xs ih => cases x <;> simp [enqPayloads, ih]

theorem kept_len (s : State) (g : Ghost) (h : Kept s g) :
    g.cur.flatten.length = s.outbuf_len := by
  rw [← h.1, bytesAt_length]

theorem kept_cur_nil (s : State) (g : Ghost) (h : Kept s g) (h0 : s.outbuf_len = 0) :
    g.cur = [] := by
  have hl := kept_len s g h
  rw [h0] at hl
  cases hc : g.cur with
  | nil => rfl
  | cons r rs =>
    exfalso
    have hr : r ≠ [] := h.2.2 r (by rw [hc]; exact List.mem_cons_self _ _)
    rw [hc, List.flatten_cons, List.length_append] at hl
    have : r.length = 0 := by omega
    exact hr (List.length_eq_zero.mp this)

theorem kept_endpacket (s : State) (g : Ghost) (h : Kept s g) :
    Kept (endpacket s) (Ghost.close s g) := by
  unfold endpacket Ghost.close
  split
  · obtain ⟨h1, h2, _⟩ := h
    refine ⟨?_, ?_, ?_⟩
    · simp only [bytesAt, List.range_zero, List.map_nil, List.flatten_nil]
    · simp only [enqPayloads_append, enqPayloads, h2, h1, List.map_append, List.map_cons,
        List.map_nil]
    · intro r hr; cases hr
  · exact h

theorem softCapped_close (s : State) (g : Ghost) (h : SoftCapped g) :
    SoftCapped (Ghost.close s g) := by
  unfold Ghost.close
  split
  · refine ⟨?_, ?_⟩
    · intro h2; simp only [List.length_nil] at h2; omega
    · intro rs hrs
      simp only [List.mem_append, List.mem_singleton] at hrs
      rcases hrs with hrs | hrs
      · exact h.2 rs hrs
      · rw [hrs]; exact h.1
  · exact h

/-- Lines 123-124 in terms of the state before the call. -/
theorem preSeal_eq (cfg : Config) (s : State) (buf : List Byte) :
    ∃ ln, preSeal cfg s buf =
      if s.outbuf_len ≠ 0 ∧ s.outbuf_len + (header cfg s.line_number).length +
          capLen (header cfg s.line_number).length (stripLen buf buf.length) > 1491
      then endpacket { s with line_number := ln } else { s with line_number := ln } := by
  unfold preSeal
  cases hn : cfg.numbering
  · exact ⟨s.line_number, by simp only [Bool.false_eq_true, if_false]⟩
  · exact ⟨(s.line_number + 1) % 2 ^ 64, by simp only [if_true]⟩

theorem record_ne_nil (cfg : Config) (ln : Nat) (buf : List Byte) : record cfg ln buf ≠ [] := by
  intro h
  have := record_length cfg ln buf
  rw [h] at this
  simp only [List.length_nil] at this
  omega

theorem kept_append (cfg : Config) (s : State) (buf : List Byte) (g1 : Ghost)
    (h : Kept (preSeal cfg s buf) g1) :
    Kept (append cfg s buf)
      { count := g1.count + 1, cur := g1.cur ++ [record cfg s.line_number buf],
        sealed := g1.sealed } := by
  obtain ⟨h1, h2, h3⟩ := h
  rw [preSeal_outbuf] at h1
  refine ⟨?_, ?_, ?_⟩
  · rw [append_packet, h1]
    simp only [List.flatten_append, List.flatten_cons, List.flatten_nil, List.append_nil]
  · rw [append_trace]; exact h2
  · intro r hr
    simp only [List.mem_append, List.mem_singleton] at hr
    rcases hr with hr | hr
    · exact h3 r hr
    · rw [hr]; exact record_ne_nil cfg _ buf

theorem kept_preSeal (cfg : Config) (s : State) (buf : List Byte) (g : Ghost)
    (h : Kept s g) :
    Kept (preSeal cfg s buf)
      (if s.outbuf_len ≠ 0 ∧ s.outbuf_len + (header cfg s.line_number).length +
          capLen (header cfg s.line_number).length (stripLen buf buf.length) > 1491
       then Ghost.close s g else g) := by
  obtain ⟨ln, e⟩ := preSeal_eq cfg s buf
  rw [e]
  split
  · exact kept_endpacket { s with line_number := ln } g h
  · exact h

theorem kept_addline (cfg : Config) (s : State) (buf : List Byte) (g : Ghost)
    (h : Kept s g) : Kept (addline cfg s buf) (Ghost.line cfg s buf g) := by
  unfold addline Ghost.line
  split
  · exact h
  · simp only
    have ha := kept_append cfg s buf _ (kept_preSeal cfg s buf g h)
    split
    · exact kept_endpacket _ _ ha
    · exact ha

theorem softCapped_addline (cfg : Config) (s : State) (buf : List Byte) (g : Ghost)
    (hk : Kept s g) (h : SoftCapped g) : SoftCapped (Ghost.line cfg s buf g) := by
  unfold Ghost.line
  split
  · exact h
  · simp only
    have h2 : SoftCapped
        { count := (if s.outbuf_len ≠ 0 ∧ s.outbuf_len + (header cfg s.line_number).length +
              capLen (header cfg s.line_number).length (stripLen buf buf.length) > 1491
            then Ghost.close s g else g).count + 1,
          cur := (if s.outbuf_len ≠ 0 ∧ s.outbuf_len + (header cfg s.line_number).length +
              capLen (header cfg s.line_number).length (stripLen buf buf.length) > 1491
            then Ghost.close s g else g).cur ++ [record cfg s.line_number buf],
          sealed := (if s.outbuf_len ≠ 0 ∧ s.outbuf_len + (header cfg s.line_number).length +
              capLen (header cfg s.line_number).length (stripLen buf buf.length) > 1491
            then Ghost.close s g else g).sealed } := by
      split
      · rename_i hc
        have hpos : s.outbuf_len > 0 := by omega
        have e : Ghost.close s g = { g with cur := [], sealed := g.sealed ++ [g.cur] } := by
          unfold Ghost.close; rw [if_pos hpos]
        rw [e]
        refine ⟨?_, (e ▸ softCapped_close s g h).2⟩
        intro h2
        simp only [List.nil_append, List.length_singleton] at h2
        omega
      · rename_i hc
        refine ⟨?_, h.2⟩
        intro h2
        simp only [List.length_append, List.length_singleton] at h2
        have hne : g.cur ≠ [] := by
          intro hnil; rw [hnil] at h2; simp only [List.length_nil] at h2; omega
        have hl := kept_len s g hk
        have h0 : s.outbuf_len ≠ 0 := fun h0 => hne (kept_cur_nil s g hk h0)
        simp only [List.flatten_append, List.flatten_cons, List.flatten_nil, List.append_nil,
          List.length_append, hl, record_length]
        have : ¬ (s.outbuf_len + (header cfg s.line_number).length +
            capLen (header cfg s.line_number).length (stripLen buf buf.length) > 1491) :=
          fun hgt => hc ⟨h0, hgt⟩
        omega
    split
    · exact softCapped_close _ _ h2
    · exact h2

theorem kept_of_ghosted (cfg : Config) (s : State) (g : Ghost) (hg : Ghosted cfg s g) :
    Kept s g ∧ SoftCapped g := by
  induction hg with
  | init =>
    refine ⟨⟨rfl, rfl, ?_⟩, ?_, ?_⟩
    · intro r hr; cases hr
    · intro h2; simp only [List.length_nil] at h2; omega
    · intro rs hrs; cases hrs
  | line s g buf _ _ ih =>
    exact ⟨kept_addline cfg s buf g ih.1, softCapped_addline cfg s buf g ih.1 ih.2⟩
  | forced s g _ ih => exact ⟨kept_endpacket s g ih.1, softCapped_close s g ih.2⟩
  | sent s g _ _ ih =>
    obtain ⟨⟨h1, h2, h3⟩, hc⟩ := ih
    refine ⟨⟨h1, ?_, h3⟩, hc⟩
    simp only [dequeue, enqPayloads_append, enqPayloads, List.append_nil]
    exact h2
  | env s g ib fl r0 r1 _ ih => exact ih
  | read s g _ ih =>
    obtain ⟨⟨h1, h2, h3⟩, hc⟩ := ih
    refine ⟨⟨h1, ?_, h3⟩, hc⟩
    simp only [enqPayloads_append, enqPayloads, List.append_nil]
    exact h2

theorem reachable_of_ghosted (cfg : Config) (s : State) (g : Ghost) (hg : Ghosted cfg s g) :
    Reachable cfg s := by
  induction hg with
  | init => exact Reachable.init
  | line s g buf _ hr ih => exact Reachable.line s buf ih hr
  | forced s g _ ih => exact Reachable.forced s ih
  | sent s g _ hne ih => exact Reachable.sent s ih hne
  | env s g ib fl r0 r1 _ ih => exact Reachable.env s ib fl r0 r1 ih
  | read s g _ ih => exact Reachable.read s ih

/-- Every state of the event loop has a history. -/
theorem ghosted_of_reachable (cfg : Config) (s : State) (hr : Reachable cfg s) :
    ∃ g, Ghosted cfg s g := by
  induction hr with
  | init => exact ⟨_, Ghosted.init⟩
  | line s buf _ hroom ih => obtain ⟨g, hg⟩ := ih; exact ⟨_, Ghosted.line s g buf hg hroom⟩
  | forced s _ ih => obtain ⟨g, hg⟩ := ih; exact ⟨_, Ghosted.forced s g hg⟩
  | sent s _ hne ih => obtain ⟨g, hg⟩ := ih; exact ⟨_, Ghosted.sent s g hg hne⟩
  | env s ib fl r0 r1 _ ih => obtain ⟨g, hg⟩ := ih; exact ⟨_, Ghosted.env s g ib fl r0 r1 hg⟩
  | read s _ ih => obtain ⟨g, hg⟩ := ih; exact ⟨_, Ghosted.read s g hg⟩


/-! ## A packet of two records with 1492 bytes -/

theorem nearLine_length : nearLine.length = 1489 := by
  unfold nearLine
  exact List.length_replicate _ _

theorem nearLine_strip : stripLen nearLine nearLine.length = nearLine.length := by
  rw [nearLine_length]
  apply stripLen_last
  unfold nearLine
  rw [List.getD_eq_getElem?_getD, List.getElem?_replicate, if_pos (by decide)]
  decide

theorem nearLine_no10 : ∀ b ∈ nearLine, b ≠ 10 := by
  intro b hb
  rw [nearLine, List.mem_replicate] at hb
  rw [hb.2]; decide

theorem record_nearLine (ln : Nat) : record defaults ln nearLine = nearLine ++ [10] := by
  have hh : header defaults ln = [] := header_plain defaults rfl rfl ln
  rw [record_eq_take defaults ln nearLine (by rw [hh]; decide), hh, nearLine_strip,
    nearLine_length]
  have hc : capLen ([] : List Byte).length 1489 = 1489 := by decide
  rw [hc, List.nil_append, List.take_of_length_le (by rw [nearLine_length])]

/-- The line of 1489 bytes joins a packet in progress of 2 bytes, and the
packet is sealed with 1492 bytes. -/
theorem near_step (s : State) (h2 : s.outbuf_len = 2) :
    preSeal defaults s nearLine = s ∧ (append defaults s nearLine).outbuf_len = 1492 ∧
      addline defaults s nearLine = endpacket (append defaults s nearLine) := by
  have hh : (header defaults s.line_number).length = 0 := by
    rw [header_plain defaults rfl rfl]; rfl
  have hcap : capLen 0 1489 = 1489 := by decide
  have hpre : preSeal defaults s nearLine = s := by
    rw [preSeal_plain defaults rfl, if_neg]
    rw [hh, nearLine_strip, nearLine_length, hcap, h2]
    intro h
    omega
  have hl : (append defaults s nearLine).outbuf_len = 1492 := by
    rw [append_outbuf_len, hpre, h2, hh, nearLine_strip, nearLine_length, hcap]
  refine ⟨hpre, hl, ?_⟩
  apply addline_closed
  · rw [nearLine_strip, nearLine_length]; decide
  · rw [hl, hh, intToSize_1491_zero]; decide

theorem near_trace (s : State) (h2 : s.outbuf_len = 2) :
    (addline defaults s nearLine).trace =
      s.trace ++ [Obs.enq s.outbuf_head 1492
        (bytesAt s.outbuf s.outbuf_head 2 ++ (nearLine ++ [10]))] := by
  obtain ⟨hpre, hl, ha⟩ := near_step s h2
  have hp := append_packet defaults s nearLine
  have hhd := append_outbuf_head defaults s nearLine
  have htr := append_trace defaults s nearLine
  rw [hpre] at hhd htr
  rw [hpre, h2, record_nearLine, hl, hhd] at hp
  rw [ha, endpacket_pos _ (by rw [hl]; decide)]
  simp only
  rw [htr, hhd, hl, hp]

theorem near_ghost (s : State) (g : Ghost) (h2 : s.outbuf_len = 2) :
    Ghost.line defaults s nearLine g =
      { count := g.count + 1, cur := [],
        sealed := g.sealed ++ [g.cur ++ [nearLine ++ [10]]] } := by
  obtain ⟨_, hl, _⟩ := near_step s h2
  have hh : (header defaults s.line_number).length = 0 := by
    rw [header_plain defaults rfl rfl]; rfl
  have hcap : capLen 0 1489 = 1489 := by decide
  unfold Ghost.line
  rw [if_neg (by rw [nearLine_strip, nearLine_length]; decide)]
  simp only
  have hpost : 1492 ≥ intToSize (1491 - ((0 : Nat) : Int)) := by
    rw [intToSize_1491_zero]; decide
  have hpre : ¬ ((2 : Nat) ≠ 0 ∧ 2 + 0 + 1489 > 1491) := by decide
  rw [hh, nearLine_strip, nearLine_length, hcap, h2, hl, record_nearLine,
    if_pos hpost, if_neg hpre]
  unfold Ghost.close
  rw [if_pos (by rw [hl]; decide)]


theorem trace_input_buf (s : State) (ib : List Byte) :
    ({ s with input_buf := ib } : State).trace = s.trace := rfl


/-! ## The packet in progress stays below the soft cap -/

theorem endpacket_outbuf_len (s : State) : (endpacket s).outbuf_len = 0 := by
  unfold endpacket
  split
  · rfl
  · omega

theorem addline_below (cfg : Config) (hc : sane cfg) (s : State) (buf : List Byte)
    (h : stripLen buf buf.length ≠ 0 ∨ s.outbuf_len < 1491) :
    (addline cfg s buf).outbuf_len < 1491 := by
  unfold addline
  split
  · rename_i h0
    rcases h with h | h
    · exact absurd h0 h
    · exact h
  · simp only
    split
    · rw [endpacket_outbuf_len]; decide
    · rename_i hlt
      have hh := header_length_le cfg hc s.line_number
      rw [intToSize_1491 (by omega)] at hlt
      omega

theorem below_of_reachable (cfg : Config) (hc : sane cfg) (s : State)
    (hr : Reachable cfg s) : s.outbuf_len < 1491 := by
  induction hr with
  | init => decide
  | line s buf _ _ ih => exact addline_below cfg hc s buf (Or.inr ih)
  | forced s _ _ => rw [endpacket_outbuf_len]; decide
  | sent s _ _ ih => exact ih
  | env s ib fl r0 r1 _ ih => exact ih
  | read s _ ih => exact ih


/-! ## A packet that ends exactly 65536 bytes before the end of `outbuf` -/

theorem edgeLine_no10 : ∀ b ∈ edgeLine, b ≠ 10 := by
  intro b hb
  rw [edgeLine, List.mem_replicate] at hb
  rw [hb.2]; decide

/-- Fifteen lines of 65534 bytes and one of 14 bytes arrive in one read at
program start: fifteen packets are queued and the packet in progress, of 15
bytes, ends at offset 983040. -/
theorem edge_run :
    ∃ s, iteration defaults (rdEv (bigChunk 15 ++ (edgeLine ++ [10]))) init = .running s ∧
      s.outbuf_head = 983025 ∧ s.outbuf_len = 15 ∧ s.flushing = false := by
  have hlen : (bigChunk 15 ++ (edgeLine ++ [10])).length = 983040 := by
    rw [List.length_append, bigChunk_length]; rfl
  have hm : pollMask POLLIN POLLIN = POLLIN := by decide
  have he0 : events0 init = POLLIN := by decide
  have hne : bigChunk 15 ++ (edgeLine ++ [10]) ≠ [] := by
    intro h; rw [h] at hlen; cases hlen
  obtain ⟨s1, r1, p1, i1, fl1, rv1⟩ := packed_lines 15 0
    { init with revents0 := POLLIN, revents1 := 0, trace := init.trace ++ [Obs.rd],
                input_buf := [] ++ (bigChunk 15 ++ (edgeLine ++ [10])) } 0 983025
    (edgeLine ++ [10])
    ⟨rfl, rfl, rfl, rfl, rfl, fun h => absurd h (by decide)⟩ (by decide) (by simp)
  have hz : State.input_len { init with revents0 := POLLIN, revents1 := 0 } = 0 := rfl
  have hfit : State.input_len { init with revents0 := POLLIN, revents1 := 0 } +
      (bigChunk 15 ++ (edgeLine ++ [10])).length ≤ insize := by
    rw [hz, hlen]; decide
  have hs1 : s1.input_len = 983040 := by
    unfold State.input_len
    rw [i1]
    show ([] ++ (bigChunk 15 ++ (edgeLine ++ [10]))).length = 983040
    rw [List.nil_append, hlen]
  have hd : s1.input_buf.drop (0 + 65535 * 15) = edgeLine ++ 10 :: [] := by
    rw [i1]
    show ([] ++ (bigChunk 15 ++ (edgeLine ++ [10]))).drop (0 + 65535 * 15) = _
    rw [List.nil_append, Nat.zero_add, List.drop_left' (bigChunk_length 15)]
  have e2 := lines_cons defaults 983024 s1 (0 + 65535 * 15) edgeLine [] hd edgeLine_no10
    (hasroom_packed 15 s1 p1 (by decide))
  have hs2 : (addline defaults s1 edgeLine).input_len = 983040 := by
    unfold State.input_len
    rw [(addline_frame defaults s1 edgeLine).1]
    exact hs1
  rw [lines_done defaults _ (addline defaults s1 edgeLine) _ (by rw [hs2]; decide)] at e2
  have r2 := r1.trans e2
  have hin : State.input_len
      { init with revents0 := POLLIN, revents1 := 0, trace := init.trace ++ [Obs.rd],
                  input_buf := [] ++ (bigChunk 15 ++ (edgeLine ++ [10])) } = 983025 + 15 := by
    show ([] ++ (bigChunk 15 ++ (edgeLine ++ [10]))).length = 983025 + 15
    rw [List.nil_append, hlen]
  have hrs := readStep_of_lines defaults
    { init with revents0 := POLLIN, revents1 := 0, trace := init.trace ++ [Obs.rd] }
    (addline defaults s1 edgeLine) (bigChunk 15 ++ (edgeLine ++ [10]))
    (0 + 65535 * 15 + edgeLine.length + 1) (983025 + 15) hin r2
  have hc : compact (addline defaults s1 edgeLine) (0 + 65535 * 15 + edgeLine.length + 1) =
      { addline defaults s1 edgeLine with input_buf := [] } := by
    unfold compact
    rw [if_neg (by rw [hs2]; decide)]
  obtain ⟨a1, a2, a3⟩ := addline_short defaults rfl rfl s1 edgeLine p1.1 (by decide)
    (by decide) (by decide)
  obtain ⟨q1, q2, q3, q4, q5, q6⟩ := p1
  refine ⟨{ addline defaults s1 edgeLine with input_buf := [] }, ?_, ?_, ?_, ?_⟩
  · rw [iteration_normal_ready defaults _ init POLLIN 0 rfl rfl, he0, hm, pollMask_zero,
      inputStep_read defaults _ _ (bigChunk 15 ++ (edgeLine ++ [10])) rfl rfl hne hfit, hrs, hc,
      outputStep_idle]
    show (addline defaults s1 edgeLine).revents1 = 0
    rw [(addline_frame defaults s1 edgeLine).2.2.2.1]
    exact rv1
  · show (addline defaults s1 edgeLine).outbuf_head = 983025
    rw [a1, append_outbuf_head, a2, q5]
    rfl
  · show (addline defaults s1 edgeLine).outbuf_len = 15
    rw [a1, a3]
    rfl
  · show (addline defaults s1 edgeLine).flushing = false
    rw [(addline_frame defaults s1 edgeLine).2.1]
    exact fl1


/-! ## The sequence number -/

theorem append_line_number (cfg : Config) (s : State) (buf : List Byte) :
    (append cfg s buf).line_number = (preSeal cfg s buf).line_number := by
  unfold append; simp only; split <;> rfl

theorem preSeal_line_number (cfg : Config) (s : State) (buf : List Byte) :
    (preSeal cfg s buf).line_number =
      if cfg.numbering = true then (s.line_number + 1) % 2 ^ 64 else s.line_number := by
  unfold preSeal
  cases hn : cfg.numbering
  · simp only [Bool.false_eq_true, if_false]
    split
    · exact (endpacket_frame s).2.2.2.2.2.2
    · rfl
  · simp only [if_true]
    split
    · exact (endpacket_frame { s with line_number := (s.line_number + 1) % 2 ^ 64 }).2.2.2.2.2.2
    · rfl

/-- The sequence number moves by one, modulo `2 ^ 64`, for every non-empty
line when numbering is on, and never otherwise. -/
theorem addline_line_number (cfg : Config) (s : State) (buf : List Byte) :
    (addline cfg s buf).line_number =
      if stripLen buf buf.length = 0 then s.line_number
      else if cfg.numbering = true then (s.line_number + 1) % 2 ^ 64 else s.line_number := by
  unfold addline
  split
  · rfl
  · simp only
    split
    · rw [(endpacket_frame (append cfg s buf)).2.2.2.2.2.2, append_line_number,
        preSeal_line_number]
    · rw [append_line_number, preSeal_line_number]

theorem ghost_close_count (s : State) (g : Ghost) : (Ghost.close s g).count = g.count := by
  unfold Ghost.close
  split <;> rfl

theorem ghost_line_count (cfg : Config) (s : State) (buf : List Byte) (g : Ghost) :
    (Ghost.line cfg s buf g).count =
      if stripLen buf buf.length = 0 then g.count else g.count + 1 := by
  unfold Ghost.line
  split
  · rfl
  · simp only
    split
    · rw [ghost_close_count]
      simp only
      split
      · rw [ghost_close_count]
      · rfl
    · simp only
      split
      · rw [ghost_close_count]
      · rfl

/-- With numbering on, the sequence number is the number of non-empty lines
admitted so far, modulo `2 ^ 64`. -/
theorem counted_of_ghosted (cfg : Config) (hn : cfg.numbering = true) (s : State) (g : Ghost)
    (hg : Ghosted cfg s g) : s.line_number = g.count % 2 ^ 64 := by
  induction hg with
  | init => rfl
  | line s g buf _ _ ih =>
    rw [addline_line_number, ghost_line_count]
    split
    · exact ih
    · rw [ih]
      omega
  | forced s g _ ih =>
    rw [(endpacket_frame s).2.2.2.2.2.2, ghost_close_count]
    exact ih
  | sent s g _ _ ih => exact ih
  | env s g ib fl r0 r1 _ ih => exact ih
  | read s g _ ih => exact ih

theorem fmtLong_small (n : Nat) (h : n < 2 ^ 63) : fmtLong n = decimal n := by
  unfold fmtLong
  have h2 : n % 2 ^ 64 = n := Nat.mod_eq_of_lt (by omega)
  rw [h2, if_pos h]

theorem header_numbered (cfg : Config) (hn : cfg.numbering = true) (hp : cfg.line_prefix = none)
    (n : Nat) (h : n < 2 ^ 63) : header cfg n = decimal n ++ cfg.line_delim := by
  unfold header
  rw [hn, hp, fmtLong_small n h]
  simp only [if_true, List.append_nil]

/-! ## Claims -/

/-- C1 (fails on the code): default options, the input `ab\n` delivered as
the chunks `a` and `b\n`, every send succeeding, all answers possible.  The
program ends with status 0 and the only payload handed to `send` is `b\n`;
the input line is `ab`, so the promised payload is `ab\n`. -/
theorem C1_split_line_loses_bytes :
    [97] ++ [98, 10] = stream [[97, 98]] ∧
    runOk defaults splitRun init = true ∧
    (main defaults splitRun).code = some 0 ∧
    sentBytes (main defaults splitRun).state.trace = [98, 10] ∧
    specPayload [[97, 98]] = [97, 98, 10] := by
  decide

/-- C2 (fails on the code): default options, one read that delivers sixteen
lines of 65534 bytes `a`, nothing sent yet.  Sixteen packets of 65535 bytes
are queued, the first at offset 0; with the sixteenth the write cursor has
gone back to offset 0, where `outbuf_tail` still stands.  `hasroom` holds in
that state, and admitting the line `b` writes to offset 0: the first byte of
the oldest unsent packet changes from `a` to `b`. -/
theorem C2_unsent_packet_overwritten :
    ∃ s, run defaults [rdEv (bigChunk 16)] init = .running s ∧
      runOk defaults [rdEv (bigChunk 16)] init = true ∧
      hasroom s = true ∧
      Queued s 0 ∧ s.pktbuf 0 = ⟨0, 65535⟩ ∧ s.outbuf 0 = 97 ∧
      Writes defaults s [98] 0 ∧ (addline defaults s [98]).outbuf 0 = 98 := by
  obtain ⟨s, r, p, _, _⟩ := packed_run
  have hroom := hasroom_packed 16 s p (by decide)
  obtain ⟨h1, h2, h3, h4, h5, h6⟩ := p
  obtain ⟨h6a, h6b⟩ := h6 (by decide)
  have hpre : preSeal defaults s [98] = s := by
    rw [preSeal_plain defaults rfl, if_neg (by simp [h1])]
  have hw : writeStart defaults s [98] = 0 := by
    unfold writeStart; rw [hpre, h1, h5]; rfl
  have hwr : Writes defaults s [98] 0 := by
    refine ⟨by decide, by rw [hw], ?_⟩
    rw [hw, record_length]; omega
  have hlen : (bigChunk 16).length = 1048560 := by rw [bigChunk_length]
  have hne : bigChunk 16 ≠ [] := by
    intro h; rw [h] at hlen; cases hlen
  have ha := admissible_read defaults init (bigChunk 16) rfl rfl hne (by rw [hlen]; decide)
  refine ⟨s, ?_, ?_, hroom, ?_, h6a, h6b, hwr, ?_⟩
  · rw [run_cons_running defaults _ _ _ _ r]; rfl
  · rw [runOk_cons_running defaults _ _ _ _ ha r]; rfl
  · unfold Queued
    rw [h2, h3]
    decide
  · rw [addline_outbuf]
    have hwr2 : stripLen [98] [98].length ≠ 0 ∧ writeStart defaults s [98] ≤ 0 ∧
        0 < writeStart defaults s [98] + (record defaults s.line_number [98]).length := hwr
    rw [if_pos hwr2, hw]
    rfl

/-- C3 (fails on the code): with `-t 0`, after 1022 rounds in which the line
`a` arrives alone and the merge timeout seals it, and one more line `a`, the
loop is in a state where `hasroom` holds; `addline` on a line of 1490 bytes
then seals the packet in progress (slot 1022), appends the record and runs
`endpacket` again with a non-empty packet while
`(pktbuf_head+1) mod 1024 = pktbuf_tail`.  After that pass `pktbuf_head` has
come round to `pktbuf_tail`: 1024 descriptors were queued, none was sent. -/
theorem C3_descriptor_queue_overflows :
    ∃ s1 s2, run cfgT (fill 1022 ++ [rdEv [97, 10]]) init = .running s1 ∧
      runOk cfgT (fill 1022 ++ [rdEv [97, 10], rdEv (longLine ++ [10])]) init = true ∧
      hasroom s1 = true ∧
      addline cfgT s1 longLine = endpacket (append cfgT s1 longLine) ∧
      (append cfgT s1 longLine).outbuf_len ≠ 0 ∧
      ((append cfgT s1 longLine).pktbuf_head + 1) % pktbuf_size =
        (append cfgT s1 longLine).pktbuf_tail ∧
      iteration cfgT (rdEv (longLine ++ [10])) s1 = .running s2 ∧
      s2.pktbuf_head = s2.pktbuf_tail ∧
      (enqs s2.trace).length = 1024 ∧ txs s2.trace = [] := by
  obtain ⟨s0, r0, p0, o0⟩ := fill_run 1022 0 init filled_init (by decide)
  obtain ⟨s1, r1, p1⟩ := fill_half 1022 s0 p0 (by decide)
  obtain ⟨s2, r2, _, _, _, q4, q5, q6, q7⟩ := overflow_step s1 p1
  have hroom := hasroom_pending 1022 s1 p1 (by decide)
  obtain ⟨a1, a2, a3⟩ := addline_twice cfgT rfl rfl s1 longLine
    (by rw [p1.2.2.1]; decide) longLine_strip
    (by rw [longLine_length]) (by rw [longLine_length]; decide)
    (by rw [p1.2.2.1, longLine_length]; decide)
  have ok1 := admissible_read cfgT s0 [97, 10] p0.1 p0.2.1 (by decide) (by decide)
  have ok2 := admissible_read cfgT s1 (longLine ++ [10]) p1.1 p1.2.1 (by simp)
    (by rw [List.length_append, longLine_length]; decide)
  refine ⟨s1, s2, ?_, ?_, hroom, a3, ?_, ?_, r2, ?_, q6, q7⟩
  · rw [run_append cfgT _ _ init s0 r0, run_cons_running cfgT _ _ _ _ r1]; rfl
  · apply runOk_append cfgT _ _ init s0 r0 o0
    rw [runOk_cons_running cfgT _ _ _ _ ok1 r1, runOk_cons_running cfgT _ _ _ _ ok2 r2]; rfl
  · rw [a2]; omega
  · rw [append_pktbuf_head, (append_frame cfgT s1 longLine).2.2.2.2.1, a1,
      endpacket_pos s1 (by rw [p1.2.2.1]; decide), p1.2.2.2.2.1]
    show (((s1.pktbuf_head + 1) % pktbuf_size) + 1) % pktbuf_size = 0
    rw [p1.2.2.2.1]; rfl
  · rw [q4, q5]

/-- C4: under the start-up sanity check, in every state of the event loop the
write cursor stays more than 64 KiB before the physical end of `outbuf`, the
packet in progress ends inside `outbuf`, every slot of `pktbuf` (queued or
not) denotes a region that ends inside `outbuf`, and every index that
`addline` writes for any line is below `outbuf_size`. -/
theorem C4_storage_bounds (cfg : Config) (hc : sane cfg) (s : State)
    (hr : Reachable cfg s) :
    s.outbuf_head + 65536 < outbuf_size ∧
    s.outbuf_head + s.outbuf_len ≤ outbuf_size ∧
    (∀ i, (s.pktbuf i).data + (s.pktbuf i).len ≤ outbuf_size) ∧
    (∀ buf i, Writes cfg s buf i → i < outbuf_size) := by
  have hb := bounded_of_reachable cfg hc s hr
  have h1 := hb.1
  have h2 := hb.2.1
  exact ⟨h1, by omega, hb.2.2.1, fun buf i hw => writes_in_bounds cfg hc s hb buf i hw⟩

/-- C4 at the state reached by admitting the line `a` at program start. -/
theorem C4_witness :
    sane defaults ∧ Reachable defaults (addline defaults init [97]) ∧
    ((addline defaults init [97]).outbuf_head + 65536 < outbuf_size ∧
     (addline defaults init [97]).outbuf_head + (addline defaults init [97]).outbuf_len ≤
       outbuf_size ∧
     (∀ i, ((addline defaults init [97]).pktbuf i).data +
       ((addline defaults init [97]).pktbuf i).len ≤ outbuf_size) ∧
     (∀ buf i, Writes defaults (addline defaults init [97]) buf i → i < outbuf_size)) :=
  ⟨sane_defaults, Reachable.line init [97] Reachable.init (by decide),
    C4_storage_bounds defaults sane_defaults _
      (Reachable.line init [97] Reachable.init (by decide))⟩

/-- C5 (fails on the code): (1) a chunk without a line terminator, read into
the empty accumulator at program start: no line is consumed (`input_ptr`
stays 0 although `hasroom` holds), the two bytes are the unconsumed rest, and
yet the accumulator is empty afterwards; (2) a chunk read while `hasroom` is
false from the start (descriptor queue full after 1023 rounds of `fill`): no
line is consumed and the accumulator is empty afterwards. -/
theorem C5_fragment_dropped :
    (hasroom init = true ∧
      (lines defaults 2 { init with input_buf := [97, 98] } 0).2 = 0 ∧
      (readStep defaults init [97, 98]).input_buf = [] ∧
      (readStep defaults init [97, 98]).input_len = 0) ∧
    (∃ s, run cfgT (fill 1023) init = .running s ∧ hasroom s = false ∧
      s.input_buf = [] ∧
      (lines cfgT 2 { s with input_buf := s.input_buf ++ [97, 10] } 0).2 = 0 ∧
      (readStep cfgT s [97, 10]).input_buf = []) := by
  refine ⟨by decide, ?_⟩
  obtain ⟨s, r, p, _⟩ := fill_run 1023 0 init filled_init (by decide)
  have hroom : hasroom s = false := by
    unfold hasroom
    rw [if_pos (by rw [p.2.2.2.1, p.2.2.2.2.1]; rfl)]
  have hl : ∀ fuel, lines cfgT fuel { s with input_buf := s.input_buf ++ [97, 10] } 0 =
      ({ s with input_buf := s.input_buf ++ [97, 10] }, 0) :=
    fun fuel => lines_noroom cfgT fuel _ 0 hroom
  refine ⟨s, r, hroom, p.2.1, by rw [hl], ?_⟩
  unfold readStep
  simp only
  rw [hl]
  unfold compact
  rw [if_neg (by simp)]

/-- C6 (as stated it fails on the code): one line of 65534 bytes admitted at
program start is sealed into a descriptor of 65535 bytes, the terminator
coming on top of the 65534 bytes of the cap. -/
theorem C6_counterexample :
    Reachable defaults (addline defaults init bigLine) ∧
    enqs (addline defaults init bigLine).trace = [(0, 65535)] := by
  refine ⟨Reachable.line init bigLine Reachable.init (by decide), ?_⟩
  obtain ⟨a1, a2, a3⟩ := addline_alone defaults rfl rfl init bigLine rfl bigLine_strip
    (by rw [bigLine_length]; decide) (by rw [bigLine_length])
  have g1 := append_outbuf_head defaults init bigLine
  have g3 := append_trace defaults init bigLine
  rw [a1] at g1 g3
  rw [a3, endpacket_pos _ (by rw [a2]; omega)]
  simp only [g1, g3, a2, bigLine_length, enqs_append]
  rfl

/-- C6 (amended): under the start-up sanity check every record (header, line
bytes after the cap, terminator) has at most 65535 bytes, of which at most
65534 are header and line bytes, and every descriptor queued by `endpacket`
has between 1 and 65535 bytes. -/
theorem C6_packet_length (cfg : Config) (hc : sane cfg) (s : State)
    (hr : Reachable cfg s) :
    (∀ ln buf, (header cfg ln).length +
        capLen (header cfg ln).length (stripLen buf buf.length) ≤ 65534 ∧
      (record cfg ln buf).length ≤ 65535) ∧
    s.outbuf_len ≤ 65535 ∧
    (∀ d l p, Obs.enq d l p ∈ s.trace → 0 < l ∧ l ≤ 65535) := by
  obtain ⟨_, h2, _, h4⟩ := bounded_of_reachable cfg hc s hr
  refine ⟨?_, h2, h4⟩
  intro ln buf
  have hh : (header cfg ln).length ≤ 65534 := by
    have := header_length_le cfg hc ln; omega
  have := capLen_le (header cfg ln).length (stripLen buf buf.length) hh
  rw [record_length]
  exact ⟨this, by omega⟩

/-- C6 (amended) at the state reached by admitting one line of 65534 bytes:
the bound 65535 is attained. -/
theorem C6_witness :
    sane defaults ∧ Reachable defaults (addline defaults init bigLine) ∧
    ((∀ ln buf, (header defaults ln).length +
        capLen (header defaults ln).length (stripLen buf buf.length) ≤ 65534 ∧
      (record defaults ln buf).length ≤ 65535) ∧
    (addline defaults init bigLine).outbuf_len ≤ 65535 ∧
    (∀ d l p, Obs.enq d l p ∈ (addline defaults init bigLine).trace → 0 < l ∧ l ≤ 65535)) :=
  ⟨sane_defaults, Reachable.line init bigLine Reachable.init (by decide),
    C6_packet_length defaults sane_defaults _
      (Reachable.line init bigLine Reachable.init (by decide))⟩

/-- C7: (1) for every state and every line that is not empty after
stripping, `addline` puts the whole record (header, line bytes, terminator)
directly behind the packet in progress, and that packet either stays in
progress under the same start offset or is sealed, in the same call, into the
one descriptor whose region holds it; (2) in every state of the event loop
the packet in progress is a concatenation of whole records, and every packet
sealed so far was, when it was sealed, a non-empty concatenation of whole
records that ends with the terminator and has the length of its descriptor. -/
theorem C7_lines_not_split (cfg : Config) :
    (∀ (s : State) (buf : List Byte), stripLen buf buf.length ≠ 0 →
      ((addline cfg s buf).outbuf_len ≠ 0 ∧
        (addline cfg s buf).outbuf_head = (preSeal cfg s buf).outbuf_head ∧
        bytesAt (addline cfg s buf).outbuf (addline cfg s buf).outbuf_head
            (addline cfg s buf).outbuf_len =
          bytesAt s.outbuf (preSeal cfg s buf).outbuf_head (preSeal cfg s buf).outbuf_len ++
            record cfg s.line_number buf) ∨
      ((addline cfg s buf).outbuf_len = 0 ∧
        (addline cfg s buf).pktbuf (preSeal cfg s buf).pktbuf_head =
          ⟨(preSeal cfg s buf).outbuf_head,
            (preSeal cfg s buf).outbuf_len + (record cfg s.line_number buf).length⟩ ∧
        (addline cfg s buf).trace = (preSeal cfg s buf).trace ++
          [Obs.enq (preSeal cfg s buf).outbuf_head
            ((preSeal cfg s buf).outbuf_len + (record cfg s.line_number buf).length)
            (bytesAt s.outbuf (preSeal cfg s buf).outbuf_head
                (preSeal cfg s buf).outbuf_len ++
              record cfg s.line_number buf)])) ∧
    (∀ s : State, Reachable cfg s →
      WholeRecords cfg (bytesAt s.outbuf s.outbuf_head s.outbuf_len) ∧
      ∀ d l p, Obs.enq d l p ∈ s.trace →
        WholeRecords cfg p ∧ p.length = l ∧ p.getLast? = some 10) :=
  ⟨fun s buf hne => addline_one_packet cfg s buf hne,
    fun s hr => ⟨(tidy_of_reachable cfg s hr).1, (tidy_of_reachable cfg s hr).2.2⟩⟩

/-- C7 on the line `a` admitted at program start and sealed at end of input:
the sealed packet is the record `a\n`. -/
theorem C7_witness :
    stripLen [97] [97].length ≠ 0 ∧
    Reachable defaults (endpacket (addline defaults init [97])) ∧
    Obs.enq 0 2 [97, 10] ∈ (endpacket (addline defaults init [97])).trace ∧
    (WholeRecords defaults [97, 10] ∧ [97, 10].length = 2 ∧
      [97, 10].getLast? = some 10) :=
  ⟨by decide,
    Reachable.forced _ (Reachable.line init [97] Reachable.init (by decide)),
    by decide,
    ((C7_lines_not_split defaults).2 (endpacket (addline defaults init [97]))
      (Reachable.forced _ (Reachable.line init [97] Reachable.init (by decide)))).2
      0 2 [97, 10] (by decide)⟩

/-- C8 (fails on the code as stated): after 1023 rounds of `fill` the
descriptor queue is full, so `hasroom` is false, the loop is in normal
operation, and it still registers `POLLIN` for standard input; when input is
ready it calls `read` in that pass. -/
theorem C8_counterexample :
    ∃ s, run cfgT (fill 1023) init = .running s ∧
      runOk cfgT (fill 1023 ++ [rdEv [97, 10]]) init = true ∧
      s.flushing = false ∧ hasroom s = false ∧ events0 s &&& POLLIN ≠ 0 ∧
      reads (iteration cfgT (rdEv [97, 10]) s).state.trace = reads s.trace + 1 := by
  obtain ⟨s, r, p, o⟩ := fill_run 1023 0 init filled_init (by decide)
  obtain ⟨h1, h2, h3, h4, h5, h6, h7, h8, h9⟩ := p
  have hroom : hasroom s = false := by
    unfold hasroom
    rw [if_pos (by rw [h4, h5]; rfl)]
  have he0 : events0 s = POLLIN := by
    unfold events0 State.input_len; rw [h2]; rfl
  have it := iter_read_noroom cfgT s [97, 10] h1 h2 hroom (by decide) (by decide)
  have ok := admissible_read cfgT s [97, 10] h1 h2 (by decide) (by decide)
  refine ⟨s, r, ?_, h1, hroom, by rw [he0]; decide, ?_⟩
  · apply runOk_append cfgT _ _ init s r o
    rw [runOk_cons_running cfgT _ _ _ _ ok it]; rfl
  · rw [it]
    show reads (s.trace ++ [Obs.rd]) = reads s.trace + 1
    rw [reads_append]; rfl

/-- C8 (amended): in normal operation the loop registers `POLLIN` for
standard input exactly when the input accumulator has spare room
(`input_len < insize`), whatever `hasroom` returns; and a pass in which
`POLLIN` is not registered calls `read` not at all. -/
theorem C8_input_interest (cfg : Config) (ev : Event) (s : State)
    (hf : s.flushing = false) :
    (events0 s &&& POLLIN ≠ 0 ↔ s.input_len < insize) ∧
    (events0 s &&& POLLIN = 0 →
      reads (iteration cfg ev s).state.trace = reads s.trace) := by
  have key : events0 s &&& POLLIN ≠ 0 ↔ s.input_len < insize := by
    unfold events0
    split
    · rename_i h; simp only [h, iff_true]; decide
    · rename_i h; simp only [h, iff_false]; decide
  refine ⟨key, fun h0 => no_interest_no_read cfg ev s hf ?_⟩
  intro hlt
  exact (key.mpr hlt) h0

/-- C8 (amended) on a state in normal operation whose accumulator is full:
`POLLIN` is not registered and the pass makes no call of `read`, although
input is ready. -/
theorem C8_witness :
    fullInput.flushing = false ∧
    ((events0 fullInput &&& POLLIN ≠ 0 ↔ fullInput.input_len < insize) ∧
     (events0 fullInput &&& POLLIN = 0 →
       reads (iteration defaults (rdEv [97, 10]) fullInput).state.trace =
         reads fullInput.trace)) :=
  ⟨rfl, C8_input_interest defaults (rdEv [97, 10]) fullInput rfl⟩

/-- C9 (fails on the code): the line `a` is read, then `read` returns 0 and
the loop starts flushing with one packet queued.  The next pass polls the
socket only, finds the stale `POLLIN` in `fds[0].revents` and calls `read` a
third time. -/
theorem C9_read_while_flushing :
    runOk defaults [rdEv [97, 10], eofEv, txEv 2] init = true ∧
    (run defaults [rdEv [97, 10], eofEv] init).code = none ∧
    (run defaults [rdEv [97, 10], eofEv] init).state.flushing = true ∧
    reads (run defaults [rdEv [97, 10], eofEv] init).state.trace = 2 ∧
    reads (iteration defaults (txEv 2)
      (run defaults [rdEv [97, 10], eofEv] init).state).state.trace = 3 := by
  decide

/-- C10 (fails on the code): the run of C3, followed by end of input, leaves
the loop with status 0 although none of the 1024 descriptors queued by
`endpacket` was handed to `send`: once `pktbuf_head` has come round to
`pktbuf_tail` the queue looks empty to the drain test. -/
theorem C10_exit_zero_with_descriptors_unsent :
    ∃ s, main cfgT
        (fill 1022 ++ [rdEv [97, 10], rdEv (longLine ++ [10]), eofEv, eofEv]) =
          .exited 0 s ∧
      runOk cfgT
        (fill 1022 ++ [rdEv [97, 10], rdEv (longLine ++ [10]), eofEv, eofEv]) init = true ∧
      txs s.trace = [] ∧ (enqs s.trace).length = 1024 := by
  obtain ⟨s0, r0, p0, o0⟩ := fill_run 1022 0 init filled_init (by decide)
  obtain ⟨s1, r1, p1⟩ := fill_half 1022 s0 p0 (by decide)
  obtain ⟨s2, r2, q1, q2, q3, q4, q5, q6, q7⟩ := overflow_step s1 p1
  have hi2 : s2.input_len < insize := by unfold State.input_len; rw [q2]; decide
  have r3 := iter_eof cfgT s2 q1 hi2
  rw [endpacket_zero _ (by exact q3)] at r3
  have r3b : iteration cfgT eofEv s2 = .running
      { s2 with revents0 := POLLIN, revents1 := 0, trace := s2.trace ++ [Obs.rd],
                flushing := true } := r3
  have he : State.pktbuf_tail
      { s2 with revents0 := POLLIN, revents1 := 0, trace := s2.trace ++ [Obs.rd],
                flushing := true } =
      State.pktbuf_head
      { s2 with revents0 := POLLIN, revents1 := 0, trace := s2.trace ++ [Obs.rd],
                flushing := true } := by
    show s2.pktbuf_tail = s2.pktbuf_head
    rw [q4, q5]
  have r4 := iteration_exit cfgT eofEv
    { s2 with revents0 := POLLIN, revents1 := 0, trace := s2.trace ++ [Obs.rd], flushing := true }
    rfl he
  have ok1 := admissible_read cfgT s0 [97, 10] p0.1 p0.2.1 (by decide) (by decide)
  have ok2 := admissible_read cfgT s1 (longLine ++ [10]) p1.1 p1.2.1 (by simp)
    (by rw [List.length_append, longLine_length]; decide)
  have ok3 := admissible_eof cfgT s2 q1 hi2
  have ok4 := admissible_exit cfgT
    { s2 with revents0 := POLLIN, revents1 := 0, trace := s2.trace ++ [Obs.rd], flushing := true }
    eofEv rfl he
  refine ⟨{ s2 with revents0 := POLLIN, revents1 := 0, trace := s2.trace ++ [Obs.rd],
                    flushing := true }, ?_, ?_, ?_, ?_⟩
  · have hm : main cfgT
        (fill 1022 ++ [rdEv [97, 10], rdEv (longLine ++ [10]), eofEv, eofEv]) =
        run cfgT (fill 1022 ++ [rdEv [97, 10], rdEv (longLine ++ [10]), eofEv, eofEv]) init := by
      unfold main
      rw [if_neg (by decide)]
    rw [hm, run_append cfgT _ _ init s0 r0, run_cons_running cfgT _ _ _ _ r1,
      run_cons_running cfgT _ _ _ _ r2, run_cons_running cfgT _ _ _ _ r3b,
      run_cons_exited cfgT _ _ _ _ _ r4]
  · apply runOk_append cfgT _ _ init s0 r0 o0
    rw [runOk_cons_running cfgT _ _ _ _ ok1 r1, runOk_cons_running cfgT _ _ _ _ ok2 r2,
      runOk_cons_running cfgT _ _ _ _ ok3 r3b, runOk_cons_exited cfgT _ _ _ _ _ ok4 r4]
  · show txs (s2.trace ++ [Obs.rd]) = []
    rw [txs_append, q7]; rfl
  · show (enqs (s2.trace ++ [Obs.rd])).length = 1024
    rw [enqs_append, List.length_append, q6]; rfl


/-- C11: in every state with a non-empty descriptor queue, a send
of the oldest descriptor that returns a positive count makes the send loop go
on from the state `dequeue s`: `pktbuf_tail` becomes `(pktbuf_tail + 1) mod
1024`, `outbuf_tail` becomes the data offset of the new oldest descriptor, or
`outbuf_head` when the queue has become empty, exactly the oldest descriptor is
recorded as transmitted, and nothing else of the queue state changes. A send
that would block ends the pass with the state unchanged. -/
theorem C11_send_dequeues_one (cfg : Config) (send : Nat → SendResult) (fuel k : Nat)
    (s : State) (hne : s.pktbuf_head ≠ s.pktbuf_tail) :
    (∀ n, 0 < n → send k = SendResult.sent n →
      sendLoop cfg send (fuel + 1) k s = sendLoop cfg send fuel (k + 1) (dequeue s)) ∧
    ((dequeue s).pktbuf_tail = (s.pktbuf_tail + 1) % 1024 ∧
     (dequeue s).outbuf_tail =
        (if (s.pktbuf_tail + 1) % 1024 = s.pktbuf_head then s.outbuf_head
         else (s.pktbuf ((s.pktbuf_tail + 1) % 1024)).data) ∧
     txs (dequeue s).trace =
        txs s.trace ++ [((s.pktbuf s.pktbuf_tail).data, (s.pktbuf s.pktbuf_tail).len)] ∧
     (dequeue s).pktbuf_head = s.pktbuf_head ∧ (dequeue s).pktbuf = s.pktbuf ∧
     (dequeue s).outbuf = s.outbuf ∧ (dequeue s).outbuf_head = s.outbuf_head ∧
     (dequeue s).outbuf_len = s.outbuf_len ∧ (dequeue s).line_number = s.line_number) ∧
    (send k = SendResult.wouldBlock → sendLoop cfg send (fuel + 1) k s = Outcome.running s) := by
  have ht : (dequeue s).pktbuf_tail = (s.pktbuf_tail + 1) % 1024 := (dequeue_indices s).2
  refine ⟨?_, ⟨ht, ?_, ?_, rfl, rfl, rfl, rfl, rfl, rfl⟩, ?_⟩
  · intro n hn hs
    rw [sendLoop, if_pos hne, hs]
    simp only
    rw [if_neg (by omega)]
  · have e : (dequeue s).outbuf_tail =
        (if (dequeue s).pktbuf_tail = s.pktbuf_head then s.outbuf_head
         else (s.pktbuf (dequeue s).pktbuf_tail).data) := rfl
    rw [e, ht]
  · have e : (dequeue s).trace = s.trace ++
        [Obs.tx (s.pktbuf s.pktbuf_tail).data (s.pktbuf s.pktbuf_tail).len
          (bytesAt s.outbuf (s.pktbuf s.pktbuf_tail).data (s.pktbuf s.pktbuf_tail).len)] := rfl
    rw [e, txs_append]
    rfl
  · intro hs
    rw [sendLoop, if_pos hne, hs]

/-- C11 on the queue that holds the one packet of the line `a`, with a send
that takes its two bytes. -/
theorem C11_witness :
    (endpacket (addline defaults init [97])).pktbuf_head ≠
        (endpacket (addline defaults init [97])).pktbuf_tail ∧
    (dequeue (endpacket (addline defaults init [97]))).pktbuf_tail = 1 ∧
    (dequeue (endpacket (addline defaults init [97]))).outbuf_tail = 2 ∧
    txs (dequeue (endpacket (addline defaults init [97]))).trace = [(0, 2)] ∧
    sendLoop defaults (fun _ => SendResult.sent 2) 1 0 (endpacket (addline defaults init [97])) =
      sendLoop defaults (fun _ => SendResult.sent 2) 0 1
        (dequeue (endpacket (addline defaults init [97]))) :=
  ⟨by decide, by decide, by decide, by decide,
   (C11_send_dequeues_one defaults (fun _ => SendResult.sent 2) 0 0
      (endpacket (addline defaults init [97])) (by decide)).1 2 (by decide) rfl⟩

/-- C12: in every state of the event loop with a non-empty
descriptor queue, when the send of the oldest descriptor fails with an error
other than would-block: with `ignore_net_errs` on the loop goes on from the
state `dequeue s`, the same state from which it goes on after a send of that
descriptor that returns a positive count; with `ignore_net_errs` off the pass
ends the program with status 2 in the unchanged state. The pass ends with
status 2 if and only if `ignore_net_errs` is off. -/
theorem C12_send_failure (cfg : Config) (send : Nat → SendResult) (fuel k : Nat)
    (s : State) (hr : Reachable cfg s) (hne : s.pktbuf_head ≠ s.pktbuf_tail)
    (hf : send k = SendResult.failed) :
    (cfg.ignore_net_errs = true →
      sendLoop cfg send (fuel + 1) k s = sendLoop cfg send fuel (k + 1) (dequeue s) ∧
      ∀ (send2 : Nat → SendResult) (n : Nat), 0 < n → send2 k = SendResult.sent n →
        sendLoop cfg send2 (fuel + 1) k s = sendLoop cfg send2 fuel (k + 1) (dequeue s)) ∧
    (cfg.ignore_net_errs = false →
      sendLoop cfg send (fuel + 1) k s = Outcome.exited 2 s) ∧
    ((sendLoop cfg send (fuel + 1) k s).code = some 2 ↔ cfg.ignore_net_errs = false) := by
  have hlen := oldest_not_empty cfg s hr hne
  have hon : cfg.ignore_net_errs = true →
      sendLoop cfg send (fuel + 1) k s = sendLoop cfg send fuel (k + 1) (dequeue s) := by
    intro hi
    rw [sendLoop, if_pos hne, hf]
    simp only
    rw [if_pos hi, if_neg hlen]
  have hoff : cfg.ignore_net_errs = false →
      sendLoop cfg send (fuel + 1) k s = Outcome.exited 2 s := by
    intro hi
    rw [sendLoop, if_pos hne, hf]
    simp only
    rw [if_neg (by rw [hi]; decide)]
  refine ⟨?_, hoff, ?_⟩
  · intro hi
    refine ⟨hon hi, ?_⟩
    intro send2 n hn hs
    rw [sendLoop, if_pos hne, hs]
    simp only
    rw [if_neg (by omega)]
  · constructor
    · intro hc
      cases hi : cfg.ignore_net_errs with
      | false => rfl
      | true =>
        rw [sendLoop_ignore cfg hi send (fuel + 1) k s] at hc
        exact absurd hc (by decide)
    · intro hi
      rw [hoff hi]
      rfl

/-- C12 on the queue that holds the one packet of the line `a`, with the
default options and a send that fails. -/
theorem C12_witness :
    (endpacket (addline defaults init [97])).pktbuf_head ≠
        (endpacket (addline defaults init [97])).pktbuf_tail ∧
    sendLoop defaults (fun _ => SendResult.failed) 1 0 (endpacket (addline defaults init [97])) =
      Outcome.exited 2 (endpacket (addline defaults init [97])) :=
  ⟨by decide,
   (C12_send_failure defaults (fun _ => SendResult.failed) 0 0
      (endpacket (addline defaults init [97]))
      (Reachable.forced _ (Reachable.line _ _ Reachable.init (by decide))) (by decide) rfl).2.1
      rfl⟩


/-- C13: for every configuration (numbering on or off) and every
state, `addline` on a line that has no byte other than carriage returns (the
line of length 0 included) returns the state as it was: `outbuf`, `outbuf_head`,
`outbuf_len`, the descriptor queue and `line_number` are all unchanged. -/
theorem C13_empty_line_ignored (cfg : Config) (s : State) (buf : List Byte)
    (h : ∀ b ∈ buf, b = 13) : addline cfg s buf = s := by
  unfold addline
  rw [if_pos (stripLen_all_cr buf h buf.length (Nat.le_refl _))]

/-- C13 with numbering on: two carriage returns after the line `a`. -/
theorem C13_witness :
    (∀ b ∈ ([13, 13] : List Byte), b = 13) ∧
    addline cfgN (addline cfgN init [97]) [13, 13] = addline cfgN init [97] :=
  ⟨by decide, C13_empty_line_ignored cfgN (addline cfgN init [97]) [13, 13] (by decide)⟩


/-- C14: with numbering on and no prefix, under a configuration
that passed the sanity check: in a state reached from the initial state in
which `k` non-empty lines have been admitted so far (`k < 2 ^ 63`, so that the
counter has not left the range that `%ld` prints without sign), the sequence
number is `k`, the next non-empty line is appended as `decimal k`, the
delimiter, the line (its bytes up to the hard cap, all of them when it fits
and has no trailing carriage return) and the terminator, these bytes are what
`addline` leaves in `outbuf`, and the sequence number and the count of
non-empty lines both become `k + 1`. -/
theorem C14_numbering (cfg : Config) (hn : cfg.numbering = true) (hp : cfg.line_prefix = none)
    (hc : sane cfg) (s : State) (g : Ghost) (hg : Ghosted cfg s g) (hk : g.count < 2 ^ 63)
    (buf : List Byte) (hne : stripLen buf buf.length ≠ 0) :
    s.line_number = g.count ∧
    record cfg s.line_number buf =
      decimal g.count ++ cfg.line_delim ++
        buf.take (capLen (decimal g.count ++ cfg.line_delim).length (stripLen buf buf.length)) ++
        [10] ∧
    (stripLen buf buf.length = buf.length →
      buf.length + (decimal g.count ++ cfg.line_delim).length ≤ 65534 →
      record cfg s.line_number buf = decimal g.count ++ cfg.line_delim ++ buf ++ [10]) ∧
    bytesAt (addline cfg s buf).outbuf (writeStart cfg s buf)
      (record cfg s.line_number buf).length = record cfg s.line_number buf ∧
    (addline cfg s buf).line_number = g.count + 1 ∧
    (Ghost.line cfg s buf g).count = g.count + 1 := by
  have hln : s.line_number = g.count := by
    rw [counted_of_ghosted cfg hn s g hg]
    exact Nat.mod_eq_of_lt (by omega)
  have hh := header_numbered cfg hn hp g.count hk
  have hle : (header cfg g.count).length ≤ 65534 :=
    Nat.le_trans (header_length_le cfg hc _) (by decide)
  have hrec := record_eq_take cfg g.count buf hle
  rw [hh] at hrec
  refine ⟨hln, ?_, ?_, addline_written cfg s buf hne, ?_, ?_⟩
  · rw [hln]; exact hrec
  · intro hs hfit
    rw [hln, hrec, hs]
    unfold capLen
    rw [if_neg (by omega), List.take_length]
  · rw [addline_line_number, if_neg hne, if_pos hn, hln]
    exact Nat.mod_eq_of_lt (by omega)
  · rw [ghost_line_count, if_neg hne]

/-- C14 on the lines `a`, `b`, `c` with the tab as delimiter: the third line
gets the number 2, and the run that reads the three lines and then meets the
end of input queues the single payload `0\ta\n1\tb\n2\tc\n`. -/
theorem C14_witness :
    sane cfgN ∧
    (addline cfgN (addline cfgN init [97]) [98]).line_number = 2 ∧
    record cfgN (addline cfgN (addline cfgN init [97]) [98]).line_number [99] =
      [50, 9, 99, 10] ∧
    (addline cfgN (addline cfgN (addline cfgN init [97]) [98]) [99]).line_number = 3 ∧
    (run cfgN [rdEv [97, 10, 98, 10, 99, 10], eofEv] init).state.trace =
      [Obs.rd, Obs.rd, Obs.enq 0 12 [48, 9, 97, 10, 49, 9, 98, 10, 50, 9, 99, 10]] :=
  have hg : Ghosted cfgN (addline cfgN (addline cfgN init [97]) [98])
      (Ghost.line cfgN (addline cfgN init [97]) [98] (Ghost.line cfgN init [97] ⟨0, [], []⟩)) :=
    Ghosted.line _ _ [98] (Ghosted.line init ⟨0, [], []⟩ [97] Ghosted.init (by decide))
      (by decide)
  have h := C14_numbering cfgN rfl rfl (by decide) _ _ hg (by decide) [99] (by decide)
  ⟨by decide, h.1, h.2.2.1 (by decide) (by decide), h.2.2.2.2.1, by decide⟩


/-- C15: under a configuration that passed the sanity check, for
every state and every line that is not empty after carriage-return stripping:
when the stripped length plus the header length exceeds 65534, the record that
`addline` appends is the header, exactly the first `65534 - header length`
bytes of the line, and one terminator; otherwise it is the header, the whole
stripped line and one terminator. In both cases these bytes are what `addline`
leaves in `outbuf` behind the packet in progress, whose length grows by the
length of the record, and the call raises no condition: the loop flag
`flushing` is as before. -/
theorem C15_hard_cap (cfg : Config) (hc : sane cfg) (s : State) (buf : List Byte)
    (hne : stripLen buf buf.length ≠ 0) :
    (stripLen buf buf.length + (header cfg s.line_number).length > 65534 →
      record cfg s.line_number buf =
        header cfg s.line_number ++
          buf.take (65534 - (header cfg s.line_number).length) ++ [10] ∧
      (buf.take (65534 - (header cfg s.line_number).length)).length =
        65534 - (header cfg s.line_number).length) ∧
    (stripLen buf buf.length + (header cfg s.line_number).length ≤ 65534 →
      record cfg s.line_number buf =
        header cfg s.line_number ++ buf.take (stripLen buf buf.length) ++ [10]) ∧
    bytesAt (addline cfg s buf).outbuf (writeStart cfg s buf)
      (record cfg s.line_number buf).length = record cfg s.line_number buf ∧
    (append cfg s buf).outbuf_len =
      (preSeal cfg s buf).outbuf_len + (record cfg s.line_number buf).length ∧
    (addline cfg s buf).flushing = s.flushing := by
  have hh := header_length_le cfg hc s.line_number
  have hle : (header cfg s.line_number).length ≤ 65534 := by omega
  have hrec := record_eq_take cfg s.line_number buf hle
  have hsl := stripLen_le buf buf.length
  refine ⟨?_, ?_, addline_written cfg s buf hne, ?_, (addline_frame cfg s buf).2.1⟩
  · intro hgt
    have hcap : capLen (header cfg s.line_number).length (stripLen buf buf.length) =
        65534 - (header cfg s.line_number).length := by
      unfold capLen
      rw [if_pos hgt, intToSize_65534 hle]
    rw [hrec, hcap]
    refine ⟨rfl, ?_⟩
    rw [List.length_take]
    omega
  · intro hfit
    have hcap : capLen (header cfg s.line_number).length (stripLen buf buf.length) =
        stripLen buf buf.length := by
      unfold capLen
      rw [if_neg (by omega)]
    rw [hrec, hcap]
  · rw [append_outbuf_len, record_length]
    omega

/-- C15 with numbering on, at program start, on the line of 65534 bytes: the
header has two bytes and the line is cut to its first 65532 bytes. -/
theorem C15_witness :
    sane cfgN ∧ stripLen bigLine bigLine.length ≠ 0 ∧
    record cfgN init.line_number bigLine =
      header cfgN init.line_number ++
        bigLine.take (65534 - (header cfgN init.line_number).length) ++ [10] ∧
    (header cfgN init.line_number).length = 2 :=
  have hs : stripLen bigLine bigLine.length ≠ 0 := by
    rw [bigLine_strip, bigLine_length]; decide
  ⟨by decide, hs,
   ((C15_hard_cap cfgN (by decide) init bigLine hs).1
      (by rw [bigLine_strip, bigLine_length]; decide)).1,
   by decide⟩


/-- C16: single writer: for every state and every line, `addline`
and `endpacket` leave `outbuf_tail` and `pktbuf_tail` as they were; the send
loop, whatever `send` answers, leaves `outbuf_head`, `outbuf_len`,
`pktbuf_head`, the bytes of `outbuf`, the slots of `pktbuf` and `line_number`
as they were; and the tail cursors move only behind a send that returned a
positive count or failed with `ignore_net_errs` on: a send loop, and a whole
pass through the event loop, in which the first `send` does neither, ends with
both tail cursors unchanged. -/
theorem C16_single_writer (cfg : Config) :
    (∀ (s : State) (buf : List Byte),
      (addline cfg s buf).outbuf_tail = s.outbuf_tail ∧
      (addline cfg s buf).pktbuf_tail = s.pktbuf_tail) ∧
    (∀ s : State,
      (endpacket s).outbuf_tail = s.outbuf_tail ∧ (endpacket s).pktbuf_tail = s.pktbuf_tail) ∧
    (∀ (send : Nat → SendResult) (fuel k : Nat) (s : State),
      (sendLoop cfg send fuel k s).state.outbuf_head = s.outbuf_head ∧
      (sendLoop cfg send fuel k s).state.outbuf_len = s.outbuf_len ∧
      (sendLoop cfg send fuel k s).state.pktbuf_head = s.pktbuf_head ∧
      (sendLoop cfg send fuel k s).state.outbuf = s.outbuf ∧
      (sendLoop cfg send fuel k s).state.pktbuf = s.pktbuf ∧
      (sendLoop cfg send fuel k s).state.line_number = s.line_number) ∧
    (∀ (send : Nat → SendResult) (fuel k : Nat) (s : State),
      (∀ n, send k = SendResult.sent n → n = 0) →
      (send k = SendResult.failed → cfg.ignore_net_errs = false) →
      (sendLoop cfg send fuel k s).state = s) ∧
    (∀ (ev : Event) (s : State),
      (∀ n, ev.send 0 = SendResult.sent n → n = 0) →
      (ev.send 0 = SendResult.failed → cfg.ignore_net_errs = false) →
      (iteration cfg ev s).state.outbuf_tail = s.outbuf_tail ∧
      (iteration cfg ev s).state.pktbuf_tail = s.pktbuf_tail) := by
  refine ⟨?_, endpacket_tails, sendLoop_heads cfg, sendLoop_blocked cfg, iteration_tails cfg⟩
  intro s buf
  obtain ⟨_, _, _, _, h5, h6⟩ := addline_frame cfg s buf
  exact ⟨h6, h5⟩

/-- C16 on the queue that holds the one packet of the line `a`: a send that
fails without `ignore_net_errs` leaves the state as it was, a send that takes
the packet moves `pktbuf_tail`. -/
theorem C16_witness :
    (sendLoop defaults (fun _ => SendResult.failed) 3 0
        (endpacket (addline defaults init [97]))).state = endpacket (addline defaults init [97]) ∧
    (sendLoop defaults (fun _ => SendResult.sent 2) 3 0
        (endpacket (addline defaults init [97]))).state.pktbuf_tail = 1 :=
  ⟨(C16_single_writer defaults).2.2.2.1 (fun _ => SendResult.failed) 3 0
      (endpacket (addline defaults init [97])) (fun n h => by cases h) (fun _ => rfl),
   by decide⟩


/-- C17 (as stated it fails on the code): the line `a` and then the line of
1489 bytes `b` arrive at program start. When the second line is admitted the packet in
progress has 2 bytes and `2 + 0 + 1489 = 1491` does not exceed 1491, so the
packet is not sealed first; the record and its terminator join it and the
packet is sealed with two records and 1492 bytes, more than 1491. -/
theorem C17_counterexample :
    Ghosted defaults (addline defaults (addline defaults init [97]) nearLine)
      ⟨2, [], [[[97, 10], nearLine ++ [10]]]⟩ ∧
    (addline defaults (addline defaults init [97]) nearLine).trace =
      [Obs.enq 0 1492 ([97, 10] ++ (nearLine ++ [10]))] ∧
    (∃ s, run defaults [rdEv ([97] ++ [10]), rdEv (nearLine ++ [10])] init = Outcome.running s ∧
      enqs s.trace = [(0, 1492)] ∧
      enqPayloads s.trace = [[97, 10] ++ (nearLine ++ [10])]) := by
  refine ⟨?_, ?_, ?_⟩
  · have hg := Ghosted.line (addline defaults init [97]) (Ghost.line defaults init [97] ⟨0, [], []⟩)
      nearLine (Ghosted.line init ⟨0, [], []⟩ [97] Ghosted.init (by decide)) (by decide)
    rw [near_ghost _ _ (by decide)] at hg
    exact hg
  · have h1 : (addline defaults init [97]).trace = [] := by decide
    have h2 : (addline defaults init [97]).outbuf_head = 0 := by decide
    have h3 : bytesAt (addline defaults init [97]).outbuf 0 2 = [97, 10] := by decide
    rw [near_trace _ (by decide), h1, h2, h3, List.nil_append]
  · have e1 : iteration defaults (rdEv ([97] ++ [10])) init = Outcome.running oneLine :=
      iter_read_line defaults init [97] rfl rfl (by decide) (by decide) (by decide)
    have e2 := iter_read_line defaults oneLine nearLine (by decide) rfl (by decide)
      nearLine_no10 (by rw [nearLine_length]; decide)
    have ht : twoLines.trace =
        [Obs.rd] ++ [Obs.rd] ++ [Obs.enq 0 1492 ([97, 10] ++ (nearLine ++ [10]))] := by
      have h1 : oneLine.trace = [Obs.rd] := by decide
      have h2 : oneLine.outbuf_head = 0 := by decide
      have h3 : bytesAt oneLine.outbuf 0 2 = [97, 10] := by decide
      have ht := near_trace
        { oneLine with
          input_buf := nearLine ++ [10], revents0 := POLLIN, revents1 := 0,
          trace := oneLine.trace ++ [Obs.rd] } (by decide)
      simp only [h1, h2, h3] at ht
      exact ht
    have hrun : run defaults [rdEv ([97] ++ [10]), rdEv (nearLine ++ [10])] init =
        Outcome.running { twoLines with input_buf := [] } :=
      (run_cons_running defaults _ [rdEv (nearLine ++ [10])] _ _ e1).trans
        (run_cons_running defaults _ [] _ _ e2)
    refine ⟨{ twoLines with input_buf := [] }, hrun, ?_, ?_⟩
    · rw [trace_input_buf, ht]
      rfl
    · rw [trace_input_buf, ht]
      rfl

/-- C17 (amended): in every state of the event loop, with its history `g`:
when a packet is in progress and its length plus the header and the line bytes
of the next non-empty line (terminator not counted) exceeds 1491, `addline`
seals the packet in progress as it is before it writes the record, and the
record starts the next packet; otherwise the record joins the packet in
progress, which then has at most 1492 bytes. Consequently every packet, sealed
or in progress, that holds two or more records has at most 1492 bytes (1491
plus the terminator of its last record), the sealed packets being exactly the
payloads entered into the descriptor queue. -/
theorem C17_soft_cap (cfg : Config) (s : State) (g : Ghost) (hg : Ghosted cfg s g) :
    (∀ buf : List Byte, stripLen buf buf.length ≠ 0 → s.outbuf_len ≠ 0 →
      (s.outbuf_len + (header cfg s.line_number).length +
          capLen (header cfg s.line_number).length (stripLen buf buf.length) > 1491 →
        enqs (preSeal cfg s buf).trace = enqs s.trace ++ [(s.outbuf_head, s.outbuf_len)] ∧
        (preSeal cfg s buf).outbuf_len = 0 ∧
        (append cfg s buf).outbuf_len = (record cfg s.line_number buf).length) ∧
      (¬ s.outbuf_len + (header cfg s.line_number).length +
          capLen (header cfg s.line_number).length (stripLen buf buf.length) > 1491 →
        enqs (preSeal cfg s buf).trace = enqs s.trace ∧
        (append cfg s buf).outbuf_len =
          s.outbuf_len + (record cfg s.line_number buf).length ∧
        (append cfg s buf).outbuf_len ≤ 1492)) ∧
    enqPayloads s.trace = g.sealed.map List.flatten ∧
    bytesAt s.outbuf s.outbuf_head s.outbuf_len = g.cur.flatten ∧
    (∀ rs ∈ g.sealed, 2 ≤ rs.length → rs.flatten.length ≤ 1492) ∧
    (2 ≤ g.cur.length → s.outbuf_len ≤ 1492) := by
  obtain ⟨hk, hc⟩ := kept_of_ghosted cfg s g hg
  refine ⟨?_, hk.2.1, hk.1, hc.2, ?_⟩
  · intro buf hne h0
    obtain ⟨ln, e⟩ := preSeal_eq cfg s buf
    constructor
    · intro hgt
      rw [if_pos ⟨h0, hgt⟩] at e
      have hpos : (0 : Nat) < s.outbuf_len := by omega
      have e2 := endpacket_pos { s with line_number := ln } hpos
      rw [append_outbuf_len, record_length, e, e2]
      simp only [enqs_append, enqs]
      refine ⟨trivial, trivial, ?_⟩
      omega
    · intro hle
      rw [if_neg (fun h => hle h.2)] at e
      rw [append_outbuf_len, record_length, e]
      simp only
      refine ⟨trivial, ?_, ?_⟩ <;> omega
  · intro h2
    rw [← kept_len s g hk]
    exact hc.1 h2

/-- C17 (amended) on the lines `a` and `b` sealed at end of input: one packet
of two records and four bytes. -/
theorem C17_witness :
    Ghosted defaults (endpacket (addline defaults (addline defaults init [97]) [98]))
      ⟨2, [], [[[97, 10], [98, 10]]]⟩ ∧
    enqPayloads (endpacket (addline defaults (addline defaults init [97]) [98])).trace =
      [[97, 10, 98, 10]] ∧
    (∀ rs ∈ [[[97, 10], [98, 10]]], 2 ≤ rs.length → rs.flatten.length ≤ 1492) :=
  have hg : Ghosted defaults (endpacket (addline defaults (addline defaults init [97]) [98]))
      ⟨2, [], [[[97, 10], [98, 10]]]⟩ :=
    Ghosted.forced _ _ (Ghosted.line _ _ [98]
      (Ghosted.line init ⟨0, [], []⟩ [97] Ghosted.init (by decide)) (by decide))
  ⟨hg, (C17_soft_cap defaults _ _ hg).2.1, (C17_soft_cap defaults _ _ hg).2.2.2.1⟩


/-- C18: under a configuration that passed the sanity check: for
every state and every non-empty line the packet in progress has fewer than
1491 bytes when `addline` returns; a packet that has reached 1491 bytes after
the copy is sealed by the same call, which leaves no packet in progress; an
empty line keeps a packet below 1491 below 1491; and `outbuf_len < 1491` holds
in every state of the event loop, in particular after every run of passes from
the initial state. -/
theorem C18_greedy_packing (cfg : Config) (hc : sane cfg) :
    (∀ (s : State) (buf : List Byte), stripLen buf buf.length ≠ 0 →
      (addline cfg s buf).outbuf_len < 1491 ∧
      (1491 ≤ (append cfg s buf).outbuf_len →
        addline cfg s buf = endpacket (append cfg s buf) ∧
        (addline cfg s buf).outbuf_len = 0)) ∧
    (∀ (s : State) (buf : List Byte), s.outbuf_len < 1491 →
      (addline cfg s buf).outbuf_len < 1491) ∧
    (∀ s : State, Reachable cfg s → s.outbuf_len < 1491) ∧
    (∀ evs : List Event, (run cfg evs init).state.outbuf_len < 1491) := by
  refine ⟨?_, ?_, below_of_reachable cfg hc, ?_⟩
  · intro s buf hne
    refine ⟨addline_below cfg hc s buf (Or.inl hne), ?_⟩
    intro hge
    have hh := header_length_le cfg hc s.line_number
    have e := addline_closed cfg s buf hne (by rw [intToSize_1491 (by omega)]; omega)
    exact ⟨e, by rw [e, endpacket_outbuf_len]⟩
  · intro s buf h
    exact addline_below cfg hc s buf (Or.inr h)
  · intro evs
    exact below_of_reachable cfg hc _ (reachable_run cfg evs init Reachable.init)

/-- C18 on the line `a` followed by the line of 1489 bytes, as two calls of
`addline` and as a run of two reads. -/
theorem C18_witness :
    sane defaults ∧
    (addline defaults (addline defaults init [97]) nearLine).outbuf_len < 1491 ∧
    (run defaults [rdEv ([97] ++ [10]), rdEv (nearLine ++ [10])] init).state.outbuf_len < 1491 :=
  ⟨by decide,
   ((C18_greedy_packing defaults (by decide)).1 (addline defaults init [97]) nearLine
      (by rw [nearLine_strip, nearLine_length]; decide)).1,
   (C18_greedy_packing defaults (by decide)).2.2.2 _⟩


/-- C19 (as stated it fails on the code): fifteen lines of 65534 bytes and
one of 14 bytes arrive in one read at program start. The packet in progress then has 15 bytes
and ends at offset 983040, so that advancing would leave exactly 65536 bytes
before the physical end, not less than 65536: `endpacket` sets `outbuf_head`
to 0 all the same, where the reference of the claim advances it to 983040. -/
theorem C19_counterexample :
    ∃ s, run defaults [rdEv (bigChunk 15 ++ (edgeLine ++ [10]))] init = Outcome.running s ∧
      s.outbuf_len = 15 ∧
      outbuf_size - (s.outbuf_head + s.outbuf_len) = 65536 ∧
      (endpacket s).outbuf_head = 0 ∧
      (endpacketRef s).outbuf_head = 983040 := by
  obtain ⟨s, hrun, hh, hl, _⟩ := edge_run
  refine ⟨s, run_cons_running defaults _ [] init s hrun, hl, ?_, ?_, ?_⟩
  · rw [hh, hl]; decide
  · rw [endpacket_pos s (by rw [hl]; decide)]
    simp only
    rw [hh, hl]
    decide
  · unfold endpacketRef endpacketRefWith
    rw [if_neg (by rw [hl]; decide)]
    simp only
    rw [hh, hl]
    decide

/-- C19 (amended): for every state, `endpacket` equals the reference with
the wrap at 65536 bytes included: with no packet in progress the state is
unchanged; otherwise the descriptor `(outbuf_head, outbuf_len)` is stored at
slot `pktbuf_head`, `pktbuf_head` becomes `(pktbuf_head + 1) mod 1024`,
`outbuf_len` becomes 0, and the new `outbuf_head` is `outbuf_head + outbuf_len`,
except that it is 0 exactly when advancing would leave at most 65536 bytes
before the physical end (`outbuf_size - (outbuf_head + outbuf_len) ≤ 65536`). -/
theorem C19_endpacket_reference (s : State) : endpacket s = endpacketRefAtMost s := by
  unfold endpacket endpacketRefAtMost endpacketRefWith
  by_cases h : s.outbuf_len = 0
  · rw [if_neg (by omega), if_pos h]
  · rw [if_pos (by omega), if_neg h]
    simp only
    by_cases hw : s.outbuf_head + s.outbuf_len + 65536 ≥ outbuf_size
    · have hd : decide (outbuf_size - (s.outbuf_head + s.outbuf_len) ≤ 65536) = true := by
        rw [decide_eq_true_eq]; omega
      rw [if_pos hw, if_pos hd]
      rfl
    · have hd : ¬ decide (outbuf_size - (s.outbuf_head + s.outbuf_len) ≤ 65536) = true := by
        rw [decide_eq_true_eq]; omega
      rw [if_neg hw, if_neg hd]
      rfl


/-- C20: under a configuration that passed the sanity check, for
every state `s`, every byte string `b` and every `k`, `addline` on `b` followed
by `k` carriage returns yields the same state as `addline` on `b`. Nothing but
trailing carriage returns is removed: when `b` does not end with a carriage
return its stripped length is its whole length, so the record of `b` followed
by `k` carriage returns is the header, the bytes of `b` up to the hard cap
(carriage returns inside `b` included) and the terminator. -/
theorem C20_trailing_cr_stripped (cfg : Config) (hc : sane cfg) (s : State)
    (b : List Byte) (k : Nat) :
    addline cfg s (b ++ List.replicate k 13) = addline cfg s b ∧
    (b.getLast? ≠ some 13 →
      stripLen (b ++ List.replicate k 13) (b ++ List.replicate k 13).length = b.length ∧
      record cfg s.line_number (b ++ List.replicate k 13) =
        header cfg s.line_number ++
          b.take (capLen (header cfg s.line_number).length b.length) ++ [10]) := by
  have hh : (header cfg s.line_number).length ≤ 65534 :=
    Nat.le_trans (header_length_le cfg hc _) (by decide)
  have hs := stripLen_append_cr b k
  constructor
  · apply addline_congr cfg s _ _ hs
    intro j hj
    have h1 := capLen_le_len (header cfg s.line_number).length (stripLen b b.length) hh
    have h2 := stripLen_le b b.length
    rw [List.getD_append _ _ _ _ (by omega)]
  · intro hl
    have hn := stripLen_no_cr b hl
    refine ⟨by rw [hs, hn], ?_⟩
    rw [record_eq_take cfg _ _ hh, hs, hn]
    have h1 := capLen_le_len (header cfg s.line_number).length b.length hh
    rw [List.take_append_of_le_length h1]

/-- C20 on the line `a\rb` followed by three carriage returns. -/
theorem C20_witness :
    sane defaults ∧
    addline defaults init ([97, 13, 98] ++ List.replicate 3 13) =
      addline defaults init [97, 13, 98] ∧
    record defaults 0 ([97, 13, 98] ++ List.replicate 3 13) = [97, 13, 98, 10] :=
  ⟨by decide,
   (C20_trailing_cr_stripped defaults (by decide) init [97, 13, 98] 3).1,
   by decide⟩


end Log2udp2
